import Mathlib

set_option linter.unusedVariables false

/-!
Shallow embedding of the dependency-planning core of the vcpkg package
manager (file `toolsrc/src/vcpkg/dependencies.cpp`), together with proofs
of the stated properties of that code.

Machine data structures are embedded as follows: `std::unordered_map` and
`std::unordered_set` become insertion-ordered association lists and
duplicate-free lists, pointers into the cluster arena become `PackageSpec`
keys (the arena is keyed by spec, and `ClusterPtr` hashing/equality uses
the spec), `Optional<T>` becomes `Option`, and fatal `Checks::check_exit` /
`Checks::exit_with_message` aborts become `Option.none` results.  The
mutually recursive procedures `mark_plus` / `mark_minus` are embedded as a
single structurally recursive interpreter over an explicit command type,
with a fuel parameter; fatal errors and fuel exhaustion both yield `none`.
Code of the repository that is not part of the file under review (the
generic graph/topological-sort primitive of `graphs.h` and the small
spec-conversion helpers of `packagespec.cpp`) is modelled from the
specification, as marked on each such definition.
-/

namespace Vcpkg

/-- A `PackageSpec` is a pair of a package name and a triplet (target
platform identifier); equality uses both components. -/
structure PackageSpec where
  name : String
  triplet : String
deriving DecidableEq, Repr

/-- A `FeatureSpec` is a `PackageSpec` together with a feature name; the
empty feature name denotes the core package. -/
structure FeatureSpec where
  spec : PackageSpec
  feature : String
deriving DecidableEq, Repr

/-- Request classification of a plan action (enum `RequestType`). -/
inductive RequestType where
  | UNKNOWN
  | USER_REQUESTED
  | AUTO_SELECTED
deriving DecidableEq, Repr

/-- Install plan kinds (enum `InstallPlanType`). -/
inductive InstallPlanType where
  | UNKNOWN
  | BUILD_AND_INSTALL
  | INSTALL
  | ALREADY_INSTALLED
  | EXCLUDED
deriving DecidableEq, Repr

/-- Remove plan kinds (enum `RemovePlanType`). -/
inductive RemovePlanType where
  | UNKNOWN
  | NOT_INSTALLED
  | REMOVE
deriving DecidableEq, Repr

/-- Export plan kinds (enum `ExportPlanType`). -/
inductive ExportPlanType where
  | UNKNOWN
  | ALREADY_BUILT
  | PORT_AVAILABLE_BUT_NOT_BUILT
deriving DecidableEq, Repr

/-- Result of `mark_plus` (enum `MarkPlusResult`). -/
inductive MarkPlusResult where
  | FEATURE_NOT_FOUND
  | SUCCESS
deriving DecidableEq, Repr

/-- Modelled from the spec: a dependency entry of a source control file
carries a package name, an optional feature, an optional triplet override
and an optional platform qualifier restricting the triplets to which the
entry applies (the parsed `Dependency` type of `packagespec.h`, which is
not part of the file under review). -/
structure Dependency where
  name : String
  feature : String
  tripletOverride : Option String
  platforms : Option (List String)
deriving DecidableEq, Repr

/-- A feature paragraph of a source control file: a feature name and its
dependency list. -/
structure FeatureParagraph where
  name : String
  depends : List Dependency
deriving DecidableEq, Repr

/-- The core paragraph of a source control file. -/
structure SourceParagraph where
  name : String
  depends : List Dependency
deriving DecidableEq, Repr

/-- A `SourceControlFile`: core paragraph plus feature paragraphs
(immutable port metadata). -/
structure SourceControlFile where
  core_paragraph : SourceParagraph
  feature_paragraphs : List FeatureParagraph
deriving DecidableEq, Repr

/-- One installed feature row of the status database: the package spec,
the feature string (empty means core) and the flattened dependency name
list, as used by the planner. -/
structure StatusParagraph where
  spec : PackageSpec
  feature : String
  depends : List String
deriving DecidableEq, Repr

/-- A binary paragraph (only the fields the planning file reads). -/
structure BinaryParagraph where
  spec : PackageSpec
  depends : List String
deriving DecidableEq, Repr

/-- A built binary control file: core paragraph and feature paragraphs. -/
structure BinaryControlFile where
  core_paragraph : BinaryParagraph
  features : List BinaryParagraph
deriving DecidableEq, Repr

/-- An `AnyParagraph` envelope: at most one of a status paragraph, a
binary control file or a source control file. -/
structure AnyParagraph where
  status_paragraph : Option StatusParagraph
  binary_control_file : Option BinaryControlFile
  source_control_file : Option SourceControlFile
deriving DecidableEq, Repr

/-- Association-list lookup keyed by decidable equality (embedding of
`std::unordered_map::find`; insertion order is kept explicit). -/
def alookup {α β : Type} [DecidableEq α] : List (α × β) → α → Option β
  | [], _ => none
  | (k, v) :: rest, key => if k = key then some v else alookup rest key

/-- Insert into a duplicate-free list unless already present (embedding of
`std::unordered_set::insert`). -/
def sinsert {α : Type} [DecidableEq α] (x : α) (l : List α) : List α :=
  if x ∈ l then l else l ++ [x]

/-- The map-backed port provider (`MapPortFileProvider`): a name-keyed
map of source control files. -/
abbrev PortProvider : Type := List (String × SourceControlFile)

/-- `MapPortFileProvider::get_control_file`: pure lookup in the wrapped
map. -/
def get_control_file (prov : PortProvider) (name : String) : Option SourceControlFile :=
  alookup prov name

/-- Per-feature node of a cluster (`FeatureNodeEdges`): reverse edges
(populated only from installed state), forward build edges, and the
install mark. -/
structure FeatureNodeEdges where
  remove_edges : List FeatureSpec
  build_edges : List FeatureSpec
  plus : Bool
deriving DecidableEq, Repr

/-- The empty feature node, as default-constructed by
`unordered_map::operator[]`. -/
def FeatureNodeEdges.empty : FeatureNodeEdges :=
  { remove_edges := [], build_edges := [], plus := false }

/-- Planner working state for one package (`Cluster`).  Field defaults
mirror the C++ member initializers. -/
structure Cluster where
  spec : PackageSpec
  source_control_file : Option SourceControlFile
  status_paragraphs : List StatusParagraph
  edges : List (String × FeatureNodeEdges)
  to_install_features : List String
  original_features : List String
  will_remove : Bool
  transient_uninstalled : Bool
  request_type : RequestType
deriving DecidableEq, Repr

/-- A fresh cluster for `spec`, as created by `ClusterGraph::get` on a
miss before `cluster_from_scf` runs. -/
def Cluster.fresh (spec : PackageSpec) : Cluster :=
  { spec := spec
    source_control_file := none
    status_paragraphs := []
    edges := []
    to_install_features := []
    original_features := []
    will_remove := false
    transient_uninstalled := true
    request_type := RequestType.AUTO_SELECTED }

/-- Modelled from the spec: the explicit directed graph of `graphs.h`
(`Graphs::Graph`), which is not part of the file under review.  It
supports vertex insertion, edge insertion and a vertex list; vertices are
kept in insertion order and edges are deduplicated. -/
structure Graph where
  vertices : List PackageSpec
  edges : List (PackageSpec × PackageSpec)
deriving DecidableEq, Repr

/-- The empty graph. -/
def Graph.empty : Graph := { vertices := [], edges := [] }

/-- Modelled from the spec: `Graphs::Graph::add_vertex`. -/
def Graph.addVertex (g : Graph) (v : PackageSpec) : Graph :=
  { g with vertices := sinsert v g.vertices }

/-- Modelled from the spec: `Graphs::Graph::add_edge`; both endpoints are
recorded as vertices. -/
def Graph.addEdge (g : Graph) (u v : PackageSpec) : Graph :=
  { vertices := sinsert v (sinsert u g.vertices), edges := sinsert (u, v) g.edges }

/-- Adjacency list of a vertex: the targets of its out-edges, in
insertion order. -/
def Graph.adjOf (g : Graph) (u : PackageSpec) : List PackageSpec :=
  (g.edges.filter (fun e => e.1 = u)).map (fun e => e.2)

/-- Modelled from the spec: `filter_dependencies_to_specs` of
`packagespec.cpp` (not part of the file under review).  A dependency
whose platform qualifier does not apply to the triplet is dropped; a
triplet override is retained, otherwise the depending cluster's triplet
is inherited. -/
def filter_dependencies_to_specs (deps : List Dependency) (triplet : String) :
    List FeatureSpec :=
  (deps.filter (fun d =>
      match d.platforms with
      | none => true
      | some ps => triplet ∈ ps)).map
    (fun d => { spec := { name := d.name, triplet := d.tripletOverride.getD triplet },
                feature := d.feature })

/-- Modelled from the spec: `FeatureSpec::from_strings_and_triplet` of
`packagespec.cpp` (not part of the file under review).  Status-row
dependencies are flattened names resolved against the package's own
triplet, so each yields the core feature of the named package. -/
def FeatureSpec.from_strings_and_triplet (depends : List String) (triplet : String) :
    List FeatureSpec :=
  depends.map (fun n => { spec := { name := n, triplet := triplet }, feature := "" })

/-- Insert a feature node under a key only if absent
(`unordered_map::emplace`). -/
def emplaceEdge (edges : List (String × FeatureNodeEdges)) (key : String)
    (node : FeatureNodeEdges) : List (String × FeatureNodeEdges) :=
  match alookup edges key with
  | some _ => edges
  | none => edges ++ [(key, node)]

/-- `ClusterGraph::cluster_from_scf`: populate the core edge node and one
node per feature paragraph from the SCF's filtered dependencies, and store
the SCF on the cluster. -/
def cluster_from_scf (scf : SourceControlFile) (c : Cluster) : Cluster :=
  let core : FeatureNodeEdges :=
    { remove_edges := [], plus := false
      build_edges := filter_dependencies_to_specs scf.core_paragraph.depends c.spec.triplet }
  let edges0 := emplaceEdge c.edges "core" core
  let edges1 := scf.feature_paragraphs.foldl
    (fun acc fp =>
      emplaceEdge acc fp.name
        { remove_edges := [], plus := false
          build_edges := filter_dependencies_to_specs fp.depends c.spec.triplet })
    edges0
  { c with edges := edges1, source_control_file := some scf }

/-- The cluster arena of `ClusterGraph`, keyed by spec. -/
abbrev ClusterArena : Type := List (PackageSpec × Cluster)

/-- `ClusterGraph::get`: return the cluster for `spec`, materializing it
on demand from the port provider. -/
def clusterGet (prov : PortProvider) (arena : ClusterArena) (spec : PackageSpec) :
    Cluster × ClusterArena :=
  match alookup arena spec with
  | some c => (c, arena)
  | none =>
    let c0 := Cluster.fresh spec
    let c := match get_control_file prov spec.name with
      | some scf => cluster_from_scf scf c0
      | none => c0
    (c, arena ++ [(spec, c)])

/-- Point update of an association list: apply `g` to the value stored
under `key`, leaving everything else (keys included) unchanged. -/
def amap {α β : Type} [DecidableEq α] (l : List (α × β)) (key : α) (g : β → β) :
    List (α × β) :=
  l.map (fun p => if p.1 = key then (p.1, g p.2) else p)

/-- Apply a function to the cluster stored under `spec`. -/
def updateCluster (arena : ClusterArena) (spec : PackageSpec) (f : Cluster → Cluster) :
    ClusterArena :=
  amap arena spec f

/-- The status database, restricted (as the planner sees it through
`get_installed_ports`) to the installed feature rows. -/
abbrev StatusDb : Type := List StatusParagraph

/-- First pass of `create_feature_install_graph`: materialize a cluster
per installed row, clear its transient flag, record the row, and add its
feature (or core) to the original feature set. -/
def installedPass (prov : PortProvider) (rows : StatusDb) (arena : ClusterArena) :
    ClusterArena :=
  rows.foldl
    (fun acc row =>
      let acc := (clusterGet prov acc row.spec).2
      updateCluster acc row.spec (fun c =>
        { c with
          transient_uninstalled := false
          status_paragraphs := c.status_paragraphs ++ [row]
          original_features :=
            sinsert (if row.feature = "" then "core" else row.feature) c.original_features }))
    arena

/-- Append one reverse edge under `key` of the cluster at `spec`,
default-constructing the feature node if absent
(`dep_cluster.edges[depends_name]`). -/
def addRemoveEdgeEntry (arena : ClusterArena) (spec : PackageSpec) (key : String)
    (rev : FeatureSpec) : ClusterArena :=
  updateCluster arena spec (fun c =>
    match alookup c.edges key with
    | some _ =>
      let newEdges := amap c.edges key (fun e => { e with remove_edges := e.remove_edges ++ [rev] })
      { c with edges := newEdges }
    | none =>
      { c with edges := c.edges ++ [(key, { FeatureNodeEdges.empty with remove_edges := [rev] })] })

/-- Second pass of `create_feature_install_graph`: for every installed
row, convert its dependency names to feature specs and append a reverse
edge on each dependency's cluster (empty feature normalized to core). -/
def reverseEdgePass (prov : PortProvider) (rows : StatusDb) (arena : ClusterArena) :
    ClusterArena :=
  rows.foldl
    (fun acc row =>
      (FeatureSpec.from_strings_and_triplet row.depends row.spec.triplet).foldl
        (fun acc2 dep =>
          let acc2 := (clusterGet prov acc2 dep.spec).2
          let key := if dep.feature = "" then "core" else dep.feature
          addRemoveEdgeEntry acc2 dep.spec key { spec := row.spec, feature := row.feature })
        acc)
    arena

/-- `create_feature_install_graph`: seed the cluster arena from the
installed rows, then populate reverse edges. -/
def create_feature_install_graph (prov : PortProvider) (db : StatusDb) : ClusterArena :=
  reverseEdgePass prov db (installedPass prov db [])

/-- The accumulating plan graphs (`GraphPlan`) together with the cluster
arena and the reinstall warnings emitted by `mark_minus`; this is the
mutable state of one planning run. -/
structure MarkState where
  clusters : ClusterArena
  remove_graph : Graph
  install_graph : Graph
  warnings : List FeatureSpec
deriving DecidableEq, Repr

/-- The state at the start of a planning run (`PackageGraph`
constructor). -/
def MarkState.init (prov : PortProvider) (db : StatusDb) : MarkState :=
  { clusters := create_feature_install_graph prov db
    remove_graph := Graph.empty
    install_graph := Graph.empty
    warnings := [] }

/-- Look up the cluster for `spec` in the state. -/
def MarkState.cluster (st : MarkState) (spec : PackageSpec) : Option Cluster :=
  alookup st.clusters spec

/-- Materialize the cluster for `spec` (`graph.get`) inside the state. -/
def MarkState.materialize (prov : PortProvider) (st : MarkState) (spec : PackageSpec) :
    MarkState :=
  { st with clusters := (clusterGet prov st.clusters spec).2 }

/-- Update the cluster stored for `spec`. -/
def MarkState.upd (st : MarkState) (spec : PackageSpec) (f : Cluster → Cluster) : MarkState :=
  { st with clusters := updateCluster st.clusters spec f }

/-- Set the install mark of one feature node
(`cluster.edges[feature].plus = true`). -/
def MarkState.setPlus (st : MarkState) (spec : PackageSpec) (feature : String) : MarkState :=
  st.upd spec (fun c =>
    { c with edges := amap c.edges feature (fun e => { e with plus := true }) })

/-- State after lines 461-470 of `mark_plus`: the conditional transient
flip followed by setting the install mark. -/
def plusPre (st : MarkState) (spec : PackageSpec) (f : String) (c : Cluster) : MarkState :=
  (if f ∈ c.original_features then st
   else st.upd spec (fun cl => { cl with transient_uninstalled := true })).setPlus spec f

/-- State after lines 477-479 of `mark_plus`: install-graph vertex added
and the feature recorded in `to_install_features`. -/
def plusMid (st : MarkState) (spec : PackageSpec) (f : String) : MarkState :=
  ({ st with install_graph := st.install_graph.addVertex spec }).upd spec
    (fun cl => { cl with to_install_features := sinsert f cl.to_install_features })

/-- The build edges of a feature node as re-read at line 490 of
`mark_plus`. -/
def buildEdgesOf (st : MarkState) (spec : PackageSpec) (f : String) : List FeatureSpec :=
  ((st.cluster spec).bind (fun cl => alookup cl.edges f)).elim [] (fun e2 => e2.build_edges)

/-- State after lines 511-513 of `mark_minus`: `will_remove` set and the
remove-graph vertex added. -/
def minusPre (st : MarkState) (spec : PackageSpec) : MarkState :=
  let st1 := st.upd spec (fun cl => { cl with will_remove := true })
  { st1 with remove_graph := st1.remove_graph.addVertex spec }

/-- State after line 525 of `mark_minus`: the transient flag re-set. -/
def minusMid (st : MarkState) (spec : PackageSpec) : MarkState :=
  st.upd spec (fun cl => { cl with transient_uninstalled := true })

/-- The original features of a cluster as read for the replay loop. -/
def origsOf (st : MarkState) (spec : PackageSpec) : List String :=
  (st.cluster spec).elim [] (fun cl => cl.original_features)

/-- State after one dependency of the `mark_plus` loop: the install edge
is added unless the dependency is the cluster itself. -/
def depPost (st : MarkState) (spec : PackageSpec) (d : FeatureSpec) : MarkState :=
  if d.spec = spec then st
  else { st with install_graph := st.install_graph.addEdge spec d.spec }

/-- State before recursing on one reverse dependency of `mark_minus`:
materialize it and add the remove edge. -/
def revPre (prov : PortProvider) (st : MarkState) (spec : PackageSpec) (d : FeatureSpec) :
    MarkState :=
  let st1 := MarkState.materialize prov st d.spec
  { st1 with remove_graph := st1.remove_graph.addEdge spec d.spec }

/-- State after one replay step of `mark_minus`: append a reinstall
warning when the feature could not be replayed. -/
def replayPost (st : MarkState) (r : MarkPlusResult) (spec : PackageSpec) (f : String) :
    MarkState :=
  if r = MarkPlusResult.SUCCESS then st
  else { st with warnings := st.warnings ++ [{ spec := spec, feature := f }] }

/-- Commands of the mark-engine interpreter: the bodies of `mark_plus`
and `mark_minus` plus their three interior loops. -/
inductive Cmd where
  | plus (feature : String) (spec : PackageSpec)
  | plusDeps (spec : PackageSpec) (deps : List FeatureSpec)
  | minus (spec : PackageSpec)
  | minusRev (spec : PackageSpec) (deps : List FeatureSpec)
  | minusReplay (spec : PackageSpec) (feats : List String)
deriving DecidableEq, Repr

/-- The mark engine: one structurally recursive interpreter for the
mutually recursive `mark_plus` / `mark_minus` pair.  Fuel exhaustion and
the fatal `Checks::check_exit` aborts both yield `none`; `mark_minus`
commands always report `SUCCESS` (it returns `void` in the source). -/
def markRun (prov : PortProvider) : Nat → Cmd → MarkState → Option (MarkPlusResult × MarkState)
  | 0, _, _ => none
  | n + 1, Cmd.plus f spec, st =>
    if f = "" then markRun prov n (Cmd.plus "core" spec) st
    else
      match st.cluster spec with
      | none => none
      | some c =>
        match alookup c.edges f with
        | none => some (MarkPlusResult.FEATURE_NOT_FOUND, st)
        | some e =>
          if e.plus then some (MarkPlusResult.SUCCESS, st)
          else
            let st1 := if f ∈ c.original_features then st
              else st.upd spec (fun cl => { cl with transient_uninstalled := true })
            let tNow := if f ∈ c.original_features then c.transient_uninstalled else true
            if tNow = false then some (MarkPlusResult.SUCCESS, st1)
            else
              (if c.original_features.isEmpty then
                 some (MarkPlusResult.SUCCESS, plusPre st spec f c)
               else markRun prov n (Cmd.minus spec) (plusPre st spec f c)).bind (fun p3 =>
                (if f = "core" then some (MarkPlusResult.SUCCESS, plusMid p3.2 spec f)
                 else markRun prov n (Cmd.plus "core" spec) (plusMid p3.2 spec f)).bind (fun p6 =>
                  if p6.1 = MarkPlusResult.SUCCESS then
                    (markRun prov n
                        (Cmd.plusDeps spec (buildEdgesOf p6.2 spec f)) p6.2).map (fun p7 =>
                      (MarkPlusResult.SUCCESS, p7.2))
                  else none))
  | n + 1, Cmd.plusDeps spec deps, st =>
    match deps with
    | [] => some (MarkPlusResult.SUCCESS, st)
    | d :: rest =>
      (markRun prov n (Cmd.plus d.feature d.spec)
          (MarkState.materialize prov st d.spec)).bind (fun p =>
        if p.1 = MarkPlusResult.SUCCESS then
          markRun prov n (Cmd.plusDeps spec rest) (depPost p.2 spec d)
        else none)
  | n + 1, Cmd.minus spec, st =>
    match st.cluster spec with
    | none => none
    | some c =>
      if c.will_remove then some (MarkPlusResult.SUCCESS, st)
      else
        (markRun prov n
            (Cmd.minusRev spec (c.edges.flatMap (fun p => p.2.remove_edges)))
            (minusPre st spec)).bind
          (fun p =>
            markRun prov n
              (Cmd.minusReplay spec (origsOf (minusMid p.2 spec) spec)) (minusMid p.2 spec))
  | n + 1, Cmd.minusRev spec deps, st =>
    match deps with
    | [] => some (MarkPlusResult.SUCCESS, st)
    | d :: rest =>
      (markRun prov n (Cmd.minus d.spec) (revPre prov st spec d)).bind (fun p =>
        markRun prov n (Cmd.minusRev spec rest) p.2)
  | n + 1, Cmd.minusReplay spec feats, st =>
    match feats with
    | [] => some (MarkPlusResult.SUCCESS, st)
    | f :: rest =>
      (markRun prov n (Cmd.plus f spec) st).bind (fun p =>
        markRun prov n (Cmd.minusReplay spec rest) (replayPost p.2 p.1 spec f))

/-- `mark_plus` as the user-facing wrapper of the interpreter. -/
def mark_plus (prov : PortProvider) (fuel : Nat) (feature : String) (spec : PackageSpec)
    (st : MarkState) : Option (MarkPlusResult × MarkState) :=
  markRun prov fuel (Cmd.plus feature spec) st

/-- `mark_minus` as the user-facing wrapper of the interpreter. -/
def mark_minus (prov : PortProvider) (fuel : Nat) (spec : PackageSpec) (st : MarkState) :
    Option (MarkPlusResult × MarkState) :=
  markRun prov fuel (Cmd.minus spec) st

/-- Mark every feature of a list in turn, aborting unless each reports
`SUCCESS` (the loop of the `"*"` branch of `PackageGraph::install`). -/
def installAll (prov : PortProvider) (fuel : Nat) (spec : PackageSpec) :
    List String → MarkState → Option MarkState
  | [], st => some st
  | f :: rest, st =>
    (markRun prov fuel (Cmd.plus f spec) st).bind (fun p =>
      if p.1 = MarkPlusResult.SUCCESS then installAll prov fuel spec rest p.2 else none)

/-- `PackageGraph::install`: seed one requested feature spec.  The
requested cluster is materialized, marked `USER_REQUESTED`, marked plus
(for `"*"`, every feature paragraph then core; absence of an SCF is
fatal), and always added to the install graph as a vertex. -/
def PackageGraph.install (prov : PortProvider) (fuel : Nat) (fspec : FeatureSpec)
    (st : MarkState) : Option MarkState :=
  let st0 := MarkState.materialize prov st fspec.spec
  let st1 := st0.upd fspec.spec (fun c => { c with request_type := RequestType.USER_REQUESTED })
  let seeded :=
    if fspec.feature = "*" then
      match (st1.cluster fspec.spec).bind (fun c => c.source_control_file) with
      | some scf =>
        installAll prov fuel fspec.spec
          ((scf.feature_paragraphs.map (fun fp => fp.name)) ++ ["core"]) st1
      | none => none
    else
      (markRun prov fuel (Cmd.plus fspec.feature fspec.spec) st1).bind (fun p =>
        if p.1 = MarkPlusResult.SUCCESS then some p.2 else none)
  seeded.map (fun st2 => { st2 with install_graph := st2.install_graph.addVertex fspec.spec })

/-- `PackageGraph::upgrade`: materialize, mark `USER_REQUESTED`, and run
`mark_minus`. -/
def PackageGraph.upgrade (prov : PortProvider) (fuel : Nat) (spec : PackageSpec)
    (st : MarkState) : Option MarkState :=
  let st0 := MarkState.materialize prov st spec
  let st1 := st0.upd spec (fun c => { c with request_type := RequestType.USER_REQUESTED })
  (markRun prov fuel (Cmd.minus spec) st1).map (fun r => r.2)

/-- A seeding request: either an install of a feature spec or an upgrade
of a package spec. -/
inductive Seed where
  | ins (fspec : FeatureSpec)
  | upg (spec : PackageSpec)
deriving DecidableEq, Repr

/-- Run a sequence of `install` / `upgrade` seedings from a state. -/
def seedAll (prov : PortProvider) (fuel : Nat) : List Seed → MarkState → Option MarkState
  | [], st => some st
  | Seed.ins fspec :: rest, st =>
    match PackageGraph.install prov fuel fspec st with
    | none => none
    | some st1 => seedAll prov fuel rest st1
  | Seed.upg spec :: rest, st =>
    match PackageGraph.upgrade prov fuel spec st with
    | none => none
    | some st1 => seedAll prov fuel rest st1

/-- Commands of the depth-first search used by the topological sort. -/
inductive DfsCmd where
  | visit (u : PackageSpec)
  | visitList (us : List PackageSpec)
deriving DecidableEq, Repr

/-- Modelled from the spec: the depth-first search of
`Graphs::topological_sort` (`graphs.h`, not part of the file under
review).  It emits vertices in DFS post order over the transitive closure
of the seeds, deduplicated by key, so that for every edge `u → v` the
vertex `v` precedes `u` in the output; a vertex met again while still on
the current path is a cycle and fails the sort. -/
def dfsRun (adj : PackageSpec → List PackageSpec) :
    Nat → DfsCmd → List PackageSpec → List PackageSpec → Option (List PackageSpec)
  | 0, _, _, _ => none
  | n + 1, DfsCmd.visit u, gray, out =>
    if u ∈ out then some out
    else if u ∈ gray then none
    else
      match dfsRun adj n (DfsCmd.visitList (adj u)) (u :: gray) out with
      | none => none
      | some out1 => some (out1 ++ [u])
  | _ + 1, DfsCmd.visitList [], _, out => some out
  | n + 1, DfsCmd.visitList (u :: us), gray, out =>
    match dfsRun adj n (DfsCmd.visit u) gray out with
    | none => none
    | some out1 => dfsRun adj n (DfsCmd.visitList us) gray out1

/-- Modelled from the spec: `Graphs::topological_sort`, keyed DFS post
order from a seed list. -/
def topological_sort (fuel : Nat) (seeds : List PackageSpec)
    (adj : PackageSpec → List PackageSpec) : Option (List PackageSpec) :=
  dfsRun adj fuel (DfsCmd.visitList seeds) [] []

/-- A remove action of the emitted plan (`RemovePlanAction`). -/
structure RemovePlanAction where
  spec : PackageSpec
  plan_type : RemovePlanType
  request_type : RequestType
deriving DecidableEq, Repr

/-- An install action of the emitted plan (`InstallPlanAction`); the SCF
is carried for `BUILD_AND_INSTALL` actions. -/
structure InstallPlanAction where
  spec : PackageSpec
  plan_type : InstallPlanType
  request_type : RequestType
  feature_list : List String
  scf : Option SourceControlFile
deriving DecidableEq, Repr

/-- A plan item (`AnyAction`), exactly one of install or remove. -/
inductive AnyAction where
  | install (a : InstallPlanAction)
  | remove (a : RemovePlanAction)
deriving DecidableEq, Repr

/-- Emit the remove action for one cluster of the sorted remove graph
(`PackageGraph::serialize`, remove loop): the action spec takes its name
from the cluster's SCF and its triplet from the cluster; a missing SCF
aborts the run (the source dereferences the absent optional). -/
def emitRemove (st : MarkState) (k : PackageSpec) : Option RemovePlanAction :=
  match st.cluster k with
  | none => none
  | some c =>
    match c.source_control_file with
    | none => none
    | some scf =>
      some { spec := { name := scf.core_paragraph.name, triplet := c.spec.triplet }
             plan_type := RemovePlanType.REMOVE
             request_type := c.request_type }

/-- Emit the install action for one cluster of the sorted install graph
(`PackageGraph::serialize`, install loop).  Outer `none` is a fatal
abort; inner `none` means the cluster is skipped (auto-selected and
already installed). -/
def emitInstall (st : MarkState) (k : PackageSpec) : Option (Option InstallPlanAction) :=
  match st.cluster k with
  | none => none
  | some c =>
    if c.transient_uninstalled then
      match c.source_control_file with
      | none => none
      | some scf =>
        some (some { spec := c.spec
                     plan_type := InstallPlanType.BUILD_AND_INSTALL
                     request_type := c.request_type
                     feature_list := c.to_install_features
                     scf := some scf })
    else
      if c.request_type = RequestType.USER_REQUESTED then
        some (some { spec := c.spec
                     plan_type := InstallPlanType.ALREADY_INSTALLED
                     request_type := c.request_type
                     feature_list := c.original_features
                     scf := none })
      else some none

/-- Emit remove actions for a sorted key list. -/
def serializeRemoves (st : MarkState) : List PackageSpec → Option (List RemovePlanAction)
  | [] => some []
  | k :: ks =>
    (emitRemove st k).bind (fun a =>
      (serializeRemoves st ks).map (fun rest => a :: rest))

/-- Emit install actions for a sorted key list, dropping skipped
clusters. -/
def serializeInstalls (st : MarkState) : List PackageSpec → Option (List InstallPlanAction)
  | [] => some []
  | k :: ks =>
    (emitInstall st k).bind (fun oa =>
      (serializeInstalls st ks).map (fun rest =>
        match oa with
        | some a => a :: rest
        | none => rest))

/-- `PackageGraph::serialize`: topologically sort the remove and install
graphs, then emit all remove actions followed by all install actions. -/
def PackageGraph.serialize (fuel : Nat) (st : MarkState) : Option (List AnyAction) :=
  (topological_sort fuel st.remove_graph.vertices st.remove_graph.adjOf).bind (fun rks =>
  (topological_sort fuel st.install_graph.vertices st.install_graph.adjOf).bind (fun iks =>
  (serializeRemoves st rks).bind (fun ras =>
  (serializeInstalls st iks).map (fun ias =>
    ras.map AnyAction.remove ++ ias.map AnyAction.install))))

/-- `create_feature_install_plan`: build the cluster graph from the
installed state, seed every requested feature spec through
`PackageGraph::install`, and serialize. -/
def create_feature_install_plan (prov : PortProvider) (fuel : Nat)
    (specs : List FeatureSpec) (db : StatusDb) : Option (List AnyAction) :=
  match seedAll prov fuel (specs.map Seed.ins) (MarkState.init prov db) with
  | none => none
  | some st => PackageGraph.serialize fuel st

/-- `RemoveAdjacencyProvider::load_vertex_data`: `NOT_INSTALLED` when the
spec is absent from the status database, else `REMOVE`; `USER_REQUESTED`
exactly when the spec is among the requested specs. -/
def removeLoadVertex (db : StatusDb) (specs : List PackageSpec) (spec : PackageSpec) :
    RemovePlanAction :=
  { spec := spec
    plan_type :=
      if db.any (fun row => row.spec = spec) then RemovePlanType.REMOVE
      else RemovePlanType.NOT_INSTALLED
    request_type :=
      if spec ∈ specs then RequestType.USER_REQUESTED else RequestType.AUTO_SELECTED }

/-- `RemoveAdjacencyProvider::adjacency_list`: nothing for a
`NOT_INSTALLED` vertex; otherwise the installed packages of the same
triplet whose dependency list contains the spec's name. -/
def removeAdjacency (installed : StatusDb) (plan : RemovePlanAction) : List PackageSpec :=
  if plan.plan_type = RemovePlanType.NOT_INSTALLED then []
  else
    (installed.filter (fun row =>
        row.spec.triplet = plan.spec.triplet ∧ plan.spec.name ∈ row.depends)).map
      (fun row => row.spec)

/-- `create_remove_plan`: run the adjacency-provider topological sort from
the requested specs over the reverse-dependency relation of the installed
state. -/
def create_remove_plan (fuel : Nat) (specs : List PackageSpec) (db : StatusDb) :
    Option (List RemovePlanAction) :=
  (topological_sort fuel specs
      (fun k => removeAdjacency db (removeLoadVertex db specs k))).map
    (fun keys => keys.map (removeLoadVertex db specs))

/-- An export action (`ExportPlanAction`). -/
structure ExportPlanAction where
  spec : PackageSpec
  any_paragraph : AnyParagraph
  plan_type : ExportPlanType
  request_type : RequestType
deriving DecidableEq, Repr

/-- The `ExportPlanAction` constructor taking an `AnyParagraph`: the plan
type is `ALREADY_BUILT` for a binary control file, else
`PORT_AVAILABLE_BUT_NOT_BUILT` for a source control file; with neither
present the constructor simply falls through and leaves the initializer
value `UNKNOWN` (there is no error check). -/
def ExportPlanAction.make (spec : PackageSpec) (any_paragraph : AnyParagraph)
    (request_type : RequestType) : ExportPlanAction :=
  { spec := spec
    any_paragraph := any_paragraph
    request_type := request_type
    plan_type :=
      match any_paragraph.binary_control_file with
      | some _ => ExportPlanType.ALREADY_BUILT
      | none =>
        match any_paragraph.source_control_file with
        | some _ => ExportPlanType.PORT_AVAILABLE_BUT_NOT_BUILT
        | none => ExportPlanType.UNKNOWN }

/-- Console events of `print_plan`, one per `System::println` call. -/
inductive PrintEvent where
  | excludedSection (body : String)
  | alreadyInstalledSection (body : String)
  | rebuiltSection (body : String)
  | newSection (body : String)
  | onlyInstallSection (body : String)
  | additionalPackagesBanner
  | recurseWarning
deriving DecidableEq, Repr

/-- `to_output_string`: auto-selected actions are starred, user requests
are indented. -/
def to_output_string (request_type : RequestType) (s : String) : Option String :=
  match request_type with
  | RequestType.AUTO_SELECTED => some ("  * " ++ s)
  | RequestType.USER_REQUESTED => some ("    " ++ s)
  | RequestType.UNKNOWN => none

/-- `InstallPlanAction::displayname`. -/
def InstallPlanAction.displayname (a : InstallPlanAction) : String :=
  if a.feature_list.isEmpty then a.spec.name ++ ":" ++ a.spec.triplet
  else a.spec.name ++ "[" ++ String.intercalate "," a.feature_list ++ "]:" ++ a.spec.triplet

/-- The categorized intermediate state of `print_plan`. -/
structure PrintCategories where
  remove_plans : List RemovePlanAction
  rebuilt_plans : List InstallPlanAction
  only_install_plans : List InstallPlanAction
  new_plans : List InstallPlanAction
  already_installed_plans : List InstallPlanAction
  excluded : List InstallPlanAction
deriving DecidableEq, Repr

/-- The categorization loop of `print_plan`: removes accumulate first
(the plan lists removes before installs), and an install whose spec was
already removed counts as a rebuild. -/
def categorize : List AnyAction → PrintCategories → Option PrintCategories
  | [], acc => some acc
  | AnyAction.remove ra :: rest, acc =>
    categorize rest { acc with remove_plans := acc.remove_plans ++ [ra] }
  | AnyAction.install ia :: rest, acc =>
    if acc.remove_plans.any (fun rp => rp.spec = ia.spec) then
      categorize rest { acc with rebuilt_plans := acc.rebuilt_plans ++ [ia] }
    else
      match ia.plan_type with
      | InstallPlanType.INSTALL =>
        categorize rest { acc with only_install_plans := acc.only_install_plans ++ [ia] }
      | InstallPlanType.ALREADY_INSTALLED =>
        if ia.request_type = RequestType.USER_REQUESTED then
          categorize rest
            { acc with already_installed_plans := acc.already_installed_plans ++ [ia] }
        else categorize rest acc
      | InstallPlanType.BUILD_AND_INSTALL =>
        categorize rest { acc with new_plans := acc.new_plans ++ [ia] }
      | InstallPlanType.EXCLUDED =>
        categorize rest { acc with excluded := acc.excluded ++ [ia] }
      | InstallPlanType.UNKNOWN => none

/-- Join the formatted output lines of a sorted category
(`actions_to_output_string`). -/
def actionsToOutputString (l : List InstallPlanAction) : Option String :=
  (l.mapM (fun a => to_output_string a.request_type a.displayname)).map
    (String.intercalate "\n")

/-- Emit one section event when its category is nonempty. -/
def sectionEvent (mk : String → PrintEvent) (l : List InstallPlanAction) :
    Option (List PrintEvent) :=
  if l.isEmpty then some []
  else (actionsToOutputString (l.insertionSort (fun x y => x.spec.name ≤ y.spec.name))).map
    (fun s => [mk s])

/-- Whether the action plan contains a non-user-requested install action
(the `has_non_user_requested_packages` predicate of `print_plan`; remove
actions are explicitly answered `false` by the lambda). -/
def has_non_user_requested_packages (action_plan : List AnyAction) : Bool :=
  action_plan.any (fun package =>
    match package with
    | AnyAction.install iplan => decide (iplan.request_type ≠ RequestType.USER_REQUESTED)
    | AnyAction.remove _ => false)

/-- `print_plan`: categorize, sort, print section blocks, print the
additional-packages banner when a non-user-requested install action is
present, and warn (failing the run) when removes are present without
`--recurse`.  Returns the println events and whether the call returns
normally. -/
def print_plan (action_plan : List AnyAction) (is_recursive : Bool) :
    Option (List PrintEvent × Bool) :=
  (categorize action_plan
      { remove_plans := [], rebuilt_plans := [], only_install_plans := [],
        new_plans := [], already_installed_plans := [], excluded := [] }).bind (fun cats =>
  (sectionEvent PrintEvent.excludedSection cats.excluded).bind (fun e1 =>
  (sectionEvent PrintEvent.alreadyInstalledSection cats.already_installed_plans).bind (fun e2 =>
  (sectionEvent PrintEvent.rebuiltSection cats.rebuilt_plans).bind (fun e3 =>
  (sectionEvent PrintEvent.newSection cats.new_plans).bind (fun e4 =>
  (sectionEvent PrintEvent.onlyInstallSection cats.only_install_plans).map (fun e5 =>
    let banner := if has_non_user_requested_packages action_plan
      then [PrintEvent.additionalPackagesBanner] else []
    let warn := if cats.remove_plans.length > 0 ∧ is_recursive = false
      then [PrintEvent.recurseWarning] else []
    (e1 ++ e2 ++ e3 ++ e4 ++ e5 ++ banner ++ warn,
     !(decide (cats.remove_plans.length > 0 ∧ is_recursive = false)))))))))

/-- A demonstration auto-selected remove action. -/
def demoRemoveAuto : AnyAction :=
  AnyAction.remove
    { spec := { name := "a", triplet := "x64" },
      plan_type := RemovePlanType.REMOVE,
      request_type := RequestType.AUTO_SELECTED }

/-- A demonstration auto-selected install action. -/
def demoInstallAuto : AnyAction :=
  AnyAction.install
    { spec := { name := "b", triplet := "x64" },
      plan_type := InstallPlanType.BUILD_AND_INSTALL,
      request_type := RequestType.AUTO_SELECTED,
      feature_list := ["core"],
      scf := none }

/-- A demonstration status database: package `a` is installed and its
row names `p` among its dependencies, while no port file exists at all. -/
def demoDbC9 : StatusDb :=
  [{ spec := { name := "a", triplet := "x64" }, feature := "", depends := ["p"] }]

/-- The dependency feature spec the demonstration row gives rise to. -/
def demoDepC9 : FeatureSpec :=
  { spec := { name := "p", triplet := "x64" }, feature := "" }

/-- The state a successful demonstration `mark_plus` run ends in. -/
def demoStC9 : MarkState :=
  ((markRun [] 6 (Cmd.plus "core" demoDepC9.spec) (MarkState.init [] demoDbC9)).getD
    (MarkPlusResult.SUCCESS, MarkState.init [] demoDbC9)).2

/-- Demonstration installed state: `a` (which depends on `b`) and `b`
are both installed. -/
def demoDbC6 : StatusDb :=
  [{ spec := { name := "a", triplet := "x64" }, feature := "", depends := ["b"] },
   { spec := { name := "b", triplet := "x64" }, feature := "", depends := [] }]

/-- Demonstration remove request: just `b`. -/
def demoSpecsC6 : List PackageSpec := [{ name := "b", triplet := "x64" }]

/-- The demonstration remove action emitted for `b`. -/
def demoActB : RemovePlanAction :=
  { spec := { name := "b", triplet := "x64" }, plan_type := RemovePlanType.REMOVE,
    request_type := RequestType.USER_REQUESTED }

/-- The remove plan the demonstration request yields: the dependent `a`
first (auto-selected), then `b` (user-requested). -/
def demoActsC6 : List RemovePlanAction :=
  [{ spec := { name := "a", triplet := "x64" }, plan_type := RemovePlanType.REMOVE,
     request_type := RequestType.AUTO_SELECTED },
   demoActB]

/-- A cluster key together with one of its edge keys is present in an
arena. -/
def KeyIn (arena : ClusterArena) (sp : PackageSpec) (key : String) : Prop :=
  ∃ c, alookup arena sp = some c ∧ (alookup c.edges key).isSome = true

/-- `x` occurs strictly before `y` in the list `l`. -/
def Before {α : Type} (l : List α) (x y : α) : Prop :=
  ∃ l1 l2 l3, l = l1 ++ x :: l2 ++ y :: l3

/-- Demonstration port `a`: no core dependencies, one feature `x`. -/
def scfA : SourceControlFile :=
  { core_paragraph := { name := "a", depends := [] },
    feature_paragraphs := [{ name := "x", depends := [] }] }

/-- Demonstration port `b`: no dependencies, no features. -/
def scfB : SourceControlFile :=
  { core_paragraph := { name := "b", depends := [] }, feature_paragraphs := [] }

/-- Demonstration provider for the ordering scenario. -/
def provC1 : PortProvider := [("a", scfA), ("b", scfB)]

/-- Demonstration installed state: `a` core installed; `b` core installed
and depending on `a`. -/
def dbC1 : StatusDb :=
  [{ spec := { name := "a", triplet := "x64" }, feature := "", depends := [] },
   { spec := { name := "b", triplet := "x64" }, feature := "", depends := ["a"] }]

/-- The state after requesting `a[x]` on the demonstration input; the
rebuild of `a` cascades to its installed dependent `b`. -/
def demoStC1 : MarkState :=
  (seedAll provC1 20 [Seed.ins { spec := { name := "a", triplet := "x64" }, feature := "x" }]
    (MarkState.init provC1 dbC1)).getD (MarkState.init provC1 dbC1)

/-- The remove action for `b` in the demonstration plan. -/
def demoRemB : AnyAction :=
  AnyAction.remove
    { spec := { name := "b", triplet := "x64" },
      plan_type := RemovePlanType.REMOVE, request_type := RequestType.AUTO_SELECTED }

/-- The remove action for `a` in the demonstration plan. -/
def demoRemA : AnyAction :=
  AnyAction.remove
    { spec := { name := "a", triplet := "x64" },
      plan_type := RemovePlanType.REMOVE, request_type := RequestType.USER_REQUESTED }

/-- The plan the demonstration input serializes to: remove the dependent
`b`, remove `a`, then install `b` and install `a`. -/
def demoPlanC1 : List AnyAction :=
  [demoRemB, demoRemA,
   AnyAction.install
     { spec := { name := "b", triplet := "x64" },
       plan_type := InstallPlanType.BUILD_AND_INSTALL,
       request_type := RequestType.AUTO_SELECTED, feature_list := ["core"],
       scf := some scfB },
   AnyAction.install
     { spec := { name := "a", triplet := "x64" },
       plan_type := InstallPlanType.BUILD_AND_INSTALL,
       request_type := RequestType.USER_REQUESTED, feature_list := ["core", "x"],
       scf := some scfA }]

/-- The cluster the demonstration state holds for `a`. -/
def demoClusterA : Cluster :=
  (demoStC1.cluster { name := "a", triplet := "x64" }).getD
    (Cluster.fresh { name := "a", triplet := "x64" })

/-- No self-loops: no vertex is its own adjacency target. -/
def NoSelf (g : Graph) : Prop := ∀ u v, v ∈ g.adjOf u → u ≠ v

/-- No cluster's reverse edges name the cluster's own key. -/
def RemEdgesOk (st : MarkState) : Prop :=
  ∀ s c, st.cluster s = some c → ∀ pr ∈ c.edges, ∀ d ∈ pr.2.remove_edges, d.spec ≠ s

/-- Wrap a bare cluster arena in a planning state with empty graphs, so
that state-level invariants can be reused on the construction passes. -/
def arenaSt (arena : ClusterArena) : MarkState :=
  { clusters := arena, remove_graph := Graph.empty, install_graph := Graph.empty,
    warnings := [] }

/-- The self-edge invariant bundle carried through the mark engine. -/
def PlanInv (st : MarkState) : Prop :=
  RemEdgesOk st ∧ NoSelf st.remove_graph ∧ NoSelf st.install_graph

/-- Side condition of a mark-engine command: the pending reverse
dependencies of a `minusRev` loop never name the looping cluster. -/
def CmdOk : Cmd → Prop
  | Cmd.minusRev spec deps => ∀ d ∈ deps, d.spec ≠ spec
  | _ => True

/-- A status database whose single row lists its own package among its
depends. -/
def dbSelfC3 : StatusDb :=
  [{ spec := { name := "a", triplet := "x64" }, feature := "", depends := ["a"] }]

/-- The package of the self-depending row. -/
def specSelfC3 : PackageSpec := { name := "a", triplet := "x64" }

/-- The state reached by the demonstration seeding of claim C1's scenario,
reused to witness the self-edge claim on a healthy database. -/
def stWitC3 : MarkState :=
  (seedAll provC1 20 [Seed.ins { spec := { name := "a", triplet := "x64" }, feature := "x" }]
    (MarkState.init provC1 dbC1)).getD (MarkState.init provC1 dbC1)

/-- The install mark of feature `key` of the cluster at `s` is set. -/
def plusFlag (st : MarkState) (s : PackageSpec) (key : String) : Prop :=
  ∃ c e, st.cluster s = some c ∧ alookup c.edges key = some e ∧ e.plus = true

/-- Feature `f` is recorded in the planned feature set of the cluster at
`s`. -/
def tiOf (st : MarkState) (s : PackageSpec) (f : String) : Prop :=
  ∃ c, st.cluster s = some c ∧ f ∈ c.to_install_features

/-- A reinstall warning for feature `f` of the cluster at `s` has been
emitted. -/
def warned (st : MarkState) (s : PackageSpec) (f : String) : Prop :=
  { spec := s, feature := f } ∈ st.warnings

/-- The feature-preservation invariant of the mark engine, relative to the
pending `mark_minus` clusters `P` and the pending `mark_plus` pairs `Q`:
every non-pending cluster marked `will_remove` is transient and has every
original feature either install-marked or warned, and every non-pending
install mark has reached the planned feature set.  The third conjunct
records that original feature names are never empty (they are normalized
on entry). -/
def WRInv (P : List PackageSpec) (Q : List (PackageSpec × String)) (st : MarkState) : Prop :=
  (∀ s c, st.cluster s = some c → c.will_remove = true → s ∉ P →
    c.transient_uninstalled = true ∧
    ∀ f ∈ c.original_features, plusFlag st s f ∨ warned st s f) ∧
  (∀ s key, plusFlag st s key → (s, key) ∉ Q → tiOf st s key) ∧
  (∀ s c, st.cluster s = some c → "" ∉ c.original_features)

/-- Precondition of one mark-engine command for the feature-preservation
induction: the replay loop requires its cluster to be transient, its
pending features to be original, and its already-replayed features to be
settled. -/
def WRPre (cmd : Cmd) (st : MarkState) : Prop :=
  match cmd with
  | Cmd.minusReplay spec feats =>
    ∃ c, st.cluster spec = some c ∧ c.transient_uninstalled = true ∧
      (∀ f ∈ feats, f ∈ c.original_features) ∧
      (∀ f ∈ c.original_features, f ∉ feats → plusFlag st spec f ∨ warned st spec f)
  | _ => True

/-- Postcondition of one mark-engine command for the feature-preservation
induction: a successful `mark_plus` leaves the install mark set unless it
took the step-5 early return, and a finished replay loop has settled every
original feature of its cluster. -/
def WRPost (cmd : Cmd) (st st2 : MarkState) (r : MarkPlusResult) : Prop :=
  match cmd with
  | Cmd.plus f spec =>
    r = MarkPlusResult.SUCCESS →
      (plusFlag st2 spec (if f = "" then "core" else f) ∨
       ∃ c, st.cluster spec = some c ∧ (if f = "" then "core" else f) ∈ c.original_features ∧
         c.transient_uninstalled = false)
  | Cmd.minusReplay spec feats =>
    ∃ c2, st2.cluster spec = some c2 ∧
      ∀ f ∈ c2.original_features, plusFlag st2 spec f ∨ warned st2 spec f
  | _ => True

/-- The shape of every cluster produced by graph construction: not yet
marked for removal, no empty original feature name, no install mark. -/
def InitOk (arena : ClusterArena) : Prop :=
  ∀ s c, alookup arena s = some c →
    c.will_remove = false ∧ "" ∉ c.original_features ∧ ∀ pr ∈ c.edges, pr.2.plus = false

/-- The remove action the serializer emits for a cluster with an SCF:
name from the SCF, triplet from the cluster, plan type `REMOVE`, and the
cluster's request type. -/
def removeActionFor (scf : SourceControlFile) (c : Cluster) : RemovePlanAction :=
  { spec := { name := scf.core_paragraph.name, triplet := c.spec.triplet },
    plan_type := RemovePlanType.REMOVE, request_type := c.request_type }

/-- The growth order on feature nodes: structure is fixed, the install
mark only ever turns on. -/
def EdgeLe (e e2 : FeatureNodeEdges) : Prop :=
  e2.build_edges = e.build_edges ∧ e2.remove_edges = e.remove_edges ∧
    (e.plus = true → e2.plus = true)

/-- The growth order on clusters during marking: identity, metadata and
original features are fixed; flags and the planned feature set only
grow; edge keys are stable and each node grows. -/
def ClusterLe (c c2 : Cluster) : Prop :=
  c2.spec = c.spec ∧
  c2.source_control_file = c.source_control_file ∧
  c2.status_paragraphs = c.status_paragraphs ∧
  c2.original_features = c.original_features ∧
  c2.request_type = c.request_type ∧
  (c.will_remove = true → c2.will_remove = true) ∧
  (c.transient_uninstalled = true → c2.transient_uninstalled = true) ∧
  (∀ f, f ∈ c.to_install_features → f ∈ c2.to_install_features) ∧
  (∀ key, (alookup c.edges key = none ∧ alookup c2.edges key = none) ∨
    ∃ e e2, alookup c.edges key = some e ∧ alookup c2.edges key = some e2 ∧ EdgeLe e e2)

/-- The growth order on planning states: existing clusters only grow,
warnings only accumulate. -/
def StateLe (st st2 : MarkState) : Prop :=
  (∀ s c, st.cluster s = some c → ∃ c2, st2.cluster s = some c2 ∧ ClusterLe c c2) ∧
  (∀ w, w ∈ st.warnings → w ∈ st2.warnings)


/-! Association-list lemmas. -/

@[simp] theorem alookup_nil {α β : Type} [DecidableEq α] (key : α) :
    alookup ([] : List (α × β)) key = none := rfl

theorem alookup_cons {α β : Type} [DecidableEq α] (k : α) (v : β) (rest : List (α × β)) (key : α) :
    alookup ((k, v) :: rest) key = if k = key then some v else alookup rest key := rfl

@[simp] theorem mem_sinsert {α : Type} [DecidableEq α] (x y : α) (l : List α) :
    y ∈ sinsert x l ↔ y = x ∨ y ∈ l := by
  unfold sinsert
  split
  · constructor
    · exact fun h => Or.inr h
    · rintro (rfl | h) <;> assumption
  · simp [or_comm]


theorem alookup_amap {α β : Type} [DecidableEq α] (l : List (α × β)) (key : α) (g : β → β)
    (s : α) :
    alookup (amap l key g) s = if s = key then (alookup l key).map g else alookup l s := by
  induction l with
  | nil => simp [amap, alookup]
  | cons p rest ih =>
    obtain ⟨k, v⟩ := p
    show alookup ((if k = key then (k, g v) else (k, v)) :: amap rest key g) s = _
    by_cases hk : k = key
    · subst hk
      rw [if_pos rfl, alookup_cons, alookup_cons]
      by_cases hs : k = s
      · subst hs
        simp [alookup_cons]
      · have hsk : ¬ s = k := fun h => hs h.symm
        rw [if_neg hs, ih, if_neg hsk, if_neg hsk, alookup_cons, if_neg hs]
    · rw [if_neg hk, alookup_cons]
      by_cases hs : k = s
      · subst hs
        rw [if_pos rfl, if_neg hk, alookup_cons, if_pos rfl]
      · rw [if_neg hs, ih, alookup_cons, alookup_cons, if_neg hk, if_neg hs]

theorem alookup_append_left {α β : Type} [DecidableEq α] (l1 l2 : List (α × β)) (s : α)
    (v : β) (h : alookup l1 s = some v) : alookup (l1 ++ l2) s = some v := by
  induction l1 with
  | nil => simp [alookup] at h
  | cons p rest ih =>
    obtain ⟨k, w⟩ := p
    rw [alookup_cons] at h
    by_cases hk : k = s
    · simp [alookup_cons, hk] at h ⊢
      exact h
    · simp [alookup_cons, hk] at h ⊢
      exact ih h

theorem alookup_append_right {α β : Type} [DecidableEq α] (l1 l2 : List (α × β)) (s : α)
    (h : alookup l1 s = none) : alookup (l1 ++ l2) s = alookup l2 s := by
  induction l1 with
  | nil => simp
  | cons p rest ih =>
    obtain ⟨k, w⟩ := p
    rw [alookup_cons] at h
    by_cases hk : k = s
    · simp [hk] at h
    · simp [alookup_cons, hk] at h ⊢
      exact ih h

theorem alookup_isSome_of_mem_keys {α β : Type} [DecidableEq α] (l : List (α × β)) (s : α)
    (h : s ∈ l.map Prod.fst) : (alookup l s).isSome := by
  induction l with
  | nil => simp at h
  | cons p rest ih =>
    obtain ⟨k, w⟩ := p
    rw [alookup_cons]
    by_cases hk : k = s
    · simp [hk]
    · rw [List.map_cons, List.mem_cons] at h
      rcases h with h | h
      · exact absurd h.symm hk
      · simp only [hk, if_false]
        exact ih h

/-! Generic fold-preservation lemmas. -/

theorem foldl_preserve {α β : Type} (P : α → Prop) (g : α → β → α) (l : List β) (a : α)
    (hstep : ∀ acc x, x ∈ l → P acc → P (g acc x)) (h : P a) : P (l.foldl g a) := by
  induction l generalizing a with
  | nil => exact h
  | cons x rest ih =>
    refine ih (g a x) (fun acc y hy hacc => hstep acc y (List.mem_cons_of_mem _ hy) hacc) ?_
    exact hstep a x (List.mem_cons_self _ _) h

/-! Monotonicity of the mark engine over the planning state. -/

theorem edgeLe_refl (e : FeatureNodeEdges) : EdgeLe e e :=
  ⟨rfl, rfl, fun h => h⟩

theorem edgeLe_trans {a b c : FeatureNodeEdges} (h1 : EdgeLe a b) (h2 : EdgeLe b c) :
    EdgeLe a c :=
  ⟨h2.1.trans h1.1, h2.2.1.trans h1.2.1, fun h => h2.2.2 (h1.2.2 h)⟩

theorem clusterLe_refl (c : Cluster) : ClusterLe c c :=
  ⟨rfl, rfl, rfl, rfl, rfl, fun h => h, fun h => h, fun _ hf => hf,
    fun key => by
      cases h : alookup c.edges key with
      | none => exact Or.inl ⟨rfl, rfl⟩
      | some e => exact Or.inr ⟨e, e, rfl, rfl, edgeLe_refl e⟩⟩

theorem clusterLe_trans {a b c : Cluster} (h1 : ClusterLe a b) (h2 : ClusterLe b c) :
    ClusterLe a c := by
  obtain ⟨s1, f1, p1, o1, r1, w1, t1, i1, k1⟩ := h1
  obtain ⟨s2, f2, p2, o2, r2, w2, t2, i2, k2⟩ := h2
  refine ⟨s2.trans s1, f2.trans f1, p2.trans p1, o2.trans o1, r2.trans r1,
    fun h => w2 (w1 h), fun h => t2 (t1 h), fun f hf => i2 f (i1 f hf), fun key => ?_⟩
  rcases k1 key with ⟨hn1, hn2⟩ | ⟨e, e2, he, he2, hee⟩
  · rcases k2 key with ⟨_, hn3⟩ | ⟨eb, e2b, heb, _, _⟩
    · exact Or.inl ⟨hn1, hn3⟩
    · rw [hn2] at heb
      exact absurd heb (by simp)
  · rcases k2 key with ⟨hn1b, _⟩ | ⟨eb, e2b, heb, he2b, heeb⟩
    · rw [he2] at hn1b
      exact absurd hn1b (by simp)
    · rw [he2] at heb
      cases heb
      exact Or.inr ⟨e, e2b, he, he2b, edgeLe_trans hee heeb⟩

theorem stateLe_refl (st : MarkState) : StateLe st st :=
  ⟨fun s c h => ⟨c, h, clusterLe_refl c⟩, fun _ h => h⟩

theorem stateLe_trans {a b c : MarkState} (h1 : StateLe a b) (h2 : StateLe b c) :
    StateLe a c := by
  refine ⟨fun sp cl h => ?_, fun w hw => h2.2 w (h1.2 w hw)⟩
  obtain ⟨c1, hc1, hle1⟩ := h1.1 sp cl h
  obtain ⟨c2, hc2, hle2⟩ := h2.1 sp c1 hc1
  exact ⟨c2, hc2, clusterLe_trans hle1 hle2⟩

theorem cluster_upd (st : MarkState) (spec : PackageSpec) (f : Cluster → Cluster)
    (s : PackageSpec) :
    (st.upd spec f).cluster s =
      if s = spec then (st.cluster spec).map f else st.cluster s := by
  show alookup (amap st.clusters spec f) s = _
  exact alookup_amap st.clusters spec f s

theorem clusterGet_lookup_self (prov : PortProvider) (arena : ClusterArena)
    (sp : PackageSpec) :
    alookup (clusterGet prov arena sp).2 sp = some (clusterGet prov arena sp).1 := by
  unfold clusterGet
  cases h : alookup arena sp with
  | some c => simpa using h
  | none =>
    simp only []
    rw [alookup_append_right _ _ _ h, alookup_cons, if_pos rfl]

theorem clusterGet_lookup_preserve (prov : PortProvider) (arena : ClusterArena)
    (sp s : PackageSpec) (c : Cluster) (h : alookup arena s = some c) :
    alookup (clusterGet prov arena sp).2 s = some c := by
  unfold clusterGet
  cases h2 : alookup arena sp with
  | some c2 => simpa using h
  | none =>
    simp only []
    exact alookup_append_left _ _ _ _ h

theorem cluster_materialize (prov : PortProvider) (st : MarkState) (sp s : PackageSpec)
    (c : Cluster) (h : st.cluster s = some c) :
    (MarkState.materialize prov st sp).cluster s = some c :=
  clusterGet_lookup_preserve prov st.clusters sp s c h

theorem StateLe.upd (st : MarkState) (spec : PackageSpec) (f : Cluster → Cluster)
    (hf : ∀ c, ClusterLe c (f c)) : StateLe st (st.upd spec f) := by
  refine ⟨fun s c h => ?_, fun w hw => hw⟩
  rw [cluster_upd]
  by_cases hs : s = spec
  · subst hs
    rw [if_pos rfl, h]
    exact ⟨f c, rfl, hf c⟩
  · rw [if_neg hs]
    exact ⟨c, h, clusterLe_refl c⟩

theorem StateLe.materialize (prov : PortProvider) (st : MarkState) (sp : PackageSpec) :
    StateLe st (MarkState.materialize prov st sp) :=
  ⟨fun s c h => ⟨c, cluster_materialize prov st sp s c h, clusterLe_refl c⟩,
    fun w hw => hw⟩

theorem StateLe.graphs (st : MarkState) (rg ig : Graph) :
    StateLe st { st with remove_graph := rg, install_graph := ig } :=
  ⟨fun s c h => ⟨c, h, clusterLe_refl c⟩, fun w hw => hw⟩

theorem StateLe.installGraph (st : MarkState) (ig : Graph) :
    StateLe st { st with install_graph := ig } :=
  ⟨fun s c h => ⟨c, h, clusterLe_refl c⟩, fun w hw => hw⟩

theorem StateLe.removeGraph (st : MarkState) (rg : Graph) :
    StateLe st { st with remove_graph := rg } :=
  ⟨fun s c h => ⟨c, h, clusterLe_refl c⟩, fun w hw => hw⟩

theorem StateLe.warn (st : MarkState) (w : FeatureSpec) :
    StateLe st { st with warnings := st.warnings ++ [w] } :=
  ⟨fun s c h => ⟨c, h, clusterLe_refl c⟩, fun w2 hw => List.mem_append_left _ hw⟩

theorem ClusterLe.setTransient (c : Cluster) :
    ClusterLe c { c with transient_uninstalled := true } :=
  ⟨rfl, rfl, rfl, rfl, rfl, fun h => h, fun _ => rfl, fun _ hf => hf,
    fun key => (clusterLe_refl c).2.2.2.2.2.2.2.2 key⟩

theorem ClusterLe.setWillRemove (c : Cluster) :
    ClusterLe c { c with will_remove := true } :=
  ⟨rfl, rfl, rfl, rfl, rfl, fun _ => rfl, fun h => h, fun _ hf => hf,
    fun key => (clusterLe_refl c).2.2.2.2.2.2.2.2 key⟩

theorem ClusterLe.insertToInstall (c : Cluster) (f : String) :
    ClusterLe c { c with to_install_features := sinsert f c.to_install_features } :=
  ⟨rfl, rfl, rfl, rfl, rfl, fun h => h, fun h => h,
    fun g hg => (mem_sinsert f g _).mpr (Or.inr hg),
    fun key => (clusterLe_refl c).2.2.2.2.2.2.2.2 key⟩

theorem ClusterLe.setPlusEdge (c : Cluster) (feature : String) :
    ClusterLe c { c with edges := amap c.edges feature (fun e => { e with plus := true }) } := by
  refine ⟨rfl, rfl, rfl, rfl, rfl, fun h => h, fun h => h, fun _ hf => hf, fun key => ?_⟩
  show (alookup c.edges key = none ∧
      alookup (amap c.edges feature (fun e => { e with plus := true })) key = none) ∨ _
  rw [alookup_amap]
  by_cases hk : key = feature
  · subst hk
    rw [if_pos rfl]
    cases h : alookup c.edges key with
    | none => exact Or.inl ⟨rfl, rfl⟩
    | some e => exact Or.inr ⟨e, { e with plus := true }, rfl, rfl, ⟨rfl, rfl, fun _ => rfl⟩⟩
  · rw [if_neg hk]
    cases h : alookup c.edges key with
    | none => exact Or.inl ⟨rfl, rfl⟩
    | some e => exact Or.inr ⟨e, e, rfl, rfl, edgeLe_refl e⟩

theorem StateLe.of_eq {st st2 : MarkState} (h : st2 = st) : StateLe st st2 := by
  cases h
  exact stateLe_refl _

theorem StateLe.plusPre (st : MarkState) (spec : PackageSpec) (f : String) (c : Cluster) :
    StateLe st (plusPre st spec f c) := by
  unfold Vcpkg.plusPre
  split
  · exact StateLe.upd _ spec _ (fun cl => ClusterLe.setPlusEdge cl f)
  · refine stateLe_trans (StateLe.upd st spec _ (fun cl => ClusterLe.setTransient cl)) ?_
    exact StateLe.upd _ spec _ (fun cl => ClusterLe.setPlusEdge cl f)

theorem StateLe.plusMid (st : MarkState) (spec : PackageSpec) (f : String) :
    StateLe st (plusMid st spec f) := by
  refine stateLe_trans (StateLe.installGraph st (st.install_graph.addVertex spec)) ?_
  exact StateLe.upd _ spec _ (fun cl => ClusterLe.insertToInstall cl f)

theorem StateLe.minusPre (st : MarkState) (spec : PackageSpec) :
    StateLe st (minusPre st spec) := by
  refine stateLe_trans (StateLe.upd st spec _ (fun cl => ClusterLe.setWillRemove cl)) ?_
  exact StateLe.removeGraph _ _

theorem StateLe.minusMid (st : MarkState) (spec : PackageSpec) :
    StateLe st (minusMid st spec) :=
  StateLe.upd st spec _ (fun cl => ClusterLe.setTransient cl)

theorem StateLe.depPost (st : MarkState) (spec : PackageSpec) (d : FeatureSpec) :
    StateLe st (depPost st spec d) := by
  unfold Vcpkg.depPost
  split
  · exact stateLe_refl st
  · exact StateLe.installGraph st _

theorem StateLe.revPre (prov : PortProvider) (st : MarkState) (spec : PackageSpec)
    (d : FeatureSpec) : StateLe st (revPre prov st spec d) :=
  stateLe_trans (StateLe.materialize prov st d.spec) (StateLe.removeGraph _ _)

theorem StateLe.replayPost (st : MarkState) (r : MarkPlusResult) (spec : PackageSpec)
    (f : String) : StateLe st (replayPost st r spec f) := by
  unfold Vcpkg.replayPost
  split
  · exact stateLe_refl st
  · exact StateLe.warn st _

/-- Inversion of one `mark_plus` step: the five ways the body can return. -/
theorem markPlus_step {prov : PortProvider} {n : Nat} {f : String} {spec : PackageSpec}
    {st : MarkState} {r : MarkPlusResult} {st2 : MarkState}
    (h : markRun prov (n + 1) (Cmd.plus f spec) st = some (r, st2)) :
    (f = "" ∧ markRun prov n (Cmd.plus "core" spec) st = some (r, st2)) ∨
    (f ≠ "" ∧ ∃ c, st.cluster spec = some c ∧
      ((alookup c.edges f = none ∧ r = MarkPlusResult.FEATURE_NOT_FOUND ∧ st2 = st) ∨
       (∃ e, alookup c.edges f = some e ∧ e.plus = true ∧
         r = MarkPlusResult.SUCCESS ∧ st2 = st) ∨
       (∃ e, alookup c.edges f = some e ∧ e.plus = false ∧ f ∈ c.original_features ∧
         c.transient_uninstalled = false ∧ r = MarkPlusResult.SUCCESS ∧ st2 = st) ∨
       (∃ e, alookup c.edges f = some e ∧ e.plus = false ∧
         (f ∈ c.original_features → c.transient_uninstalled = true) ∧
         ∃ p3,
           (if c.original_features.isEmpty then
              some (MarkPlusResult.SUCCESS, plusPre st spec f c)
            else markRun prov n (Cmd.minus spec) (plusPre st spec f c)) = some p3 ∧
         ∃ p6,
           (if f = "core" then some (MarkPlusResult.SUCCESS, plusMid p3.2 spec f)
            else markRun prov n (Cmd.plus "core" spec) (plusMid p3.2 spec f)) = some p6 ∧
           p6.1 = MarkPlusResult.SUCCESS ∧
         ∃ p7, markRun prov n (Cmd.plusDeps spec (buildEdgesOf p6.2 spec f)) p6.2 = some p7 ∧
           r = MarkPlusResult.SUCCESS ∧ st2 = p7.2))) := by
  rw [markRun] at h
  by_cases hf : f = ""
  · rw [if_pos hf] at h
    exact Or.inl ⟨hf, h⟩
  rw [if_neg hf] at h
  refine Or.inr ⟨hf, ?_⟩
  cases hcl : st.cluster spec with
  | none => simp [hcl] at h
  | some c =>
  refine ⟨c, rfl, ?_⟩
  simp only [hcl] at h
  cases hedge : alookup c.edges f with
  | none =>
    simp only [hedge, Option.some.injEq, Prod.mk.injEq] at h
    exact Or.inl ⟨rfl, h.1.symm, h.2.symm⟩
  | some e =>
  simp only [hedge] at h
  by_cases hp : e.plus = true
  · rw [if_pos hp] at h
    simp only [Option.some.injEq, Prod.mk.injEq] at h
    exact Or.inr (Or.inl ⟨e, rfl, hp, h.1.symm, h.2.symm⟩)
  rw [if_neg hp] at h
  have hpf : e.plus = false := by
    cases hb : e.plus
    · rfl
    · exact absurd hb hp
  by_cases horig : f ∈ c.original_features
  · simp only [if_pos horig] at h
    by_cases htr : c.transient_uninstalled = false
    · rw [if_pos htr] at h
      simp only [Option.some.injEq, Prod.mk.injEq] at h
      exact Or.inr (Or.inr (Or.inl ⟨e, rfl, hpf, horig, htr, h.1.symm, h.2.symm⟩))
    · rw [if_neg htr] at h
      have htrt : c.transient_uninstalled = true := by
        cases hb : c.transient_uninstalled
        · exact absurd hb htr
        · rfl
      rw [Option.bind_eq_some] at h
      obtain ⟨p3, hp3, h⟩ := h
      rw [Option.bind_eq_some] at h
      obtain ⟨p6, hp6, h⟩ := h
      by_cases hr : p6.1 = MarkPlusResult.SUCCESS
      · rw [if_pos hr, Option.map_eq_some'] at h
        obtain ⟨p7, hp7, heq⟩ := h
        refine Or.inr (Or.inr (Or.inr ⟨e, rfl, hpf, fun _ => htrt, p3, hp3, p6, hp6, hr,
          p7, hp7, ?_, ?_⟩))
        · exact (congrArg Prod.fst heq).symm
        · exact (congrArg Prod.snd heq).symm
      · rw [if_neg hr] at h
        simp at h
  · simp only [if_neg horig] at h
    rw [if_neg (by simp : ¬ (true = false))] at h
    rw [Option.bind_eq_some] at h
    obtain ⟨p3, hp3, h⟩ := h
    rw [Option.bind_eq_some] at h
    obtain ⟨p6, hp6, h⟩ := h
    by_cases hr : p6.1 = MarkPlusResult.SUCCESS
    · rw [if_pos hr, Option.map_eq_some'] at h
      obtain ⟨p7, hp7, heq⟩ := h
      refine Or.inr (Or.inr (Or.inr ⟨e, rfl, hpf, fun hm => absurd hm horig, p3, hp3, p6, hp6,
        hr, p7, hp7, ?_, ?_⟩))
      · exact (congrArg Prod.fst heq).symm
      · exact (congrArg Prod.snd heq).symm
    · rw [if_neg hr] at h
      simp at h

/-- Inversion of one `mark_minus` step. -/
theorem markMinus_step {prov : PortProvider} {n : Nat} {spec : PackageSpec}
    {st : MarkState} {r : MarkPlusResult} {st2 : MarkState}
    (h : markRun prov (n + 1) (Cmd.minus spec) st = some (r, st2)) :
    ∃ c, st.cluster spec = some c ∧
      ((c.will_remove = true ∧ r = MarkPlusResult.SUCCESS ∧ st2 = st) ∨
       (c.will_remove = false ∧
        ∃ p, markRun prov n
            (Cmd.minusRev spec (c.edges.flatMap (fun q => q.2.remove_edges)))
            (minusPre st spec) = some p ∧
          markRun prov n (Cmd.minusReplay spec (origsOf (minusMid p.2 spec) spec))
            (minusMid p.2 spec) = some (r, st2))) := by
  rw [markRun] at h
  cases hcl : st.cluster spec with
  | none => simp [hcl] at h
  | some c =>
  refine ⟨c, rfl, ?_⟩
  simp only [hcl] at h
  by_cases hw : c.will_remove = true
  · rw [if_pos hw] at h
    simp only [Option.some.injEq, Prod.mk.injEq] at h
    exact Or.inl ⟨hw, h.1.symm, h.2.symm⟩
  · rw [if_neg hw, Option.bind_eq_some] at h
    obtain ⟨p, hp, h⟩ := h
    have hwf : c.will_remove = false := by
      cases hb : c.will_remove
      · rfl
      · exact absurd hb hw
    exact Or.inr ⟨hwf, p, hp, h⟩

/-- Inversion of one step of the `mark_plus` dependency loop. -/
theorem markPlusDeps_step {prov : PortProvider} {n : Nat} {spec : PackageSpec}
    {d : FeatureSpec} {rest : List FeatureSpec} {st : MarkState} {r : MarkPlusResult}
    {st2 : MarkState}
    (h : markRun prov (n + 1) (Cmd.plusDeps spec (d :: rest)) st = some (r, st2)) :
    ∃ p, markRun prov n (Cmd.plus d.feature d.spec) (MarkState.materialize prov st d.spec)
        = some p ∧ p.1 = MarkPlusResult.SUCCESS ∧
      markRun prov n (Cmd.plusDeps spec rest) (depPost p.2 spec d) = some (r, st2) := by
  simp only [markRun, Option.bind_eq_some] at h
  obtain ⟨p, hp, h⟩ := h
  by_cases hr : p.1 = MarkPlusResult.SUCCESS
  · rw [if_pos hr] at h
    exact ⟨p, hp, hr, h⟩
  · rw [if_neg hr] at h
    simp at h

/-- Inversion of one step of the `mark_minus` reverse-dependency loop. -/
theorem markMinusRev_step {prov : PortProvider} {n : Nat} {spec : PackageSpec}
    {d : FeatureSpec} {rest : List FeatureSpec} {st : MarkState} {r : MarkPlusResult}
    {st2 : MarkState}
    (h : markRun prov (n + 1) (Cmd.minusRev spec (d :: rest)) st = some (r, st2)) :
    ∃ p, markRun prov n (Cmd.minus d.spec) (revPre prov st spec d) = some p ∧
      markRun prov n (Cmd.minusRev spec rest) p.2 = some (r, st2) := by
  simp only [markRun, Option.bind_eq_some] at h
  exact h

/-- Inversion of one step of the `mark_minus` replay loop. -/
theorem markMinusReplay_step {prov : PortProvider} {n : Nat} {spec : PackageSpec}
    {f : String} {rest : List String} {st : MarkState} {r : MarkPlusResult} {st2 : MarkState}
    (h : markRun prov (n + 1) (Cmd.minusReplay spec (f :: rest)) st = some (r, st2)) :
    ∃ p, markRun prov n (Cmd.plus f spec) st = some p ∧
      markRun prov n (Cmd.minusReplay spec rest) (replayPost p.2 p.1 spec f)
        = some (r, st2) := by
  simp only [markRun, Option.bind_eq_some] at h
  exact h

/-- Monotonicity: one interpreter step only grows the state. -/
theorem markRun_mono (prov : PortProvider) :
    ∀ n cmd st r st2, markRun prov n cmd st = some (r, st2) → StateLe st st2 := by
  intro n
  induction n with
  | zero =>
    intro cmd st r st2 h
    simp [markRun] at h
  | succ n ih =>
    intro cmd st r st2 h
    cases cmd with
    | plus f spec =>
      rcases markPlus_step h with ⟨_, h2⟩ | ⟨_, c, hcl, hcase⟩
      · exact ih _ _ _ _ h2
      rcases hcase with ⟨_, _, rfl⟩ | ⟨e, _, _, _, rfl⟩ | ⟨e, _, _, _, _, _, rfl⟩ |
        ⟨e, hedge, hpf, htr, p3, hp3, p6, hp6, hr, p7, hp7, hrr, rfl⟩
      · exact stateLe_refl _
      · exact stateLe_refl _
      · exact stateLe_refl _
      · have hle3 : StateLe st p3.2 := by
          split at hp3
          · simp only [Option.some.injEq] at hp3
            exact stateLe_trans (StateLe.plusPre st spec f c)
              (StateLe.of_eq (congrArg Prod.snd hp3).symm)
          · exact stateLe_trans (StateLe.plusPre st spec f c) (ih _ _ _ _ hp3)
        have hle6 : StateLe st p6.2 := by
          split at hp6
          · simp only [Option.some.injEq] at hp6
            exact stateLe_trans (stateLe_trans hle3 (StateLe.plusMid p3.2 spec f))
              (StateLe.of_eq (congrArg Prod.snd hp6).symm)
          · exact stateLe_trans (stateLe_trans hle3 (StateLe.plusMid p3.2 spec f))
              (ih _ _ _ _ hp6)
        exact stateLe_trans hle6 (ih _ _ _ _ hp7)
    | plusDeps spec deps =>
      cases deps with
      | nil =>
        simp only [markRun, Option.some.injEq, Prod.mk.injEq] at h
        exact StateLe.of_eq h.2.symm
      | cons d rest =>
        obtain ⟨p, hp, hpr, h2⟩ := markPlusDeps_step h
        have hle1 : StateLe st p.2 :=
          stateLe_trans (StateLe.materialize prov st d.spec) (ih _ _ _ _ hp)
        exact stateLe_trans (stateLe_trans hle1 (StateLe.depPost p.2 spec d)) (ih _ _ _ _ h2)
    | minus spec =>
      obtain ⟨c, hcl, hcase⟩ := markMinus_step h
      rcases hcase with ⟨_, _, rfl⟩ | ⟨_, p, hp, h2⟩
      · exact stateLe_refl _
      · have hle1 : StateLe st p.2 := stateLe_trans (StateLe.minusPre st spec) (ih _ _ _ _ hp)
        exact stateLe_trans (stateLe_trans hle1 (StateLe.minusMid p.2 spec)) (ih _ _ _ _ h2)
    | minusRev spec deps =>
      cases deps with
      | nil =>
        simp only [markRun, Option.some.injEq, Prod.mk.injEq] at h
        exact StateLe.of_eq h.2.symm
      | cons d rest =>
        obtain ⟨p, hp, h2⟩ := markMinusRev_step h
        have hle1 : StateLe st p.2 :=
          stateLe_trans (StateLe.revPre prov st spec d) (ih _ _ _ _ hp)
        exact stateLe_trans hle1 (ih _ _ _ _ h2)
    | minusReplay spec feats =>
      cases feats with
      | nil =>
        simp only [markRun, Option.some.injEq, Prod.mk.injEq] at h
        exact StateLe.of_eq h.2.symm
      | cons f rest =>
        obtain ⟨p, hp, h2⟩ := markMinusReplay_step h
        exact stateLe_trans (stateLe_trans (ih _ _ _ _ hp) (StateLe.replayPost p.2 p.1 spec f))
          (ih _ _ _ _ h2)

theorem ClusterLe.spec_eq {c c2 : Cluster} (h : ClusterLe c c2) : c2.spec = c.spec := h.1

theorem ClusterLe.scf_eq {c c2 : Cluster} (h : ClusterLe c c2) :
    c2.source_control_file = c.source_control_file := h.2.1

theorem ClusterLe.orig_eq {c c2 : Cluster} (h : ClusterLe c c2) :
    c2.original_features = c.original_features := h.2.2.2.1

theorem ClusterLe.req_eq {c c2 : Cluster} (h : ClusterLe c c2) :
    c2.request_type = c.request_type := h.2.2.2.2.1

theorem ClusterLe.wr_mono {c c2 : Cluster} (h : ClusterLe c c2) :
    c.will_remove = true → c2.will_remove = true := h.2.2.2.2.2.1

theorem ClusterLe.tr_mono {c c2 : Cluster} (h : ClusterLe c c2) :
    c.transient_uninstalled = true → c2.transient_uninstalled = true := h.2.2.2.2.2.2.1

theorem ClusterLe.ti_mono {c c2 : Cluster} (h : ClusterLe c c2) :
    ∀ f, f ∈ c.to_install_features → f ∈ c2.to_install_features := h.2.2.2.2.2.2.2.1

theorem ClusterLe.edges_rel {c c2 : Cluster} (h : ClusterLe c c2) :
    ∀ key, (alookup c.edges key = none ∧ alookup c2.edges key = none) ∨
      ∃ e e2, alookup c.edges key = some e ∧ alookup c2.edges key = some e2 ∧ EdgeLe e e2 :=
  h.2.2.2.2.2.2.2.2

theorem ClusterLe.plus_mono {c c2 : Cluster} (h : ClusterLe c c2) {key : String}
    {e : FeatureNodeEdges} (he : alookup c.edges key = some e) (hp : e.plus = true) :
    ∃ e2, alookup c2.edges key = some e2 ∧ e2.plus = true := by
  rcases h.edges_rel key with ⟨hn, _⟩ | ⟨ea, e2, hea, he2, hle⟩
  · rw [he] at hn
    exact absurd hn (by simp)
  · rw [he] at hea
    cases hea
    exact ⟨e2, he2, hle.2.2 hp⟩

/-- The state chain of the main path of `mark_plus`, from the state after
the mark is set to the final state. -/
theorem plusMain_chain {prov : PortProvider} {n : Nat} {spec : PackageSpec} {f : String}
    {c : Cluster} {st : MarkState} {p3 p6 p7 : MarkPlusResult × MarkState}
    (hp3 : (if c.original_features.isEmpty then
              some (MarkPlusResult.SUCCESS, plusPre st spec f c)
            else markRun prov n (Cmd.minus spec) (plusPre st spec f c)) = some p3)
    (hp6 : (if f = "core" then some (MarkPlusResult.SUCCESS, plusMid p3.2 spec f)
            else markRun prov n (Cmd.plus "core" spec) (plusMid p3.2 spec f)) = some p6)
    (hp7 : markRun prov n (Cmd.plusDeps spec (buildEdgesOf p6.2 spec f)) p6.2 = some p7) :
    StateLe (plusPre st spec f c) p7.2 := by
  have hle3 : StateLe (plusPre st spec f c) p3.2 := by
    split at hp3
    · simp only [Option.some.injEq] at hp3
      exact StateLe.of_eq (congrArg Prod.snd hp3).symm
    · exact markRun_mono prov n _ _ _ _ hp3
  have hle6 : StateLe (plusPre st spec f c) p6.2 := by
    split at hp6
    · simp only [Option.some.injEq] at hp6
      exact stateLe_trans (stateLe_trans hle3 (StateLe.plusMid p3.2 spec f))
        (StateLe.of_eq (congrArg Prod.snd hp6).symm)
    · exact stateLe_trans (stateLe_trans hle3 (StateLe.plusMid p3.2 spec f))
        (markRun_mono prov n _ _ _ _ hp6)
  exact stateLe_trans hle6 (markRun_mono prov n _ _ _ _ hp7)

theorem foldl_establish {α β : Type} (P : α → Prop) (g : α → β → α) :
    ∀ (l : List β) (a : α) (x : β), x ∈ l → (∀ acc, P (g acc x)) →
      (∀ acc y, y ∈ l → P acc → P (g acc y)) → P (l.foldl g a)
  | [], _, x, hx, _, _ => absurd hx (List.not_mem_nil x)
  | y :: rest, a, x, hx, hmk, hstep => by
    rcases List.mem_cons.mp hx with rfl | hx2
    · exact foldl_preserve P g rest (g a x)
        (fun acc z hz hacc => hstep acc z (List.mem_cons_of_mem _ hz) hacc) (hmk a)
    · exact foldl_establish P g rest (g a y) x hx2 hmk
        (fun acc z hz hacc => hstep acc z (List.mem_cons_of_mem _ hz) hacc)

theorem plusPre_cluster_not_orig (st : MarkState) (spec : PackageSpec) (f : String)
    (c : Cluster) (hc : st.cluster spec = some c) (horig : f ∉ c.original_features) :
    ∃ c1, (plusPre st spec f c).cluster spec = some c1 ∧ c1.transient_uninstalled = true := by
  unfold Vcpkg.plusPre MarkState.setPlus
  rw [if_neg horig]
  rw [cluster_upd, if_pos rfl, cluster_upd, if_pos rfl, hc]
  exact ⟨_, rfl, rfl⟩

/-- C5: with a (nonempty) feature present in `cluster.edges`, `mark_plus`
returns `SUCCESS` immediately and without mutation when the feature's
`plus` mark is already set; when the mark is clear and the feature is not
among `original_features`, any returning run leaves the cluster's
`transient_uninstalled` flag true; and when the mark is clear, the
feature is original and `transient_uninstalled` is false, it returns
`SUCCESS` with the state unchanged — hence without setting the mark,
without adding the cluster to the install graph and without recording
the feature in `to_install_features`. -/
theorem mark_plus_early_steps (prov : PortProvider) (n : Nat) (f : String)
    (spec : PackageSpec) (st : MarkState) (c : Cluster) (e : FeatureNodeEdges)
    (hf : f ≠ "") (hc : st.cluster spec = some c) (he : alookup c.edges f = some e) :
    (e.plus = true → mark_plus prov (n + 1) f spec st = some (MarkPlusResult.SUCCESS, st)) ∧
    (e.plus = false → f ∉ c.original_features →
      ∀ r st2, mark_plus prov (n + 1) f spec st = some (r, st2) →
        ∃ c2, st2.cluster spec = some c2 ∧ c2.transient_uninstalled = true) ∧
    (e.plus = false → f ∈ c.original_features → c.transient_uninstalled = false →
      mark_plus prov (n + 1) f spec st = some (MarkPlusResult.SUCCESS, st)) := by
  refine ⟨?_, ?_, ?_⟩
  · intro hp
    show markRun prov (n + 1) (Cmd.plus f spec) st = _
    rw [markRun, if_neg hf]
    simp only [hc, he, hp, if_true]
  · intro hpf horig r st2 h
    rcases markPlus_step h with ⟨hf0, _⟩ | ⟨_, c0, hcl0, hcase⟩
    · exact absurd hf0 hf
    rw [hc] at hcl0
    injection hcl0 with hcc
    subst hcc
    rcases hcase with ⟨hnone, _, _⟩ | ⟨e0, he0, hp0, _, _⟩ |
      ⟨e0, he0, _, horig0, _, _, _⟩ |
      ⟨e0, he0, _, _, p3, hp3, p6, hp6, _, p7, hp7, _, hst⟩
    · rw [he] at hnone
      exact absurd hnone (by simp)
    · rw [he] at he0
      injection he0 with hee
      subst hee
      rw [hpf] at hp0
      exact absurd hp0 (by simp)
    · exact absurd horig0 horig
    · subst hst
      obtain ⟨c1, hc1, ht1⟩ := plusPre_cluster_not_orig st spec f c hc horig
      obtain ⟨c2, hc2, hle⟩ := (plusMain_chain hp3 hp6 hp7).1 spec c1 hc1
      exact ⟨c2, hc2, hle.tr_mono ht1⟩
  · intro hpf horig htr
    show markRun prov (n + 1) (Cmd.plus f spec) st = _
    rw [markRun, if_neg hf]
    simp only [hc, he, hpf, Bool.false_eq_true, if_false, if_pos horig, htr]
    simp

/-- C5 witness: a concrete instantiation of the memoized step on a
one-cluster state. -/
theorem mark_plus_early_steps_witness :
    mark_plus [] 4 "x" { name := "a", triplet := "x64" }
      { clusters := [({ name := "a", triplet := "x64" },
          { spec := { name := "a", triplet := "x64" },
            source_control_file := none,
            status_paragraphs := [],
            edges := [("x", { remove_edges := [], build_edges := [], plus := true })],
            to_install_features := ["x"],
            original_features := [],
            will_remove := false,
            transient_uninstalled := true,
            request_type := RequestType.AUTO_SELECTED })],
        remove_graph := Graph.empty,
        install_graph := Graph.empty,
        warnings := [] }
    = some (MarkPlusResult.SUCCESS,
      { clusters := [({ name := "a", triplet := "x64" },
          { spec := { name := "a", triplet := "x64" },
            source_control_file := none,
            status_paragraphs := [],
            edges := [("x", { remove_edges := [], build_edges := [], plus := true })],
            to_install_features := ["x"],
            original_features := [],
            will_remove := false,
            transient_uninstalled := true,
            request_type := RequestType.AUTO_SELECTED })],
        remove_graph := Graph.empty,
        install_graph := Graph.empty,
        warnings := [] }) :=
  (mark_plus_early_steps [] 3 "x" { name := "a", triplet := "x64" } _
    { spec := { name := "a", triplet := "x64" },
      source_control_file := none,
      status_paragraphs := [],
      edges := [("x", { remove_edges := [], build_edges := [], plus := true })],
      to_install_features := ["x"],
      original_features := [],
      will_remove := false,
      transient_uninstalled := true,
      request_type := RequestType.AUTO_SELECTED }
    { remove_edges := [], build_edges := [], plus := true }
    (by decide) (by rfl) (by rfl)).1 rfl

theorem sectionEvent_shape (mk : String → PrintEvent) (l : List InstallPlanAction)
    (evs : List PrintEvent) (h : sectionEvent mk l = some evs) :
    ∀ ev ∈ evs, ∃ s, ev = mk s := by
  unfold sectionEvent at h
  split at h
  · cases h
    intro ev hev
    simp at hev
  · rw [Option.map_eq_some'] at h
    obtain ⟨s, _, rfl⟩ := h
    intro ev hev
    rw [List.mem_singleton] at hev
    exact ⟨s, hev⟩

theorem has_non_user_iff (plan : List AnyAction) :
    has_non_user_requested_packages plan = true ↔
      ∃ ia : InstallPlanAction, AnyAction.install ia ∈ plan ∧
        ia.request_type ≠ RequestType.USER_REQUESTED := by
  unfold has_non_user_requested_packages
  rw [List.any_eq_true]
  constructor
  · rintro ⟨a, ha, hpa⟩
    cases a with
    | install ia =>
      refine ⟨ia, ha, ?_⟩
      simpa using hpa
    | remove ra => simp at hpa
  · rintro ⟨ia, hia, hrt⟩
    refine ⟨AnyAction.install ia, hia, ?_⟩
    simpa using hrt

/-- C8 (amended): `print_plan` prints the additional-packages banner if
and only if the plan contains an install action whose request type is not
`USER_REQUESTED`; auto-selected remove actions alone never trigger the
banner (the `has_non_user_requested_packages` lambda answers `false` for
remove actions). -/
theorem print_plan_banner_iff (action_plan : List AnyAction) (is_recursive : Bool)
    (evts : List PrintEvent) (ok : Bool)
    (h : print_plan action_plan is_recursive = some (evts, ok)) :
    (PrintEvent.additionalPackagesBanner ∈ evts ↔
      ∃ ia : InstallPlanAction, AnyAction.install ia ∈ action_plan ∧
        ia.request_type ≠ RequestType.USER_REQUESTED) := by
  unfold print_plan at h
  rw [Option.bind_eq_some] at h
  obtain ⟨cats, hcats, h⟩ := h
  rw [Option.bind_eq_some] at h
  obtain ⟨e1, he1, h⟩ := h
  rw [Option.bind_eq_some] at h
  obtain ⟨e2, he2, h⟩ := h
  rw [Option.bind_eq_some] at h
  obtain ⟨e3, he3, h⟩ := h
  rw [Option.bind_eq_some] at h
  obtain ⟨e4, he4, h⟩ := h
  rw [Option.map_eq_some'] at h
  obtain ⟨e5, he5, h⟩ := h
  have hevts : evts = e1 ++ e2 ++ e3 ++ e4 ++ e5 ++
      (if has_non_user_requested_packages action_plan
       then [PrintEvent.additionalPackagesBanner] else []) ++
      (if cats.remove_plans.length > 0 ∧ is_recursive = false
       then [PrintEvent.recurseWarning] else []) := (congrArg Prod.fst h).symm
  subst hevts
  have hs1 := sectionEvent_shape _ _ _ he1
  have hs2 := sectionEvent_shape _ _ _ he2
  have hs3 := sectionEvent_shape _ _ _ he3
  have hs4 := sectionEvent_shape _ _ _ he4
  have hs5 := sectionEvent_shape _ _ _ he5
  constructor
  · intro hmem
    simp only [List.append_assoc, List.mem_append] at hmem
    rcases hmem with h1 | h2 | h3 | h4 | h5 | hb | hw
    · obtain ⟨s, hs⟩ := hs1 _ h1
      exact absurd hs (by simp)
    · obtain ⟨s, hs⟩ := hs2 _ h2
      exact absurd hs (by simp)
    · obtain ⟨s, hs⟩ := hs3 _ h3
      exact absurd hs (by simp)
    · obtain ⟨s, hs⟩ := hs4 _ h4
      exact absurd hs (by simp)
    · obtain ⟨s, hs⟩ := hs5 _ h5
      exact absurd hs (by simp)
    · by_cases hc : has_non_user_requested_packages action_plan = true
      · exact (has_non_user_iff _).mp hc
      · simp [hc] at hb
    · by_cases hc : cats.remove_plans.length > 0 ∧ is_recursive = false
      · rw [if_pos hc] at hw
        simp at hw
      · rw [if_neg hc] at hw
        simp at hw
  · intro hex
    have hc := (has_non_user_iff _).mpr hex
    simp only [List.append_assoc, List.mem_append]
    refine Or.inr (Or.inr (Or.inr (Or.inr (Or.inr (Or.inl ?_)))))
    simp [hc]

/-- C8 counterexample: a plan holding one auto-selected remove action
prints no banner, refuting the claim that any `AUTO_SELECTED` action
(install or remove) triggers it. -/
theorem print_plan_banner_remove_cex :
    print_plan [demoRemoveAuto] true = some ([], true) ∧
    ([demoRemoveAuto].any (fun a =>
      match a with
      | AnyAction.install ia => decide (ia.request_type = RequestType.AUTO_SELECTED)
      | AnyAction.remove ra => decide (ra.request_type = RequestType.AUTO_SELECTED)))
      = true ∧
    PrintEvent.additionalPackagesBanner ∉ ([] : List PrintEvent) := by
  refine ⟨?_, ?_, ?_⟩ <;> decide

/-- C8 witness: on a plan with one auto-selected install action the
banner is printed, and the theorem's equivalence holds at that input. -/
theorem print_plan_banner_iff_witness :
    print_plan [demoInstallAuto] true
      = some ([PrintEvent.newSection "  * b[core]:x64",
               PrintEvent.additionalPackagesBanner], true) ∧
    (PrintEvent.additionalPackagesBanner ∈
        [PrintEvent.newSection "  * b[core]:x64", PrintEvent.additionalPackagesBanner] ↔
      ∃ ia : InstallPlanAction, AnyAction.install ia ∈ [demoInstallAuto] ∧
        ia.request_type ≠ RequestType.USER_REQUESTED) :=
  ⟨by decide, print_plan_banner_iff _ true _ true (by decide)⟩

theorem KeyIn_clusterGet (prov : PortProvider) (arena : ClusterArena) (sp : PackageSpec)
    (key : String) (s2 : PackageSpec) (h : KeyIn arena sp key) :
    KeyIn (clusterGet prov arena s2).2 sp key := by
  obtain ⟨c, hc, hk⟩ := h
  exact ⟨c, clusterGet_lookup_preserve prov arena s2 sp c hc, hk⟩

theorem alookup_isSome_append {α β : Type} [DecidableEq α] (l1 l2 : List (α × β)) (s : α)
    (h : (alookup l1 s).isSome = true) : (alookup (l1 ++ l2) s).isSome = true := by
  cases hv : alookup l1 s with
  | none => rw [hv] at h; simp at h
  | some v => rw [alookup_append_left l1 l2 s v hv]; rfl

theorem addRemoveEdgeEntry_keyIn_pres (arena : ClusterArena) (s2 : PackageSpec)
    (key2 : String) (rev : FeatureSpec) (sp : PackageSpec) (key : String)
    (h : KeyIn arena sp key) : KeyIn (addRemoveEdgeEntry arena s2 key2 rev) sp key := by
  obtain ⟨c, hc, hk⟩ := h
  unfold addRemoveEdgeEntry updateCluster
  rw [KeyIn]
  rw [alookup_amap]
  by_cases hs : sp = s2
  · subst hs
    rw [if_pos rfl, hc]
    refine ⟨_, rfl, ?_⟩
    cases hl : alookup c.edges key2 with
    | some e0 =>
      simp only [hl]
      rw [alookup_amap]
      by_cases hkk : key = key2
      · subst hkk
        rw [if_pos rfl, hl]
        rfl
      · rw [if_neg hkk]
        exact hk
    | none =>
      simp only [hl]
      exact alookup_isSome_append _ _ _ hk
  · rw [if_neg hs]
    exact ⟨c, hc, hk⟩

theorem addRemoveEdgeEntry_keyIn_new (arena : ClusterArena) (sp : PackageSpec)
    (key : String) (rev : FeatureSpec) (hp : (alookup arena sp).isSome = true) :
    KeyIn (addRemoveEdgeEntry arena sp key rev) sp key := by
  cases hc : alookup arena sp with
  | none => rw [hc] at hp; simp at hp
  | some c =>
  unfold addRemoveEdgeEntry updateCluster
  rw [KeyIn, alookup_amap, if_pos rfl, hc]
  refine ⟨_, rfl, ?_⟩
  cases hl : alookup c.edges key with
  | some e0 =>
    simp only [hl]
    rw [alookup_amap, if_pos rfl, hl]
    rfl
  | none =>
    simp only [hl]
    rw [alookup_append_right _ _ _ hl, alookup_cons, if_pos rfl]
    rfl

/-- One inner step of `reverseEdgePass`. -/
theorem revStep_keyIn_pres (prov : PortProvider) (row : StatusParagraph) (sp : PackageSpec)
    (key : String) (acc : ClusterArena) (y : FeatureSpec) (h : KeyIn acc sp key) :
    KeyIn (addRemoveEdgeEntry ((clusterGet prov acc y.spec).2) y.spec
      (if y.feature = "" then "core" else y.feature)
      { spec := row.spec, feature := row.feature }) sp key :=
  addRemoveEdgeEntry_keyIn_pres _ _ _ _ _ _ (KeyIn_clusterGet prov acc sp key y.spec h)

/-- C9 part one, generalized: after graph construction, every dependency
named by an installed row has its (normalized) feature key present in the
dependency cluster's edge map, SCF or not. -/
theorem create_graph_keyIn (prov : PortProvider) (db : StatusDb) (row : StatusParagraph)
    (dep : FeatureSpec) (hrow : row ∈ db)
    (hdep : dep ∈ FeatureSpec.from_strings_and_triplet row.depends row.spec.triplet) :
    KeyIn (create_feature_install_graph prov db) dep.spec
      (if dep.feature = "" then "core" else dep.feature) := by
  unfold create_feature_install_graph reverseEdgePass
  refine foldl_establish
    (fun arena => KeyIn arena dep.spec (if dep.feature = "" then "core" else dep.feature))
    _ db _ row hrow (fun acc => ?_) (fun acc y hy hacc => ?_)
  · refine foldl_establish
      (fun arena => KeyIn arena dep.spec (if dep.feature = "" then "core" else dep.feature))
      _ _ acc dep hdep (fun acc2 => ?_) (fun acc2 y hy hacc2 => ?_)
    · exact addRemoveEdgeEntry_keyIn_new _ _ _ _ (by
        rw [clusterGet_lookup_self]
        rfl)
    · exact revStep_keyIn_pres prov row dep.spec _ acc2 y hacc2
  · refine foldl_preserve
      (fun arena => KeyIn arena dep.spec (if dep.feature = "" then "core" else dep.feature))
      _ _ acc (fun acc2 z hz hacc2 => ?_) hacc
    exact revStep_keyIn_pres prov y dep.spec _ acc2 z hacc2

/-- C9 part two, generalized: `mark_plus` on a nonempty feature key that
is present in the cluster's edge map never reports
`FEATURE_NOT_FOUND`. -/
theorem markPlus_present_not_fnf (prov : PortProvider) (n : Nat) (f : String)
    (spec : PackageSpec) (st : MarkState) (r : MarkPlusResult) (st2 : MarkState)
    (c : Cluster) (hf : f ≠ "") (hc : st.cluster spec = some c)
    (hk : (alookup c.edges f).isSome = true)
    (h : markRun prov n (Cmd.plus f spec) st = some (r, st2)) :
    r = MarkPlusResult.SUCCESS := by
  cases n with
  | zero => simp [markRun] at h
  | succ n =>
    rcases markPlus_step h with ⟨hf0, _⟩ | ⟨_, c0, hcl0, hcase⟩
    · exact absurd hf0 hf
    rw [hc] at hcl0
    injection hcl0 with hcc
    subst hcc
    rcases hcase with ⟨hnone, _, _⟩ | ⟨e0, _, _, hr, _⟩ | ⟨e0, _, _, _, _, hr, _⟩ |
      ⟨e0, _, _, _, p3, _, p6, _, _, p7, _, hr, _⟩
    · rw [hnone] at hk
      simp at hk
    · exact hr
    · exact hr
    · exact hr

/-- C9: after cluster-graph construction from installed state, each
(name, feature) dependency of every installed row has its key (empty
feature normalized to core) present in the dependency's cluster edges,
even without an SCF or feature paragraph; consequently a `mark_plus` on
that key from the constructed state never returns `FEATURE_NOT_FOUND` —
any returning run reports `SUCCESS`. -/
theorem reverse_edges_inserted_no_fnf (prov : PortProvider) (db : StatusDb)
    (row : StatusParagraph) (dep : FeatureSpec) (n : Nat) (r : MarkPlusResult)
    (st2 : MarkState) (hrow : row ∈ db)
    (hdep : dep ∈ FeatureSpec.from_strings_and_triplet row.depends row.spec.triplet)
    (hrun : markRun prov n
      (Cmd.plus (if dep.feature = "" then "core" else dep.feature) dep.spec)
      (MarkState.init prov db) = some (r, st2)) :
    (∃ c, alookup (create_feature_install_graph prov db) dep.spec = some c ∧
      (alookup c.edges (if dep.feature = "" then "core" else dep.feature)).isSome = true) ∧
    r = MarkPlusResult.SUCCESS := by
  have hA := create_graph_keyIn prov db row dep hrow hdep
  obtain ⟨c, hc, hk⟩ := hA
  refine ⟨⟨c, hc, hk⟩, ?_⟩
  have hf : (if dep.feature = "" then "core" else dep.feature) ≠ "" := by
    split
    · intro hcontra
      exact absurd hcontra (by decide)
    · rename_i hne
      exact hne
  exact markPlus_present_not_fnf prov n _ dep.spec (MarkState.init prov db) r st2 c hf hc hk
    hrun

/-- C9 witness: a row naming an absent port `p`; the key `core` is
inserted by the reverse-edge pass and the subsequent `mark_plus`
succeeds. -/
theorem reverse_edges_inserted_no_fnf_witness :
    (markRun [] 6 (Cmd.plus "core" demoDepC9.spec) (MarkState.init [] demoDbC9)
      = some (MarkPlusResult.SUCCESS, demoStC9)) ∧
    ((∃ c, alookup (create_feature_install_graph [] demoDbC9) demoDepC9.spec = some c ∧
        (alookup c.edges "core").isSome = true) ∧
      MarkPlusResult.SUCCESS = MarkPlusResult.SUCCESS) := by
  constructor
  · decide
  · have h := reverse_edges_inserted_no_fnf [] demoDbC9
      { spec := { name := "a", triplet := "x64" }, feature := "", depends := ["p"] }
      demoDepC9 6 MarkPlusResult.SUCCESS demoStC9 (by decide) (by decide) (by decide)
    exact h

theorem Before.append_right {α : Type} {l : List α} {x y : α} (h : Before l x y)
    (l4 : List α) : Before (l ++ l4) x y := by
  obtain ⟨l1, l2, l3, rfl⟩ := h
  exact ⟨l1, l2, l3 ++ l4, by simp⟩

theorem before_of_mem_append {α : Type} {l1 : List α} {x y : α} (hx : x ∈ l1) :
    Before (l1 ++ [y]) x y := by
  obtain ⟨s, t, rfl⟩ := List.append_of_mem hx
  exact ⟨s, t, [], by simp⟩

/-- The combined invariants of the topological-sort DFS: the output only
grows, path (gray) vertices are never emitted while on the path,
duplicate freedom and the edge-order invariant are preserved, and every
visited vertex ends up in the output. -/
theorem dfsRun_props (adj : PackageSpec → List PackageSpec) :
    ∀ n cmd gray out out2, dfsRun adj n cmd gray out = some out2 →
      (∃ suf, out2 = out ++ suf) ∧
      (∀ g ∈ gray, g ∉ out → g ∉ out2) ∧
      (out.Nodup → out2.Nodup) ∧
      ((∀ u ∈ out, ∀ v ∈ adj u, v ∈ out ∧ Before out v u) →
        (∀ u ∈ out2, ∀ v ∈ adj u, v ∈ out2 ∧ Before out2 v u)) ∧
      (match cmd with
       | DfsCmd.visit u => u ∈ out2
       | DfsCmd.visitList us => ∀ v ∈ us, v ∈ out2) := by
  intro n
  induction n with
  | zero =>
    intro cmd gray out out2 h
    simp [dfsRun] at h
  | succ n ih =>
    intro cmd gray out out2 h
    cases cmd with
    | visit u =>
      rw [dfsRun] at h
      by_cases hout : u ∈ out
      · rw [if_pos hout] at h
        injection h with h2
        subst h2
        exact ⟨⟨[], by simp⟩, fun g hg hgo => hgo, fun hnd => hnd, fun hq => hq, hout⟩
      rw [if_neg hout] at h
      by_cases hgray : u ∈ gray
      · rw [if_pos hgray] at h
        simp at h
      rw [if_neg hgray] at h
      cases hrec : dfsRun adj n (DfsCmd.visitList (adj u)) (u :: gray) out with
      | none => rw [hrec] at h; simp at h
      | some out1 =>
      rw [hrec] at h
      injection h with h2
      subst h2
      obtain ⟨⟨suf, hsuf⟩, hgr, hnd, hq, hmem⟩ := ih _ _ _ _ hrec
      have hu1 : u ∉ out1 := hgr u (List.mem_cons_self u gray) hout
      refine ⟨⟨suf ++ [u], by rw [hsuf]; simp⟩, ?_, ?_, ?_, ?_⟩
      · intro g hg hgo
        have hg1 : g ∉ out1 := hgr g (List.mem_cons_of_mem u hg) hgo
        intro hmem2
        rcases List.mem_append.mp hmem2 with hgl | hgr2
        · exact hg1 hgl
        · rw [List.mem_singleton] at hgr2
          subst hgr2
          exact hgray hg
      · intro hnd0
        have := hnd hnd0
        rw [List.nodup_append]
        exact ⟨this, List.nodup_singleton u, by
          intro a ha hb
          rw [List.mem_singleton] at hb
          subst hb
          exact hu1 ha⟩
      · intro hq0 w hw v hv
        rcases List.mem_append.mp hw with hw1 | hw2
        · obtain ⟨hv1, hb1⟩ := hq hq0 w hw1 v hv
          exact ⟨List.mem_append_left _ hv1, hb1.append_right [u]⟩
        · rw [List.mem_singleton] at hw2
          subst hw2
          have hv1 : v ∈ out1 := hmem v hv
          exact ⟨List.mem_append_left _ hv1, before_of_mem_append hv1⟩
      · exact List.mem_append_right _ (List.mem_singleton.mpr rfl)
    | visitList us =>
      cases us with
      | nil =>
        rw [dfsRun] at h
        injection h with h2
        subst h2
        refine ⟨⟨[], by simp⟩, fun g hg hgo => hgo, fun hnd => hnd, fun hq => hq, ?_⟩
        intro v hv
        simp at hv
      | cons w ws =>
        rw [dfsRun] at h
        cases hrec : dfsRun adj n (DfsCmd.visit w) gray out with
        | none => rw [hrec] at h; simp at h
        | some out1 =>
        rw [hrec] at h
        obtain ⟨⟨suf1, hsuf1⟩, hgr1, hnd1, hq1, hmem1⟩ := ih _ _ _ _ hrec
        obtain ⟨⟨suf2, hsuf2⟩, hgr2, hnd2, hq2, hmem2⟩ := ih _ _ _ _ h
        refine ⟨⟨suf1 ++ suf2, by rw [hsuf2, hsuf1]; simp⟩, ?_, fun hnd => hnd2 (hnd1 hnd),
          fun hq => hq2 (hq1 hq), ?_⟩
        · intro g hg hgo
          exact hgr2 g hg (hgr1 g hg hgo)
        · intro v hv
          rcases List.mem_cons.mp hv with rfl | hv2
          · rw [hsuf2]
            exact List.mem_append_left _ hmem1
          · exact hmem2 v hv2

/-- Soundness of the spec-modelled topological sort: every seed is
emitted, the output has no duplicates, and for every edge `u → v` with
`u` emitted, `v` is emitted strictly before `u`. -/
theorem topological_sort_sound (fuel : Nat) (seeds : List PackageSpec)
    (adj : PackageSpec → List PackageSpec) (l : List PackageSpec)
    (h : topological_sort fuel seeds adj = some l) :
    (∀ s ∈ seeds, s ∈ l) ∧ l.Nodup ∧
    (∀ u ∈ l, ∀ v ∈ adj u, v ∈ l ∧ Before l v u) := by
  obtain ⟨_, _, hnd, hq, hmem⟩ := dfsRun_props adj fuel _ _ _ _ h
  refine ⟨hmem, hnd (List.nodup_nil), hq ?_⟩
  intro u hu
  simp at hu

theorem serializeRemoves_cons {st : MarkState} {k : PackageSpec} {ks : List PackageSpec}
    {r : List RemovePlanAction} (h : serializeRemoves st (k :: ks) = some r) :
    ∃ a rest, emitRemove st k = some a ∧ serializeRemoves st ks = some rest ∧
      r = a :: rest := by
  rw [serializeRemoves, Option.bind_eq_some] at h
  obtain ⟨a, ha, h⟩ := h
  rw [Option.map_eq_some'] at h
  obtain ⟨rest, hrest, hr⟩ := h
  exact ⟨a, rest, ha, hrest, hr.symm⟩

theorem serializeRemoves_append (st : MarkState) :
    ∀ (k1 k2 : List PackageSpec) (r : List RemovePlanAction),
      serializeRemoves st (k1 ++ k2) = some r →
      ∃ r1 r2, serializeRemoves st k1 = some r1 ∧ serializeRemoves st k2 = some r2 ∧
        r = r1 ++ r2
  | [], k2, r, h => ⟨[], r, rfl, h, rfl⟩
  | k :: k1, k2, r, h => by
    rw [List.cons_append] at h
    obtain ⟨a, rest, ha, hrest, rfl⟩ := serializeRemoves_cons h
    obtain ⟨r1, r2, h1, h2, rfl⟩ := serializeRemoves_append st k1 k2 rest hrest
    refine ⟨a :: r1, r2, ?_, h2, rfl⟩
    rw [serializeRemoves, ha, h1]
    rfl

theorem serializeRemoves_all (st : MarkState) :
    ∀ (ks : List PackageSpec) (r : List RemovePlanAction),
      serializeRemoves st ks = some r →
      ∀ k ∈ ks, ∃ a, emitRemove st k = some a ∧ a ∈ r
  | [], r, h, k, hk => absurd hk (List.not_mem_nil k)
  | k0 :: ks, r, h, k, hk => by
    obtain ⟨a, rest, ha, hrest, rfl⟩ := serializeRemoves_cons h
    rcases List.mem_cons.mp hk with rfl | hk2
    · exact ⟨a, ha, List.mem_cons_self _ _⟩
    · obtain ⟨a2, ha2, hmem⟩ := serializeRemoves_all st ks rest hrest k hk2
      exact ⟨a2, ha2, List.mem_cons_of_mem _ hmem⟩

theorem serializeRemoves_none_of_mem (st : MarkState) :
    ∀ (ks : List PackageSpec), (∃ k ∈ ks, emitRemove st k = none) →
      serializeRemoves st ks = none
  | [], h => absurd h (by simp)
  | k0 :: ks, h => by
    obtain ⟨k, hk, hnone⟩ := h
    rcases List.mem_cons.mp hk with rfl | hk2
    · rw [serializeRemoves, hnone]
      rfl
    · rw [serializeRemoves,
        serializeRemoves_none_of_mem st ks ⟨k, hk2, hnone⟩]
      cases emitRemove st k0 <;> rfl

theorem serializeRemoves_before {st : MarkState} {ks : List PackageSpec}
    {r : List RemovePlanAction} {u v : PackageSpec} {au av : RemovePlanAction}
    (h : serializeRemoves st ks = some r) (hb : Before ks v u)
    (hau : emitRemove st u = some au) (hav : emitRemove st v = some av) :
    Before r av au := by
  obtain ⟨l1, l2, l3, rfl⟩ := hb
  obtain ⟨rA, rB, hA, hB, rfl⟩ :=
    serializeRemoves_append st (l1 ++ v :: l2) (u :: l3) r h
  obtain ⟨r1, rC, h1, hC, rfl⟩ := serializeRemoves_append st l1 (v :: l2) rA hA
  obtain ⟨a, rest, ha, hrest, rfl⟩ := serializeRemoves_cons hC
  rw [hav] at ha
  injection ha with ha
  subst ha
  obtain ⟨b, rest2, hb2, hrest2, rfl⟩ := serializeRemoves_cons hB
  rw [hau] at hb2
  injection hb2 with hb2
  subst hb2
  exact ⟨r1, rest, rest2, rfl⟩

theorem serializeInstalls_cons {st : MarkState} {k : PackageSpec} {ks : List PackageSpec}
    {l : List InstallPlanAction} (h : serializeInstalls st (k :: ks) = some l) :
    ∃ oa rest, emitInstall st k = some oa ∧ serializeInstalls st ks = some rest ∧
      ((∃ a, oa = some a ∧ l = a :: rest) ∨ (oa = none ∧ l = rest)) := by
  rw [serializeInstalls, Option.bind_eq_some] at h
  obtain ⟨oa, hoa, h⟩ := h
  rw [Option.map_eq_some'] at h
  obtain ⟨rest, hrest, hl⟩ := h
  cases oa with
  | some a => exact ⟨some a, rest, hoa, hrest, Or.inl ⟨a, rfl, hl.symm⟩⟩
  | none => exact ⟨none, rest, hoa, hrest, Or.inr ⟨rfl, hl.symm⟩⟩

theorem serializeInstalls_append (st : MarkState) :
    ∀ (k1 k2 : List PackageSpec) (l : List InstallPlanAction),
      serializeInstalls st (k1 ++ k2) = some l →
      ∃ l1 l2, serializeInstalls st k1 = some l1 ∧ serializeInstalls st k2 = some l2 ∧
        l = l1 ++ l2
  | [], k2, l, h => ⟨[], l, rfl, h, rfl⟩
  | k :: k1, k2, l, h => by
    rw [List.cons_append] at h
    obtain ⟨oa, rest, hoa, hrest, hcase⟩ := serializeInstalls_cons h
    obtain ⟨l1, l2, h1, h2, rfl⟩ := serializeInstalls_append st k1 k2 rest hrest
    rcases hcase with ⟨a, rfl, rfl⟩ | ⟨rfl, rfl⟩
    · refine ⟨a :: l1, l2, ?_, h2, rfl⟩
      rw [serializeInstalls, hoa, h1]
      rfl
    · refine ⟨l1, l2, ?_, h2, rfl⟩
      rw [serializeInstalls, hoa, h1]
      rfl

theorem serializeInstalls_mem (st : MarkState) :
    ∀ (ks : List PackageSpec) (l : List InstallPlanAction),
      serializeInstalls st ks = some l →
      ∀ ia ∈ l, ∃ k ∈ ks, emitInstall st k = some (some ia)
  | [], l, h, ia, hia => by
    rw [serializeInstalls] at h
    injection h with h
    subst h
    exact absurd hia (List.not_mem_nil ia)
  | k0 :: ks, l, h, ia, hia => by
    obtain ⟨oa, rest, hoa, hrest, hcase⟩ := serializeInstalls_cons h
    have hsub : ia ∈ rest → ∃ k ∈ k0 :: ks, emitInstall st k = some (some ia) := by
      intro hmem
      obtain ⟨k, hk, hke⟩ := serializeInstalls_mem st ks rest hrest ia hmem
      exact ⟨k, List.mem_cons_of_mem _ hk, hke⟩
    rcases hcase with ⟨a, rfl, rfl⟩ | ⟨rfl, rfl⟩
    · rcases List.mem_cons.mp hia with rfl | hmem
      · exact ⟨k0, List.mem_cons_self _ _, hoa⟩
      · exact hsub hmem
    · exact hsub hia

theorem serializeInstalls_before {st : MarkState} {ks : List PackageSpec}
    {l : List InstallPlanAction} {u v : PackageSpec} {au av : InstallPlanAction}
    (h : serializeInstalls st ks = some l) (hb : Before ks v u)
    (hau : emitInstall st u = some (some au)) (hav : emitInstall st v = some (some av)) :
    Before l av au := by
  obtain ⟨l1, l2, l3, rfl⟩ := hb
  obtain ⟨rA, rB, hA, hB, rfl⟩ :=
    serializeInstalls_append st (l1 ++ v :: l2) (u :: l3) l h
  obtain ⟨r1, rC, h1, hC, rfl⟩ := serializeInstalls_append st l1 (v :: l2) rA hA
  obtain ⟨oa, rest, ha, hrest, hcase⟩ := serializeInstalls_cons hC
  rw [hav] at ha
  injection ha with ha
  subst ha
  obtain ⟨ob, rest2, hb2, hrest2, hcase2⟩ := serializeInstalls_cons hB
  rw [hau] at hb2
  injection hb2 with hb2
  subst hb2
  rcases hcase with ⟨a0, ha0, rfl⟩ | ⟨hbad, _⟩
  · injection ha0 with ha0
    subst ha0
    rcases hcase2 with ⟨b0, hb0, rfl⟩ | ⟨hbad2, _⟩
    · injection hb0 with hb0
      subst hb0
      exact ⟨r1, rest, rest2, rfl⟩
    · exact absurd hbad2 (by simp)
  · exact absurd hbad (by simp)

/-- Inversion of `PackageGraph::serialize` into its four stages. -/
theorem serialize_inv {fuel : Nat} {st : MarkState} {plan : List AnyAction}
    (h : PackageGraph.serialize fuel st = some plan) :
    ∃ rks iks ras ias,
      topological_sort fuel st.remove_graph.vertices st.remove_graph.adjOf = some rks ∧
      topological_sort fuel st.install_graph.vertices st.install_graph.adjOf = some iks ∧
      serializeRemoves st rks = some ras ∧
      serializeInstalls st iks = some ias ∧
      plan = ras.map AnyAction.remove ++ ias.map AnyAction.install := by
  unfold PackageGraph.serialize at h
  rw [Option.bind_eq_some] at h
  obtain ⟨rks, h1, h⟩ := h
  rw [Option.bind_eq_some] at h
  obtain ⟨iks, h2, h⟩ := h
  rw [Option.bind_eq_some] at h
  obtain ⟨ras, h3, h⟩ := h
  rw [Option.map_eq_some'] at h
  obtain ⟨ias, h4, h5⟩ := h
  exact ⟨rks, iks, ras, ias, h1, h2, h3, h4, h5.symm⟩

/-- C1 (amended): every plan emitted by `PackageGraph::serialize` is a
block of remove actions followed by a block of install actions; within
the removes, for every remove-graph edge `u → v` the action emitted for
the dependent `v` precedes the action emitted for the dependency `u`
(dependents are removed before dependencies); within the installs, for
every install-graph edge `u → v` whose endpoints both emit actions, the
action of the dependency `v` precedes the action of the dependent `u`. -/
theorem serialize_order (fuel : Nat) (st : MarkState) (plan : List AnyAction)
    (h : PackageGraph.serialize fuel st = some plan) :
    ∃ rks iks ras ias,
      topological_sort fuel st.remove_graph.vertices st.remove_graph.adjOf = some rks ∧
      topological_sort fuel st.install_graph.vertices st.install_graph.adjOf = some iks ∧
      serializeRemoves st rks = some ras ∧
      serializeInstalls st iks = some ias ∧
      plan = ras.map AnyAction.remove ++ ias.map AnyAction.install ∧
      (∀ u ∈ st.remove_graph.vertices, ∀ v ∈ st.remove_graph.adjOf u,
        ∃ au av, emitRemove st u = some au ∧ emitRemove st v = some av ∧
          Before ras av au) ∧
      (∀ u ∈ st.install_graph.vertices, ∀ v ∈ st.install_graph.adjOf u,
        ∀ au av, emitInstall st u = some (some au) → emitInstall st v = some (some av) →
          Before ias av au) := by
  obtain ⟨rks, iks, ras, ias, h1, h2, h3, h4, h5⟩ := serialize_inv h
  obtain ⟨hseedR, hndR, hedgeR⟩ := topological_sort_sound _ _ _ _ h1
  obtain ⟨hseedI, hndI, hedgeI⟩ := topological_sort_sound _ _ _ _ h2
  refine ⟨rks, iks, ras, ias, h1, h2, h3, h4, h5, ?_, ?_⟩
  · intro u hu v hv
    obtain ⟨hvin, hbefore⟩ := hedgeR u (hseedR u hu) v hv
    obtain ⟨au, hau, _⟩ := serializeRemoves_all st rks ras h3 u (hseedR u hu)
    obtain ⟨av, hav, _⟩ := serializeRemoves_all st rks ras h3 v hvin
    exact ⟨au, av, hau, hav, serializeRemoves_before h3 hbefore hau hav⟩
  · intro u hu v hv au av hau hav
    obtain ⟨hvin, hbeforeks⟩ := hedgeI u (hseedI u hu) v hv
    exact serializeInstalls_before h4 hbeforeks hau hav

theorem Before.exists_get {α : Type} {l : List α} {x y : α} (h : Before l x y) :
    ∃ i j, i < j ∧ l.get? i = some x ∧ l.get? j = some y := by
  obtain ⟨l1, l2, l3, rfl⟩ := h
  refine ⟨l1.length, (l1 ++ x :: l2).length, by simp, ?_, ?_⟩
  · rw [List.get?_append (by simp)]
    rw [List.get?_append_right (le_refl _)]
    simp
  · rw [List.get?_append_right (le_refl _)]
    simp

theorem Before.asymm {α : Type} {l : List α} {x y : α} (hnd : l.Nodup)
    (h1 : Before l x y) : ¬ Before l y x := by
  intro h2
  obtain ⟨i, j, hij, hix, hjy⟩ := h1.exists_get
  obtain ⟨i2, j2, hij2, hiy, hjx⟩ := h2.exists_get
  have hi : i < l.length := List.get?_eq_some.mp hix |>.choose_spec |> (fun _ =>
    (List.get?_eq_some.mp hix).choose)
  have hieq : i = j2 := by
    refine List.get?_inj ?_ hnd ?_
    · exact (List.get?_eq_some.mp hix).choose
    · rw [hix, hjx]
  have hjeq : j = i2 := by
    refine List.get?_inj ?_ hnd ?_
    · exact (List.get?_eq_some.mp hjy).choose
    · rw [hjy, hiy]
  omega

/-- C1 counterexample: on the demonstration input the remove graph holds
the edge `a → b` (from the removed dependency `a` to its installed
dependent `b`), and in the emitted plan the action for `b` precedes the
action for `a`; the claim's reading of a remove-graph edge `u → v` — the
first endpoint `u` is the dependent and appears first — is therefore
false as stated. -/
theorem serialize_remove_order_cex :
    (seedAll provC1 20
      [Seed.ins { spec := { name := "a", triplet := "x64" }, feature := "x" }]
      (MarkState.init provC1 dbC1) = some demoStC1) ∧
    demoStC1.remove_graph.adjOf { name := "a", triplet := "x64" }
      = [{ name := "b", triplet := "x64" }] ∧
    PackageGraph.serialize 20 demoStC1 = some demoPlanC1 ∧
    Before demoPlanC1 demoRemB demoRemA ∧
    ¬ Before demoPlanC1 demoRemA demoRemB := by
  refine ⟨by decide, by decide, by decide, ⟨[], [], demoPlanC1.drop 2, by decide⟩, ?_⟩
  exact Before.asymm (by decide) ⟨[], [], demoPlanC1.drop 2, by decide⟩

/-- C1 witness: the amended ordering theorem applied to the
demonstration input. -/
theorem serialize_order_witness :
    PackageGraph.serialize 20 demoStC1 = some demoPlanC1 ∧
    ∃ rks iks ras ias,
      topological_sort 20 demoStC1.remove_graph.vertices demoStC1.remove_graph.adjOf
        = some rks ∧
      topological_sort 20 demoStC1.install_graph.vertices demoStC1.install_graph.adjOf
        = some iks ∧
      serializeRemoves demoStC1 rks = some ras ∧
      serializeInstalls demoStC1 iks = some ias ∧
      demoPlanC1 = ras.map AnyAction.remove ++ ias.map AnyAction.install ∧
      (∀ u ∈ demoStC1.remove_graph.vertices, ∀ v ∈ demoStC1.remove_graph.adjOf u,
        ∃ au av, emitRemove demoStC1 u = some au ∧ emitRemove demoStC1 v = some av ∧
          Before ras av au) ∧
      (∀ u ∈ demoStC1.install_graph.vertices, ∀ v ∈ demoStC1.install_graph.adjOf u,
        ∀ au av, emitInstall demoStC1 u = some (some au) →
          emitInstall demoStC1 v = some (some av) → Before ias av au) :=
  ⟨by decide, serialize_order 20 demoStC1 demoPlanC1 (by decide)⟩

/-- C4: for every cluster of the sorted remove graph, a missing SCF
aborts serialization with no plan; with an SCF present the emitted remove
action takes its name from the SCF, its triplet from the cluster, plan
type `REMOVE`, and the cluster's request type, and it appears in every
emitted plan. -/
theorem serialize_remove_scf (fuel : Nat) (st : MarkState) (rks : List PackageSpec)
    (k : PackageSpec) (c : Cluster)
    (htopo : topological_sort fuel st.remove_graph.vertices st.remove_graph.adjOf = some rks)
    (hk : k ∈ rks) (hc : st.cluster k = some c) :
    (c.source_control_file = none → PackageGraph.serialize fuel st = none) ∧
    (∀ scf, c.source_control_file = some scf →
      emitRemove st k = some (removeActionFor scf c) ∧
      ∀ plan, PackageGraph.serialize fuel st = some plan →
        AnyAction.remove (removeActionFor scf c) ∈ plan) := by
  constructor
  · intro hnone
    have hemit : emitRemove st k = none := by
      simp only [emitRemove, MarkState.cluster] at hc ⊢
      simp only [hc, hnone]
    unfold PackageGraph.serialize
    rw [htopo, Option.some_bind]
    cases htop2 : topological_sort fuel st.install_graph.vertices st.install_graph.adjOf with
    | none => rfl
    | some iks =>
      rw [Option.some_bind, serializeRemoves_none_of_mem st rks ⟨k, hk, hemit⟩]
      rfl
  · intro scf hscf
    have hemit : emitRemove st k = some (removeActionFor scf c) := by
      simp only [emitRemove, removeActionFor, MarkState.cluster] at hc ⊢
      simp only [hc, hscf]
    refine ⟨hemit, ?_⟩
    intro plan hplan
    obtain ⟨rks2, iks, ras, ias, h1, h2, h3, h4, h5⟩ := serialize_inv hplan
    rw [htopo] at h1
    injection h1 with h1
    subst h1
    obtain ⟨a, ha, hmem⟩ := serializeRemoves_all st rks ras h3 k hk
    rw [hemit] at ha
    injection ha with ha
    subst ha
    rw [h5]
    exact List.mem_append_left _ (List.mem_map_of_mem AnyAction.remove hmem)

/-- C4 witness: on the demonstration input, the cluster of `a` is in the
sorted remove graph with an SCF, and the emitted action carries the SCF
name, the cluster triplet, type `REMOVE` and the cluster's request
type. -/
theorem serialize_remove_scf_witness :
    emitRemove demoStC1 { name := "a", triplet := "x64" }
      = some (removeActionFor scfA demoClusterA) ∧
    AnyAction.remove (removeActionFor scfA demoClusterA) ∈ demoPlanC1 := by
  have h := (serialize_remove_scf 20 demoStC1
    [{ name := "b", triplet := "x64" }, { name := "a", triplet := "x64" }]
    { name := "a", triplet := "x64" } demoClusterA (by decide) (by decide) (by decide)).2
    scfA (by decide)
  exact ⟨h.1, h.2 demoPlanC1 (by decide)⟩

theorem mem_adjOf {g : Graph} {u x : PackageSpec} : x ∈ g.adjOf u ↔ (u, x) ∈ g.edges := by
  unfold Graph.adjOf
  rw [List.mem_map]
  constructor
  · rintro ⟨e, he, rfl⟩
    rw [List.mem_filter] at he
    obtain ⟨hmem, hcond⟩ := he
    have he1 : e.1 = u := by simpa using hcond
    obtain ⟨e1, e2⟩ := e
    cases he1
    exact hmem
  · intro hmem
    exact ⟨(u, x), List.mem_filter.mpr ⟨hmem, by simp⟩, rfl⟩

theorem adjOf_addVertex (g : Graph) (v u : PackageSpec) :
    (g.addVertex v).adjOf u = g.adjOf u := rfl

theorem mem_adjOf_addEdge {g : Graph} {u v w x : PackageSpec} :
    x ∈ (g.addEdge u v).adjOf w ↔ x ∈ g.adjOf w ∨ (w = u ∧ x = v) := by
  rw [mem_adjOf, mem_adjOf]
  show (w, x) ∈ sinsert (u, v) g.edges ↔ _
  rw [mem_sinsert]
  constructor
  · rintro (heq | hm)
    · injection heq with h1 h2
      exact Or.inr ⟨h1, h2⟩
    · exact Or.inl hm
  · rintro (hm | ⟨rfl, rfl⟩)
    · exact Or.inr hm
    · exact Or.inl rfl

theorem mem_amap {α β : Type} [DecidableEq α] {l : List (α × β)} {key : α} {g : β → β}
    {pr : α × β} (h : pr ∈ amap l key g) :
    pr ∈ l ∨ ∃ q ∈ l, pr = (q.1, g q.2) := by
  unfold amap at h
  rw [List.mem_map] at h
  obtain ⟨q, hq, hpr⟩ := h
  by_cases hk : q.1 = key
  · rw [if_pos hk] at hpr
    exact Or.inr ⟨q, hq, hpr.symm⟩
  · rw [if_neg hk] at hpr
    exact Or.inl (hpr ▸ hq)

theorem all_rem_nil_emplace (edges : List (String × FeatureNodeEdges)) (key : String)
    (node : FeatureNodeEdges) (hn : node.remove_edges = [])
    (h : ∀ q ∈ edges, q.2.remove_edges = []) :
    ∀ q ∈ emplaceEdge edges key node, q.2.remove_edges = [] := by
  intro q hq
  unfold emplaceEdge at hq
  cases halo : alookup edges key with
  | some e0 =>
    rw [halo] at hq
    exact h q hq
  | none =>
    rw [halo] at hq
    rcases List.mem_append.mp hq with hl | hr
    · exact h q hl
    · rw [List.mem_singleton] at hr
      subst hr
      exact hn

/-- Freshly materialized clusters carry no reverse edges. -/
theorem cluster_from_scf_rem_nil (scf : SourceControlFile) (c : Cluster)
    (hc : ∀ pr ∈ c.edges, pr.2.remove_edges = []) :
    ∀ pr ∈ (cluster_from_scf scf c).edges, pr.2.remove_edges = [] := by
  have key : ∀ q ∈ scf.feature_paragraphs.foldl
      (fun acc fp => emplaceEdge acc fp.name
        { remove_edges := [], plus := false,
          build_edges := filter_dependencies_to_specs fp.depends c.spec.triplet })
      (emplaceEdge c.edges "core"
        { remove_edges := [], plus := false,
          build_edges := filter_dependencies_to_specs scf.core_paragraph.depends c.spec.triplet }),
      q.2.remove_edges = [] :=
    foldl_preserve (fun edges => ∀ q ∈ edges, q.2.remove_edges = [])
      (fun acc fp => emplaceEdge acc fp.name
        { remove_edges := [], plus := false,
          build_edges := filter_dependencies_to_specs fp.depends c.spec.triplet })
      scf.feature_paragraphs
      (emplaceEdge c.edges "core"
        { remove_edges := [], plus := false,
          build_edges := filter_dependencies_to_specs scf.core_paragraph.depends c.spec.triplet })
      (fun acc fp hfp hacc => all_rem_nil_emplace acc fp.name _ rfl hacc)
      (all_rem_nil_emplace c.edges "core" _ rfl hc)
  exact key

theorem RemEdgesOk_materialize (prov : PortProvider) (st : MarkState) (sp : PackageSpec)
    (h : RemEdgesOk st) : RemEdgesOk (MarkState.materialize prov st sp) := by
  intro s c hc pr hpr d hd
  unfold MarkState.materialize MarkState.cluster at hc
  unfold clusterGet at hc
  cases hl : alookup st.clusters sp with
  | some c0 =>
    rw [hl] at hc
    exact h s c hc pr hpr d hd
  | none =>
    rw [hl] at hc
    simp only [] at hc
    by_cases hs : s = sp
    · subst hs
      rw [alookup_append_right _ _ _ hl, alookup_cons, if_pos rfl] at hc
      injection hc with hc
      subst hc
      have hnil : ∀ q ∈ (match get_control_file prov s.name with
          | some scf => cluster_from_scf scf (Cluster.fresh s)
          | none => Cluster.fresh s).edges, q.2.remove_edges = [] := by
        cases get_control_file prov s.name with
        | some scf =>
          exact cluster_from_scf_rem_nil scf (Cluster.fresh s) (by
            intro q hq
            simp [Cluster.fresh] at hq)
        | none =>
          intro q hq
          simp [Cluster.fresh] at hq
      rw [hnil pr hpr] at hd
      exact absurd hd (List.not_mem_nil d)
    · cases hls : alookup st.clusters s with
      | some c1 =>
        rw [alookup_append_left _ _ _ _ hls] at hc
        injection hc with hc
        subst hc
        exact h s c1 hls pr hpr d hd
      | none =>
        rw [alookup_append_right _ _ _ hls, alookup_cons] at hc
        rw [if_neg (fun hh => hs hh.symm)] at hc
        simp at hc

theorem RemEdgesOk_upd_noedges (st : MarkState) (sp : PackageSpec) (f : Cluster → Cluster)
    (hf : ∀ c, (f c).edges = c.edges) (h : RemEdgesOk st) : RemEdgesOk (st.upd sp f) := by
  intro s c hc pr hpr d hd
  rw [cluster_upd] at hc
  by_cases hs : s = sp
  · subst hs
    rw [if_pos rfl] at hc
    cases hl : st.cluster s with
    | none => rw [hl] at hc; simp at hc
    | some c0 =>
      rw [hl] at hc
      injection hc with hc
      subst hc
      rw [hf c0] at hpr
      exact h s c0 hl pr hpr d hd
  · rw [if_neg hs] at hc
    exact h s c hc pr hpr d hd

theorem RemEdgesOk_setPlus (st : MarkState) (sp : PackageSpec) (key : String)
    (h : RemEdgesOk st) : RemEdgesOk (st.setPlus sp key) := by
  intro s c hc pr hpr d hd
  unfold MarkState.setPlus at hc
  rw [cluster_upd] at hc
  by_cases hs : s = sp
  · subst hs
    rw [if_pos rfl] at hc
    cases hl : st.cluster s with
    | none => rw [hl] at hc; simp at hc
    | some c0 =>
      rw [hl] at hc
      injection hc with hc
      subst hc
      simp only [] at hpr
      rcases mem_amap hpr with hin | ⟨q, hq, hpr2⟩
      · exact h s c0 hl pr hin d hd
      · subst hpr2
        exact h s c0 hl q hq d hd
  · rw [if_neg hs] at hc
    exact h s c hc pr hpr d hd

theorem RemEdgesOk_graphs (st : MarkState) (rg ig : Graph) (h : RemEdgesOk st) :
    RemEdgesOk { st with remove_graph := rg, install_graph := ig } := h

/-- C6: in `create_remove_plan`, every returned action is user-requested
exactly when its spec was requested; `load_vertex_data` classifies a spec
as `NOT_INSTALLED` exactly when it is absent from the status database and
as `REMOVE` otherwise; a `NOT_INSTALLED` vertex has no adjacency; and a
`REMOVE` vertex's adjacency is exactly the installed packages of the same
triplet whose depends list contains the spec's name. -/
theorem create_remove_plan_spec (fuel : Nat) (specs : List PackageSpec) (db : StatusDb)
    (acts : List RemovePlanAction) (h : create_remove_plan fuel specs db = some acts) :
    (∀ a ∈ acts, (a.request_type = RequestType.USER_REQUESTED ↔ a.spec ∈ specs)) ∧
    (∀ sp : PackageSpec,
      ((removeLoadVertex db specs sp).plan_type = RemovePlanType.NOT_INSTALLED ↔
        ¬ (db.any (fun row => row.spec = sp)) = true) ∧
      ((removeLoadVertex db specs sp).plan_type = RemovePlanType.REMOVE ↔
        (db.any (fun row => row.spec = sp)) = true)) ∧
    (∀ plan : RemovePlanAction, plan.plan_type = RemovePlanType.NOT_INSTALLED →
      removeAdjacency db plan = []) ∧
    (∀ plan : RemovePlanAction, plan.plan_type = RemovePlanType.REMOVE →
      removeAdjacency db plan =
        (db.filter (fun row =>
          row.spec.triplet = plan.spec.triplet ∧ plan.spec.name ∈ row.depends)).map
          (fun row => row.spec)) := by
  refine ⟨?_, ?_, ?_, ?_⟩
  · unfold create_remove_plan at h
    rw [Option.map_eq_some'] at h
    obtain ⟨keys, htopo, hacts⟩ := h
    subst hacts
    intro a ha
    rw [List.mem_map] at ha
    obtain ⟨k, hk, rfl⟩ := ha
    unfold removeLoadVertex
    by_cases hmem : k ∈ specs
    · simp [hmem]
    · simp [hmem]
  · intro sp
    unfold removeLoadVertex
    by_cases hin : (db.any (fun row => row.spec = sp)) = true
    · simp [hin]
    · simp [hin]
  · intro plan hpt
    unfold removeAdjacency
    rw [if_pos hpt]
  · intro plan hpt
    unfold removeAdjacency
    rw [hpt]
    rw [if_neg (by decide)]

/-- C6 witness: scenario with `a` depending on installed `b`; the
returned action for `b` is user-requested exactly because `b` was
requested. -/
theorem create_remove_plan_spec_witness :
    (demoActB.request_type = RequestType.USER_REQUESTED ↔ demoActB.spec ∈ demoSpecsC6) :=
  (create_remove_plan_spec 9 demoSpecsC6 demoDbC6 demoActsC6 (by decide)).1 _ (by decide)

/-- C10: constructing an `ExportPlanAction` from an `AnyParagraph` that
contains neither a binary control file nor a source control file raises
no error (the embedded constructor is total) and leaves the plan type
`ExportPlanType.UNKNOWN`. -/
theorem export_plan_action_no_paragraph_unknown (spec : PackageSpec) (p : AnyParagraph)
    (rt : RequestType) (hb : p.binary_control_file = none)
    (hs : p.source_control_file = none) :
    (ExportPlanAction.make spec p rt).plan_type = ExportPlanType.UNKNOWN := by
  simp [ExportPlanAction.make, hb, hs]

/-- C10 witness: a status-only paragraph yields a normally constructed
action with plan type `UNKNOWN`. -/
theorem export_plan_action_no_paragraph_unknown_witness :
    (ExportPlanAction.make { name := "zlib", triplet := "x64-windows" }
        { status_paragraph := some
            { spec := { name := "zlib", triplet := "x64-windows" }, feature := "",
              depends := [] },
          binary_control_file := none,
          source_control_file := none }
        RequestType.USER_REQUESTED).plan_type = ExportPlanType.UNKNOWN :=
  export_plan_action_no_paragraph_unknown _ _ _ rfl rfl

theorem NoSelf_empty : NoSelf Graph.empty := by
  intro u v hv
  rw [mem_adjOf] at hv
  exact absurd hv (List.not_mem_nil _)

theorem NoSelf_addVertex (g : Graph) (v : PackageSpec) (h : NoSelf g) :
    NoSelf (g.addVertex v) := by
  intro u x hx
  rw [adjOf_addVertex] at hx
  exact h u x hx

theorem NoSelf_addEdge (g : Graph) (u v : PackageSpec) (huv : u ≠ v) (h : NoSelf g) :
    NoSelf (g.addEdge u v) := by
  intro w x hx
  rcases mem_adjOf_addEdge.mp hx with hold | ⟨rfl, rfl⟩
  · exact h w x hold
  · exact huv

theorem RemEdgesOk_clusters_eq {st1 st2 : MarkState} (h : st2.clusters = st1.clusters)
    (hr : RemEdgesOk st1) : RemEdgesOk st2 := by
  intro s c hc
  apply hr s c
  unfold MarkState.cluster at hc ⊢
  rw [← h]
  exact hc

theorem remOk_arena_clusterGet (prov : PortProvider) (sp : PackageSpec) (arena : ClusterArena)
    (h : RemEdgesOk (arenaSt arena)) : RemEdgesOk (arenaSt (clusterGet prov arena sp).2) :=
  RemEdgesOk_clusters_eq rfl (RemEdgesOk_materialize prov (arenaSt arena) sp h)

theorem remOk_arena_upd (sp : PackageSpec) (f : Cluster → Cluster)
    (hf : ∀ c, (f c).edges = c.edges) (arena : ClusterArena)
    (h : RemEdgesOk (arenaSt arena)) : RemEdgesOk (arenaSt (updateCluster arena sp f)) :=
  RemEdgesOk_clusters_eq rfl (RemEdgesOk_upd_noedges (arenaSt arena) sp f hf h)

theorem remOk_arena_addRemoveEdgeEntry (sp : PackageSpec) (key : String) (rev : FeatureSpec)
    (hne : rev.spec ≠ sp) (arena : ClusterArena) (h : RemEdgesOk (arenaSt arena)) :
    RemEdgesOk (arenaSt (addRemoveEdgeEntry arena sp key rev)) := by
  intro s c hc pr hpr d hd
  have hc2 : alookup (addRemoveEdgeEntry arena sp key rev) s = some c := hc
  unfold addRemoveEdgeEntry updateCluster at hc2
  rw [alookup_amap] at hc2
  by_cases hs : s = sp
  · subst hs
    rw [if_pos rfl] at hc2
    cases hl : alookup arena s with
    | none => rw [hl] at hc2; simp at hc2
    | some c0 =>
      rw [hl] at hc2
      simp only [Option.map_some'] at hc2
      injection hc2 with hc2
      subst hc2
      cases hke : alookup c0.edges key with
      | some e0 =>
        simp only [hke] at hpr
        rcases mem_amap hpr with hin | ⟨q, hq, heq⟩
        · exact h s c0 hl pr hin d hd
        · subst heq
          simp only [] at hd
          rcases List.mem_append.mp hd with hd1 | hd2
          · exact h s c0 hl q hq d hd1
          · rw [List.mem_singleton] at hd2
            subst hd2
            exact hne
      | none =>
        simp only [hke] at hpr
        rcases List.mem_append.mp hpr with hin | hnew
        · exact h s c0 hl pr hin d hd
        · rw [List.mem_singleton] at hnew
          subst hnew
          simp only [] at hd
          rw [List.mem_singleton] at hd
          subst hd
          exact hne
  · rw [if_neg hs] at hc2
    exact h s c hc2 pr hpr d hd

theorem from_strings_spec_name {depends : List String} {triplet : String} {d : FeatureSpec}
    (hd : d ∈ FeatureSpec.from_strings_and_triplet depends triplet) : d.spec.name ∈ depends := by
  unfold FeatureSpec.from_strings_and_triplet at hd
  rw [List.mem_map] at hd
  obtain ⟨n, hn, heq⟩ := hd
  rw [← heq]
  exact hn

theorem RemEdgesOk_installedPass (prov : PortProvider) (rows : StatusDb)
    (arena : ClusterArena) (h : RemEdgesOk (arenaSt arena)) :
    RemEdgesOk (arenaSt (installedPass prov rows arena)) := by
  have key : RemEdgesOk (arenaSt (rows.foldl
      (fun acc row =>
        updateCluster (clusterGet prov acc row.spec).2 row.spec (fun c =>
          { c with
            transient_uninstalled := false,
            status_paragraphs := c.status_paragraphs ++ [row],
            original_features :=
              sinsert (if row.feature = "" then "core" else row.feature)
                c.original_features }))
      arena)) :=
    foldl_preserve (fun a => RemEdgesOk (arenaSt a))
      (fun acc row =>
        updateCluster (clusterGet prov acc row.spec).2 row.spec (fun c =>
          { c with
            transient_uninstalled := false,
            status_paragraphs := c.status_paragraphs ++ [row],
            original_features :=
              sinsert (if row.feature = "" then "core" else row.feature)
                c.original_features }))
      rows arena
      (fun acc row hrow hacc =>
        remOk_arena_upd row.spec
          (fun c =>
            { c with
              transient_uninstalled := false,
              status_paragraphs := c.status_paragraphs ++ [row],
              original_features :=
                sinsert (if row.feature = "" then "core" else row.feature)
                  c.original_features })
          (fun c => rfl) _
          (remOk_arena_clusterGet prov row.spec acc hacc))
      h
  exact key

theorem RemEdgesOk_reverseEdgePass (prov : PortProvider) (rows : StatusDb)
    (arena : ClusterArena) (hdb : ∀ row ∈ rows, row.spec.name ∉ row.depends)
    (h : RemEdgesOk (arenaSt arena)) :
    RemEdgesOk (arenaSt (reverseEdgePass prov rows arena)) := by
  have key : RemEdgesOk (arenaSt (rows.foldl
      (fun acc row =>
        (FeatureSpec.from_strings_and_triplet row.depends row.spec.triplet).foldl
          (fun acc2 dep =>
            addRemoveEdgeEntry (clusterGet prov acc2 dep.spec).2 dep.spec
              (if dep.feature = "" then "core" else dep.feature)
              { spec := row.spec, feature := row.feature })
          acc)
      arena)) :=
    foldl_preserve (fun a => RemEdgesOk (arenaSt a))
      (fun acc row =>
        (FeatureSpec.from_strings_and_triplet row.depends row.spec.triplet).foldl
          (fun acc2 dep =>
            addRemoveEdgeEntry (clusterGet prov acc2 dep.spec).2 dep.spec
              (if dep.feature = "" then "core" else dep.feature)
              { spec := row.spec, feature := row.feature })
          acc)
      rows arena
      (fun acc row hrow hacc =>
        foldl_preserve (fun a => RemEdgesOk (arenaSt a))
          (fun acc2 dep =>
            addRemoveEdgeEntry (clusterGet prov acc2 dep.spec).2 dep.spec
              (if dep.feature = "" then "core" else dep.feature)
              { spec := row.spec, feature := row.feature })
          (FeatureSpec.from_strings_and_triplet row.depends row.spec.triplet) acc
          (fun acc2 dep hdep hacc2 =>
            remOk_arena_addRemoveEdgeEntry dep.spec _ _
              (by
                intro he
                exact hdb row hrow (by
                  rw [show row.spec = dep.spec from he]
                  exact from_strings_spec_name hdep))
              _ (remOk_arena_clusterGet prov dep.spec acc2 hacc2))
          hacc)
      h
  exact key

/-- Under a database with no self-depending row, the constructed cluster
graph satisfies the reverse-edge invariant. -/
theorem RemEdgesOk_init (prov : PortProvider) (db : StatusDb)
    (hdb : ∀ row ∈ db, row.spec.name ∉ row.depends) :
    RemEdgesOk (MarkState.init prov db) := by
  have hnil : RemEdgesOk (arenaSt []) := by
    intro s c hc
    exact absurd hc (by simp [arenaSt, MarkState.cluster, alookup])
  have h2 := RemEdgesOk_reverseEdgePass prov db (installedPass prov db []) hdb
    (RemEdgesOk_installedPass prov db [] hnil)
  exact RemEdgesOk_clusters_eq rfl h2

theorem planInv_materialize (prov : PortProvider) (st : MarkState) (sp : PackageSpec)
    (h : PlanInv st) : PlanInv (MarkState.materialize prov st sp) :=
  ⟨RemEdgesOk_materialize prov st sp h.1, h.2.1, h.2.2⟩

theorem planInv_upd_noedges (st : MarkState) (sp : PackageSpec) (f : Cluster → Cluster)
    (hf : ∀ c, (f c).edges = c.edges) (h : PlanInv st) : PlanInv (st.upd sp f) :=
  ⟨RemEdgesOk_upd_noedges st sp f hf h.1, h.2.1, h.2.2⟩

theorem planInv_setPlus (st : MarkState) (sp : PackageSpec) (key : String) (h : PlanInv st) :
    PlanInv (st.setPlus sp key) :=
  ⟨RemEdgesOk_setPlus st sp key h.1, h.2.1, h.2.2⟩

theorem planInv_plusPre (st : MarkState) (spec : PackageSpec) (f : String) (c : Cluster)
    (h : PlanInv st) : PlanInv (plusPre st spec f c) := by
  unfold plusPre
  by_cases horig : f ∈ c.original_features
  · rw [if_pos horig]
    exact planInv_setPlus _ _ _ h
  · rw [if_neg horig]
    exact planInv_setPlus _ _ _ (planInv_upd_noedges _ _ _ (fun cl => rfl) h)

theorem planInv_plusMid (st : MarkState) (spec : PackageSpec) (f : String) (h : PlanInv st) :
    PlanInv (plusMid st spec f) := by
  unfold plusMid
  refine planInv_upd_noedges _ _ _ (fun cl => rfl) ?_
  exact ⟨h.1, h.2.1, NoSelf_addVertex _ _ h.2.2⟩

theorem planInv_depPost (st : MarkState) (spec : PackageSpec) (d : FeatureSpec)
    (h : PlanInv st) : PlanInv (depPost st spec d) := by
  unfold depPost
  by_cases hd : d.spec = spec
  · rw [if_pos hd]
    exact h
  · rw [if_neg hd]
    exact ⟨h.1, h.2.1, NoSelf_addEdge _ _ _ (fun he => hd he.symm) h.2.2⟩

theorem planInv_minusPre (st : MarkState) (spec : PackageSpec) (h : PlanInv st) :
    PlanInv (minusPre st spec) := by
  have h1 := planInv_upd_noedges st spec (fun cl => { cl with will_remove := true })
    (fun cl => rfl) h
  exact ⟨h1.1, NoSelf_addVertex _ _ h1.2.1, h1.2.2⟩

theorem planInv_minusMid (st : MarkState) (spec : PackageSpec) (h : PlanInv st) :
    PlanInv (minusMid st spec) :=
  planInv_upd_noedges st spec _ (fun cl => rfl) h

theorem planInv_revPre (prov : PortProvider) (st : MarkState) (spec : PackageSpec)
    (d : FeatureSpec) (hne : d.spec ≠ spec) (h : PlanInv st) :
    PlanInv (revPre prov st spec d) := by
  have h1 := planInv_materialize prov st d.spec h
  exact ⟨h1.1, NoSelf_addEdge _ _ _ (fun he => hne he.symm) h1.2.1, h1.2.2⟩

theorem planInv_replayPost (st : MarkState) (r : MarkPlusResult) (spec : PackageSpec)
    (f : String) (h : PlanInv st) : PlanInv (replayPost st r spec f) := by
  unfold replayPost
  by_cases hr : r = MarkPlusResult.SUCCESS
  · rw [if_pos hr]
    exact h
  · rw [if_neg hr]
    exact ⟨h.1, h.2.1, h.2.2⟩

/-- The mark engine preserves the self-edge invariant bundle: install
edges are guarded against the own cluster at line 501, and remove edges
come from reverse-edge lists that (by the invariant) never name the
looping cluster. -/
theorem markRun_planInv (prov : PortProvider) :
    ∀ n cmd st r st2, markRun prov n cmd st = some (r, st2) → CmdOk cmd → PlanInv st →
      PlanInv st2 := by
  intro n
  induction n with
  | zero =>
    intro cmd st r st2 h _ _
    simp [markRun] at h
  | succ n ih =>
    intro cmd st r st2 h hok hinv
    cases cmd with
    | plus f spec =>
      rcases markPlus_step h with ⟨_, h2⟩ | ⟨_, c, hcl, hcase⟩
      · exact ih _ _ _ _ h2 True.intro hinv
      rcases hcase with ⟨_, _, rfl⟩ | ⟨e, _, _, _, rfl⟩ | ⟨e, _, _, _, _, _, rfl⟩ |
        ⟨e, hedge, hpf, htr, p3, hp3, p6, hp6, hr6, p7, hp7, hrr, rfl⟩
      · exact hinv
      · exact hinv
      · exact hinv
      · have hinv3 : PlanInv p3.2 := by
          split at hp3
          · simp only [Option.some.injEq] at hp3
            rw [← hp3]
            exact planInv_plusPre st spec f c hinv
          · exact ih _ _ _ _ hp3 True.intro (planInv_plusPre st spec f c hinv)
        have hinv6 : PlanInv p6.2 := by
          split at hp6
          · simp only [Option.some.injEq] at hp6
            rw [← hp6]
            exact planInv_plusMid p3.2 spec f hinv3
          · exact ih _ _ _ _ hp6 True.intro (planInv_plusMid p3.2 spec f hinv3)
        exact ih _ _ _ _ hp7 True.intro hinv6
    | plusDeps spec deps =>
      cases deps with
      | nil =>
        simp only [markRun, Option.some.injEq, Prod.mk.injEq] at h
        rw [← h.2]
        exact hinv
      | cons d rest =>
        obtain ⟨p, hp, hpr, h2⟩ := markPlusDeps_step h
        have h1 : PlanInv p.2 :=
          ih _ _ _ _ hp True.intro (planInv_materialize prov st d.spec hinv)
        exact ih _ _ _ _ h2 True.intro (planInv_depPost p.2 spec d h1)
    | minus spec =>
      obtain ⟨c, hcl, hcase⟩ := markMinus_step h
      rcases hcase with ⟨_, _, rfl⟩ | ⟨_, p, hp, h2⟩
      · exact hinv
      · have hok2 : CmdOk (Cmd.minusRev spec (c.edges.flatMap (fun q => q.2.remove_edges))) := by
          intro d hd
          rw [List.mem_flatMap] at hd
          obtain ⟨q, hq, hdq⟩ := hd
          exact hinv.1 spec c hcl q hq d hdq
        have h1 : PlanInv p.2 := ih _ _ _ _ hp hok2 (planInv_minusPre st spec hinv)
        exact ih _ _ _ _ h2 True.intro (planInv_minusMid p.2 spec h1)
    | minusRev spec deps =>
      cases deps with
      | nil =>
        simp only [markRun, Option.some.injEq, Prod.mk.injEq] at h
        rw [← h.2]
        exact hinv
      | cons d rest =>
        obtain ⟨p, hp, h2⟩ := markMinusRev_step h
        have hd : d.spec ≠ spec := hok d (List.mem_cons_self d rest)
        have h1 : PlanInv p.2 :=
          ih _ _ _ _ hp True.intro (planInv_revPre prov st spec d hd hinv)
        have hok2 : CmdOk (Cmd.minusRev spec rest) :=
          fun x hx => hok x (List.mem_cons_of_mem d hx)
        exact ih _ _ _ _ h2 hok2 h1
    | minusReplay spec feats =>
      cases feats with
      | nil =>
        simp only [markRun, Option.some.injEq, Prod.mk.injEq] at h
        rw [← h.2]
        exact hinv
      | cons f rest =>
        obtain ⟨p, hp, h2⟩ := markMinusReplay_step h
        have h1 : PlanInv p.2 := ih _ _ _ _ hp True.intro hinv
        exact ih _ _ _ _ h2 True.intro (planInv_replayPost p.2 p.1 spec f h1)

theorem ig_plusPre (st : MarkState) (spec : PackageSpec) (f : String) (c : Cluster) :
    (plusPre st spec f c).install_graph = st.install_graph := by
  unfold plusPre
  split <;> rfl

theorem ig_replayPost (st : MarkState) (r : MarkPlusResult) (spec : PackageSpec)
    (f : String) : (replayPost st r spec f).install_graph = st.install_graph := by
  unfold replayPost
  split <;> rfl

theorem igOk_depPost (st : MarkState) (spec : PackageSpec) (d : FeatureSpec)
    (h : NoSelf st.install_graph) : NoSelf (depPost st spec d).install_graph := by
  unfold depPost
  by_cases hd : d.spec = spec
  · rw [if_pos hd]
    exact h
  · rw [if_neg hd]
    exact NoSelf_addEdge _ _ _ (fun he => hd he.symm) h

/-- The mark engine never adds a self-edge to the install graph, with no
hypothesis on the status database: the dependency loop of `mark_plus`
skips the own cluster before adding the edge. -/
theorem markRun_ig (prov : PortProvider) :
    ∀ n cmd st r st2, markRun prov n cmd st = some (r, st2) →
      NoSelf st.install_graph → NoSelf st2.install_graph := by
  intro n
  induction n with
  | zero =>
    intro cmd st r st2 h _
    simp [markRun] at h
  | succ n ih =>
    intro cmd st r st2 h hig
    cases cmd with
    | plus f spec =>
      rcases markPlus_step h with ⟨_, h2⟩ | ⟨_, c, hcl, hcase⟩
      · exact ih _ _ _ _ h2 hig
      rcases hcase with ⟨_, _, rfl⟩ | ⟨e, _, _, _, rfl⟩ | ⟨e, _, _, _, _, _, rfl⟩ |
        ⟨e, hedge, hpf, htr, p3, hp3, p6, hp6, hr6, p7, hp7, hrr, rfl⟩
      · exact hig
      · exact hig
      · exact hig
      · have hig0 : NoSelf (plusPre st spec f c).install_graph := by
          rw [ig_plusPre]
          exact hig
        have hig3 : NoSelf p3.2.install_graph := by
          split at hp3
          · simp only [Option.some.injEq] at hp3
            rw [← hp3]
            exact hig0
          · exact ih _ _ _ _ hp3 hig0
        have hig3m : NoSelf (plusMid p3.2 spec f).install_graph :=
          NoSelf_addVertex _ _ hig3
        have hig6 : NoSelf p6.2.install_graph := by
          split at hp6
          · simp only [Option.some.injEq] at hp6
            rw [← hp6]
            exact hig3m
          · exact ih _ _ _ _ hp6 hig3m
        exact ih _ _ _ _ hp7 hig6
    | plusDeps spec deps =>
      cases deps with
      | nil =>
        simp only [markRun, Option.some.injEq, Prod.mk.injEq] at h
        rw [← h.2]
        exact hig
      | cons d rest =>
        obtain ⟨p, hp, hpr, h2⟩ := markPlusDeps_step h
        have h1 : NoSelf p.2.install_graph := ih _ _ _ _ hp hig
        exact ih _ _ _ _ h2 (igOk_depPost p.2 spec d h1)
    | minus spec =>
      obtain ⟨c, hcl, hcase⟩ := markMinus_step h
      rcases hcase with ⟨_, _, rfl⟩ | ⟨_, p, hp, h2⟩
      · exact hig
      · have h1 : NoSelf p.2.install_graph := ih _ _ _ _ hp hig
        exact ih _ _ _ _ h2 h1
    | minusRev spec deps =>
      cases deps with
      | nil =>
        simp only [markRun, Option.some.injEq, Prod.mk.injEq] at h
        rw [← h.2]
        exact hig
      | cons d rest =>
        obtain ⟨p, hp, h2⟩ := markMinusRev_step h
        exact ih _ _ _ _ h2 (ih _ _ _ _ hp hig)
    | minusReplay spec feats =>
      cases feats with
      | nil =>
        simp only [markRun, Option.some.injEq, Prod.mk.injEq] at h
        rw [← h.2]
        exact hig
      | cons f rest =>
        obtain ⟨p, hp, h2⟩ := markMinusReplay_step h
        have h1 : NoSelf p.2.install_graph := ih _ _ _ _ hp hig
        have h1r : NoSelf (replayPost p.2 p.1 spec f).install_graph := by
          rw [ig_replayPost]
          exact h1
        exact ih _ _ _ _ h2 h1r

theorem installAll_preserve (prov : PortProvider) (P : MarkState → Prop)
    (hrun : ∀ n cmd st r st2, markRun prov n cmd st = some (r, st2) → CmdOk cmd →
      WRPre cmd st → P st → P st2) :
    ∀ (fuel : Nat) (spec : PackageSpec) (feats : List String) (st st2 : MarkState),
      installAll prov fuel spec feats st = some st2 → P st → P st2 := by
  intro fuel spec feats
  induction feats with
  | nil =>
    intro st st2 h hP
    unfold installAll at h
    injection h with h
    rw [← h]
    exact hP
  | cons f rest ih =>
    intro st st2 h hP
    unfold installAll at h
    rw [Option.bind_eq_some] at h
    obtain ⟨p, hp, h⟩ := h
    by_cases hr : p.1 = MarkPlusResult.SUCCESS
    · rw [if_pos hr] at h
      exact ih _ _ h (hrun _ _ _ _ _ hp True.intro True.intro hP)
    · rw [if_neg hr] at h
      simp at h

theorem install_preserve (prov : PortProvider) (P : MarkState → Prop)
    (hrun : ∀ n cmd st r st2, markRun prov n cmd st = some (r, st2) → CmdOk cmd →
      WRPre cmd st → P st → P st2)
    (hmat : ∀ st sp, P st → P (MarkState.materialize prov st sp))
    (hreq : ∀ (st : MarkState) sp, P st →
      P (st.upd sp (fun c => { c with request_type := RequestType.USER_REQUESTED })))
    (hvtx : ∀ (st : MarkState) sp, P st →
      P { st with install_graph := st.install_graph.addVertex sp })
    (fuel : Nat) (fspec : FeatureSpec) (st st2 : MarkState)
    (h : PackageGraph.install prov fuel fspec st = some st2) (hP : P st) : P st2 := by
  unfold PackageGraph.install at h
  rw [Option.map_eq_some'] at h
  obtain ⟨sm, hsm, hb⟩ := h
  rw [← hb]
  refine hvtx _ _ ?_
  have hP1 : P ((MarkState.materialize prov st fspec.spec).upd fspec.spec
      (fun c => { c with request_type := RequestType.USER_REQUESTED })) :=
    hreq _ _ (hmat _ _ hP)
  by_cases hstar : fspec.feature = "*"
  · rw [if_pos hstar] at hsm
    cases hscf : (((MarkState.materialize prov st fspec.spec).upd fspec.spec
        (fun c => { c with request_type := RequestType.USER_REQUESTED })).cluster
          fspec.spec).bind (fun c => c.source_control_file) with
    | none =>
      rw [hscf] at hsm
      simp at hsm
    | some scf =>
      rw [hscf] at hsm
      exact installAll_preserve prov P hrun _ _ _ _ _ hsm hP1
  · rw [if_neg hstar] at hsm
    rw [Option.bind_eq_some] at hsm
    obtain ⟨p, hp, hsm⟩ := hsm
    by_cases hr : p.1 = MarkPlusResult.SUCCESS
    · rw [if_pos hr] at hsm
      injection hsm with hsm
      rw [← hsm]
      exact hrun _ _ _ _ _ hp True.intro True.intro hP1
    · rw [if_neg hr] at hsm
      simp at hsm

theorem upgrade_preserve (prov : PortProvider) (P : MarkState → Prop)
    (hrun : ∀ n cmd st r st2, markRun prov n cmd st = some (r, st2) → CmdOk cmd →
      WRPre cmd st → P st → P st2)
    (hmat : ∀ st sp, P st → P (MarkState.materialize prov st sp))
    (hreq : ∀ (st : MarkState) sp, P st →
      P (st.upd sp (fun c => { c with request_type := RequestType.USER_REQUESTED })))
    (fuel : Nat) (spec : PackageSpec) (st st2 : MarkState)
    (h : PackageGraph.upgrade prov fuel spec st = some st2) (hP : P st) : P st2 := by
  unfold PackageGraph.upgrade at h
  rw [Option.map_eq_some'] at h
  obtain ⟨p, hp, hb⟩ := h
  rw [← hb]
  exact hrun _ _ _ _ _ hp True.intro True.intro (hreq _ _ (hmat _ _ hP))

theorem seedAll_preserve (prov : PortProvider) (P : MarkState → Prop)
    (hrun : ∀ n cmd st r st2, markRun prov n cmd st = some (r, st2) → CmdOk cmd →
      WRPre cmd st → P st → P st2)
    (hmat : ∀ st sp, P st → P (MarkState.materialize prov st sp))
    (hreq : ∀ (st : MarkState) sp, P st →
      P (st.upd sp (fun c => { c with request_type := RequestType.USER_REQUESTED })))
    (hvtx : ∀ (st : MarkState) sp, P st →
      P { st with install_graph := st.install_graph.addVertex sp }) :
    ∀ (fuel : Nat) (seeds : List Seed) (st st2 : MarkState),
      seedAll prov fuel seeds st = some st2 → P st → P st2 := by
  intro fuel seeds
  induction seeds with
  | nil =>
    intro st st2 h hP
    unfold seedAll at h
    injection h with h
    rw [← h]
    exact hP
  | cons s rest ih =>
    intro st st2 h hP
    cases s with
    | ins fspec =>
      unfold seedAll at h
      cases hi : PackageGraph.install prov fuel fspec st with
      | none =>
        rw [hi] at h
        exact absurd h (by simp)
      | some st1 =>
        rw [hi] at h
        exact ih _ _ h (install_preserve prov P hrun hmat hreq hvtx fuel fspec st st1 hi hP)
    | upg spec =>
      unfold seedAll at h
      cases hi : PackageGraph.upgrade prov fuel spec st with
      | none =>
        rw [hi] at h
        exact absurd h (by simp)
      | some st1 =>
        rw [hi] at h
        exact ih _ _ h (upgrade_preserve prov P hrun hmat hreq fuel spec st st1 hi hP)

/-- C3: after any sequence of `install`/`upgrade` seedings from the
constructed initial state, the install graph contains no self-edge; and
if no installed row lists its own package among its depends, the remove
graph contains none either.  The database hypothesis on the second part
is necessary: the reverse-dependency loop of `mark_minus` (lines 513-523)
lacks the own-cluster guard that the dependency loop of `mark_plus` has
at line 501, so a self-depending status row yields a remove-graph
self-edge (see the counterexample). -/
theorem no_self_edges (prov : PortProvider) (db : StatusDb) (fuel : Nat)
    (seeds : List Seed) (st : MarkState)
    (h : seedAll prov fuel seeds (MarkState.init prov db) = some st) :
    NoSelf st.install_graph ∧
    ((∀ row ∈ db, row.spec.name ∉ row.depends) → NoSelf st.remove_graph) := by
  constructor
  · refine seedAll_preserve prov (fun s => NoSelf s.install_graph)
      (fun n cmd s r s2 hm _ _ hP => markRun_ig prov n cmd s r s2 hm hP)
      (fun s sp hP => hP)
      (fun s sp hP => hP)
      (fun s sp hP => NoSelf_addVertex _ _ hP)
      fuel seeds _ _ h ?_
    exact NoSelf_empty
  · intro hdb
    have hfin := seedAll_preserve prov PlanInv
      (fun n cmd s r s2 hm hok _ hP => markRun_planInv prov n cmd s r s2 hm hok hP)
      (fun s sp hP => planInv_materialize prov s sp hP)
      (fun s sp hP => planInv_upd_noedges s sp _ (fun c => rfl) hP)
      (fun s sp hP => ⟨hP.1, hP.2.1, NoSelf_addVertex _ _ hP.2.2⟩)
      fuel seeds _ _ h ⟨RemEdgesOk_init prov db hdb, NoSelf_empty, NoSelf_empty⟩
    exact hfin.2.1

/-- C3 witness: the demonstration seeding on the healthy two-package
database yields graphs free of self-edges. -/
theorem no_self_edges_witness :
    NoSelf stWitC3.install_graph ∧ NoSelf stWitC3.remove_graph :=
  have h := no_self_edges provC1 dbC1 20
    [Seed.ins { spec := { name := "a", triplet := "x64" }, feature := "x" }]
    stWitC3 (by decide)
  ⟨h.1, h.2 (by decide)⟩

/-- C3 counterexample: with a status row for `a` that lists `a` itself in
its depends, upgrading `a` puts the self-edge `a → a` into the remove
graph, refuting the unconditional claim for `mark_minus`. -/
theorem no_self_edges_cex :
    ((seedAll [] 20 [Seed.upg specSelfC3] (MarkState.init [] dbSelfC3)).map
      (fun st => decide (specSelfC3 ∈ st.remove_graph.adjOf specSelfC3))) = some true := by
  decide

/-- Success of the mark engine is stable under extra fuel, with the same
result and state. -/
theorem markRun_fuelSucc (prov : PortProvider) :
    ∀ n cmd st r st2, markRun prov n cmd st = some (r, st2) →
      markRun prov (n + 1) cmd st = some (r, st2) := by
  intro n
  induction n with
  | zero =>
    intro cmd st r st2 h
    simp [markRun] at h
  | succ n ih =>
    intro cmd st r st2 h
    cases cmd with
    | plus f spec =>
      rw [markRun] at h ⊢
      by_cases hf : f = ""
      · rw [if_pos hf] at h ⊢
        exact ih _ _ _ _ h
      rw [if_neg hf] at h ⊢
      cases hcl : st.cluster spec with
      | none => simp [hcl] at h
      | some c =>
      simp only [hcl] at h ⊢
      cases hedge : alookup c.edges f with
      | none =>
        simp only [hedge] at h ⊢
        exact h
      | some e =>
      simp only [hedge] at h ⊢
      by_cases hp : e.plus = true
      · rw [if_pos hp] at h ⊢
        exact h
      rw [if_neg hp] at h ⊢
      by_cases horig : f ∈ c.original_features
      · simp only [if_pos horig] at h ⊢
        by_cases htr : c.transient_uninstalled = false
        · rw [if_pos htr] at h ⊢
          exact h
        · rw [if_neg htr] at h ⊢
          rw [Option.bind_eq_some] at h ⊢
          obtain ⟨p3, hp3, h⟩ := h
          refine ⟨p3, ?_, ?_⟩
          · by_cases hemp : c.original_features.isEmpty = true
            · rw [if_pos hemp] at hp3 ⊢
              exact hp3
            · rw [if_neg hemp] at hp3 ⊢
              exact ih _ _ _ _ hp3
          · rw [Option.bind_eq_some] at h ⊢
            obtain ⟨p6, hp6, h⟩ := h
            refine ⟨p6, ?_, ?_⟩
            · by_cases hcore : f = "core"
              · rw [if_pos hcore] at hp6 ⊢
                exact hp6
              · rw [if_neg hcore] at hp6 ⊢
                exact ih _ _ _ _ hp6
            · by_cases hr : p6.1 = MarkPlusResult.SUCCESS
              · rw [if_pos hr] at h ⊢
                rw [Option.map_eq_some'] at h ⊢
                obtain ⟨p7, hp7, heq⟩ := h
                exact ⟨p7, ih _ _ _ _ hp7, heq⟩
              · rw [if_neg hr] at h
                simp at h
      · simp only [if_neg horig] at h ⊢
        rw [if_neg (by simp : ¬ (true = false))] at h ⊢
        rw [Option.bind_eq_some] at h ⊢
        obtain ⟨p3, hp3, h⟩ := h
        refine ⟨p3, ?_, ?_⟩
        · by_cases hemp : c.original_features.isEmpty = true
          · rw [if_pos hemp] at hp3 ⊢
            exact hp3
          · rw [if_neg hemp] at hp3 ⊢
            exact ih _ _ _ _ hp3
        · rw [Option.bind_eq_some] at h ⊢
          obtain ⟨p6, hp6, h⟩ := h
          refine ⟨p6, ?_, ?_⟩
          · by_cases hcore : f = "core"
            · rw [if_pos hcore] at hp6 ⊢
              exact hp6
            · rw [if_neg hcore] at hp6 ⊢
              exact ih _ _ _ _ hp6
          · by_cases hr : p6.1 = MarkPlusResult.SUCCESS
            · rw [if_pos hr] at h ⊢
              rw [Option.map_eq_some'] at h ⊢
              obtain ⟨p7, hp7, heq⟩ := h
              exact ⟨p7, ih _ _ _ _ hp7, heq⟩
            · rw [if_neg hr] at h
              simp at h
    | plusDeps spec deps =>
      cases deps with
      | nil =>
        simp only [markRun] at h ⊢
        exact h
      | cons d rest =>
        rw [markRun] at h ⊢
        rw [Option.bind_eq_some] at h ⊢
        obtain ⟨p, hp, h⟩ := h
        refine ⟨p, ih _ _ _ _ hp, ?_⟩
        by_cases hr : p.1 = MarkPlusResult.SUCCESS
        · rw [if_pos hr] at h ⊢
          exact ih _ _ _ _ h
        · rw [if_neg hr] at h
          simp at h
    | minus spec =>
      rw [markRun] at h ⊢
      cases hcl : st.cluster spec with
      | none => simp [hcl] at h
      | some c =>
      simp only [hcl] at h ⊢
      by_cases hw : c.will_remove = true
      · rw [if_pos hw] at h ⊢
        exact h
      · rw [if_neg hw] at h ⊢
        rw [Option.bind_eq_some] at h ⊢
        obtain ⟨p, hp, h⟩ := h
        exact ⟨p, ih _ _ _ _ hp, ih _ _ _ _ h⟩
    | minusRev spec deps =>
      cases deps with
      | nil =>
        simp only [markRun] at h ⊢
        exact h
      | cons d rest =>
        rw [markRun] at h ⊢
        rw [Option.bind_eq_some] at h ⊢
        obtain ⟨p, hp, h⟩ := h
        exact ⟨p, ih _ _ _ _ hp, ih _ _ _ _ h⟩
    | minusReplay spec feats =>
      cases feats with
      | nil =>
        simp only [markRun] at h ⊢
        exact h
      | cons f rest =>
        rw [markRun] at h ⊢
        rw [Option.bind_eq_some] at h ⊢
        obtain ⟨p, hp, h⟩ := h
        exact ⟨p, ih _ _ _ _ hp, ih _ _ _ _ h⟩

theorem markRun_fuelLe (prov : PortProvider) {n m : Nat} (hnm : n ≤ m) :
    ∀ cmd st r st2, markRun prov n cmd st = some (r, st2) →
      markRun prov m cmd st = some (r, st2) := by
  induction hnm with
  | refl =>
    intro cmd st r st2 h
    exact h
  | step h2 ih =>
    intro cmd st r st2 h
    exact markRun_fuelSucc prov _ _ _ _ _ (ih _ _ _ _ h)

theorem dfsRun_fuelSucc (adj : PackageSpec → List PackageSpec) :
    ∀ n cmd gray out res, dfsRun adj n cmd gray out = some res →
      dfsRun adj (n + 1) cmd gray out = some res := by
  intro n
  induction n with
  | zero =>
    intro cmd gray out res h
    simp [dfsRun] at h
  | succ n ih =>
    intro cmd gray out res h
    cases cmd with
    | visit u =>
      rw [dfsRun] at h ⊢
      by_cases ho : u ∈ out
      · rw [if_pos ho] at h ⊢
        exact h
      rw [if_neg ho] at h ⊢
      by_cases hg : u ∈ gray
      · rw [if_pos hg] at h
        simp at h
      rw [if_neg hg] at h ⊢
      cases h1 : dfsRun adj n (DfsCmd.visitList (adj u)) (u :: gray) out with
      | none =>
        simp only [h1] at h
        exact absurd h (by simp)
      | some out1 =>
        simp only [h1] at h
        simp only [ih _ _ _ _ h1]
        exact h
    | visitList l =>
      cases l with
      | nil =>
        simp only [dfsRun] at h ⊢
        exact h
      | cons u us =>
        rw [dfsRun] at h ⊢
        cases h1 : dfsRun adj n (DfsCmd.visit u) gray out with
        | none =>
          simp only [h1] at h
          exact absurd h (by simp)
        | some out1 =>
          simp only [h1] at h
          simp only [ih _ _ _ _ h1]
          exact ih _ _ _ _ h

theorem dfsRun_fuelLe (adj : PackageSpec → List PackageSpec) {n m : Nat} (hnm : n ≤ m) :
    ∀ cmd gray out res, dfsRun adj n cmd gray out = some res →
      dfsRun adj m cmd gray out = some res := by
  induction hnm with
  | refl =>
    intro cmd gray out res h
    exact h
  | step h2 ih =>
    intro cmd gray out res h
    exact dfsRun_fuelSucc adj _ _ _ _ _ (ih _ _ _ _ h)

theorem topological_sort_fuelLe {n m : Nat} (hnm : n ≤ m) (seeds : List PackageSpec)
    (adj : PackageSpec → List PackageSpec) (res : List PackageSpec)
    (h : topological_sort n seeds adj = some res) : topological_sort m seeds adj = some res :=
  dfsRun_fuelLe adj hnm _ _ _ _ h

theorem installAll_fuelLe (prov : PortProvider) {n m : Nat} (hnm : n ≤ m) :
    ∀ (spec : PackageSpec) (feats : List String) (st st2 : MarkState),
      installAll prov n spec feats st = some st2 → installAll prov m spec feats st = some st2 := by
  intro spec feats
  induction feats with
  | nil =>
    intro st st2 h
    exact h
  | cons f rest ih =>
    intro st st2 h
    unfold installAll at h ⊢
    rw [Option.bind_eq_some] at h ⊢
    obtain ⟨p, hp, h⟩ := h
    refine ⟨p, markRun_fuelLe prov hnm _ _ _ _ hp, ?_⟩
    by_cases hr : p.1 = MarkPlusResult.SUCCESS
    · rw [if_pos hr] at h ⊢
      exact ih _ _ h
    · rw [if_neg hr] at h
      simp at h

theorem install_fuelLe (prov : PortProvider) {n m : Nat} (hnm : n ≤ m) (fspec : FeatureSpec)
    (st st2 : MarkState) (h : PackageGraph.install prov n fspec st = some st2) :
    PackageGraph.install prov m fspec st = some st2 := by
  unfold PackageGraph.install at h ⊢
  rw [Option.map_eq_some'] at h ⊢
  obtain ⟨sm, hsm, hb⟩ := h
  refine ⟨sm, ?_, hb⟩
  by_cases hstar : fspec.feature = "*"
  · rw [if_pos hstar] at hsm ⊢
    cases hscf : (((MarkState.materialize prov st fspec.spec).upd fspec.spec
        (fun c => { c with request_type := RequestType.USER_REQUESTED })).cluster
          fspec.spec).bind (fun c => c.source_control_file) with
    | none =>
      rw [hscf] at hsm
      simp at hsm
    | some scf =>
      rw [hscf] at hsm
      exact installAll_fuelLe prov hnm _ _ _ _ hsm
  · rw [if_neg hstar] at hsm ⊢
    rw [Option.bind_eq_some] at hsm ⊢
    obtain ⟨p, hp, hsm⟩ := hsm
    exact ⟨p, markRun_fuelLe prov hnm _ _ _ _ hp, hsm⟩

theorem upgrade_fuelLe (prov : PortProvider) {n m : Nat} (hnm : n ≤ m) (spec : PackageSpec)
    (st st2 : MarkState) (h : PackageGraph.upgrade prov n spec st = some st2) :
    PackageGraph.upgrade prov m spec st = some st2 := by
  unfold PackageGraph.upgrade at h ⊢
  rw [Option.map_eq_some'] at h ⊢
  obtain ⟨p, hp, hb⟩ := h
  exact ⟨p, markRun_fuelLe prov hnm _ _ _ _ hp, hb⟩

theorem seedAll_fuelLe (prov : PortProvider) {n m : Nat} (hnm : n ≤ m) :
    ∀ (seeds : List Seed) (st st2 : MarkState),
      seedAll prov n seeds st = some st2 → seedAll prov m seeds st = some st2 := by
  intro seeds
  induction seeds with
  | nil =>
    intro st st2 h
    exact h
  | cons s rest ih =>
    intro st st2 h
    cases s with
    | ins fspec =>
      unfold seedAll at h ⊢
      cases hi : PackageGraph.install prov n fspec st with
      | none =>
        rw [hi] at h
        exact absurd h (by simp)
      | some st1 =>
        rw [hi] at h
        simp only [install_fuelLe prov hnm fspec st st1 hi]
        exact ih _ _ h
    | upg spec =>
      unfold seedAll at h ⊢
      cases hi : PackageGraph.upgrade prov n spec st with
      | none =>
        rw [hi] at h
        exact absurd h (by simp)
      | some st1 =>
        rw [hi] at h
        simp only [upgrade_fuelLe prov hnm spec st st1 hi]
        exact ih _ _ h

theorem serialize_fuelLe {n m : Nat} (hnm : n ≤ m) (st : MarkState) (res : List AnyAction)
    (h : PackageGraph.serialize n st = some res) : PackageGraph.serialize m st = some res := by
  unfold PackageGraph.serialize at h ⊢
  rw [Option.bind_eq_some] at h ⊢
  obtain ⟨rks, hrks, h⟩ := h
  refine ⟨rks, topological_sort_fuelLe hnm _ _ _ hrks, ?_⟩
  rw [Option.bind_eq_some] at h ⊢
  obtain ⟨iks, hiks, h⟩ := h
  exact ⟨iks, topological_sort_fuelLe hnm _ _ _ hiks, h⟩

theorem create_feature_install_plan_fuelLe (prov : PortProvider) {n m : Nat} (hnm : n ≤ m)
    (specs : List FeatureSpec) (db : StatusDb) (res : List AnyAction)
    (h : create_feature_install_plan prov n specs db = some res) :
    create_feature_install_plan prov m specs db = some res := by
  unfold create_feature_install_plan at h ⊢
  cases hs : seedAll prov n (specs.map Seed.ins) (MarkState.init prov db) with
  | none =>
    rw [hs] at h
    exact absurd h (by simp)
  | some st =>
    rw [hs] at h
    simp only [seedAll_fuelLe prov hnm _ _ _ hs]
    exact serialize_fuelLe hnm st res h

/-- C7: `create_feature_install_plan` is deterministic: two successful
runs on equal provider snapshots, status-database snapshots and request
lists emit equal action sequences, whatever fuel bound each run was given
(the fuel is an artifact of the embedding, not an input of the source
function; every terminating source run corresponds to all sufficiently
large fuels). -/
theorem create_feature_install_plan_deterministic (prov : PortProvider)
    (specs : List FeatureSpec) (db : StatusDb) (fuel1 fuel2 : Nat) (l1 l2 : List AnyAction)
    (h1 : create_feature_install_plan prov fuel1 specs db = some l1)
    (h2 : create_feature_install_plan prov fuel2 specs db = some l2) : l1 = l2 := by
  have g1 := create_feature_install_plan_fuelLe prov (Nat.le_max_left fuel1 fuel2)
    specs db l1 h1
  have g2 := create_feature_install_plan_fuelLe prov (Nat.le_max_right fuel1 fuel2)
    specs db l2 h2
  rw [g1] at g2
  injection g2

/-- C7 witness: the demonstration request replanned at two different fuel
bounds yields the same plan. -/
theorem create_feature_install_plan_deterministic_witness : demoPlanC1 = demoPlanC1 :=
  create_feature_install_plan_deterministic provC1
    [{ spec := { name := "a", triplet := "x64" }, feature := "x" }] dbC1 20 21
    demoPlanC1 demoPlanC1 (by decide) (by decide)

theorem alookup_mem {α β : Type} [DecidableEq α] {l : List (α × β)} {k : α} {v : β}
    (h : alookup l k = some v) : (k, v) ∈ l := by
  induction l with
  | nil => simp [alookup] at h
  | cons p rest ih =>
    obtain ⟨k0, v0⟩ := p
    rw [alookup_cons] at h
    by_cases hk : k0 = k
    · rw [if_pos hk] at h
      injection h with h
      cases hk
      cases h
      exact List.mem_cons_self _ _
    · rw [if_neg hk] at h
      exact List.mem_cons_of_mem _ (ih h)

theorem plusFlag_mono {st st2 : MarkState} (h : StateLe st st2) {s : PackageSpec}
    {key : String} (hp : plusFlag st s key) : plusFlag st2 s key := by
  obtain ⟨c, e, hc, he, hpl⟩ := hp
  obtain ⟨c2, hc2, hle⟩ := h.1 s c hc
  obtain ⟨e2, he2, hp2⟩ := hle.plus_mono he hpl
  exact ⟨c2, e2, hc2, he2, hp2⟩

theorem warned_mono {st st2 : MarkState} (h : StateLe st st2) {s : PackageSpec} {f : String}
    (hw : warned st s f) : warned st2 s f :=
  h.2 _ hw

theorem tiOf_mono {st st2 : MarkState} (h : StateLe st st2) {s : PackageSpec} {f : String}
    (ht : tiOf st s f) : tiOf st2 s f := by
  obtain ⟨c, hc, hf⟩ := ht
  obtain ⟨c2, hc2, hle⟩ := h.1 s c hc
  exact ⟨c2, hc2, hle.ti_mono f hf⟩

theorem plusFlag_upd_fwd (st : MarkState) (spec : PackageSpec) (g : Cluster → Cluster)
    (hg : ∀ c, (g c).edges = c.edges) {s : PackageSpec} {key : String}
    (h : plusFlag st s key) : plusFlag (st.upd spec g) s key := by
  obtain ⟨c, e, hc, he, hp⟩ := h
  by_cases hs : s = spec
  · subst hs
    refine ⟨g c, e, ?_, ?_, hp⟩
    · rw [cluster_upd, if_pos rfl, hc]
      rfl
    · rw [hg c]
      exact he
  · exact ⟨c, e, by rw [cluster_upd, if_neg hs]; exact hc, he, hp⟩

theorem plusFlag_upd_rev (st : MarkState) (spec : PackageSpec) (g : Cluster → Cluster)
    (hg : ∀ c, (g c).edges = c.edges) {s : PackageSpec} {key : String}
    (h : plusFlag (st.upd spec g) s key) : plusFlag st s key := by
  obtain ⟨c, e, hc, he, hp⟩ := h
  rw [cluster_upd] at hc
  by_cases hs : s = spec
  · rw [if_pos hs] at hc
    cases hl : st.cluster spec with
    | none =>
      rw [hl] at hc
      simp at hc
    | some c0 =>
      rw [hl] at hc
      simp only [Option.map_some'] at hc
      injection hc with hc
      subst hc
      rw [hg c0] at he
      subst hs
      exact ⟨c0, e, hl, he, hp⟩
  · rw [if_neg hs] at hc
    exact ⟨c, e, hc, he, hp⟩

theorem tiOf_upd_fwd (st : MarkState) (spec : PackageSpec) (g : Cluster → Cluster)
    (hg : ∀ c f, f ∈ c.to_install_features → f ∈ (g c).to_install_features)
    {s : PackageSpec} {f : String} (h : tiOf st s f) : tiOf (st.upd spec g) s f := by
  obtain ⟨c, hc, hf⟩ := h
  by_cases hs : s = spec
  · subst hs
    refine ⟨g c, ?_, hg c f hf⟩
    rw [cluster_upd, if_pos rfl, hc]
    rfl
  · exact ⟨c, by rw [cluster_upd, if_neg hs]; exact hc, hf⟩

theorem plusFlag_setPlus_rev (st : MarkState) (spec : PackageSpec) (fkey : String)
    {s : PackageSpec} {key : String} (h : plusFlag (st.setPlus spec fkey) s key) :
    plusFlag st s key ∨ (s = spec ∧ key = fkey) := by
  obtain ⟨c, e, hc, he, hp⟩ := h
  unfold MarkState.setPlus at hc
  rw [cluster_upd] at hc
  by_cases hs : s = spec
  · rw [if_pos hs] at hc
    cases hl : st.cluster spec with
    | none =>
      rw [hl] at hc
      simp at hc
    | some c0 =>
      rw [hl] at hc
      simp only [Option.map_some'] at hc
      injection hc with hc
      subst hc
      rw [alookup_amap] at he
      by_cases hk : key = fkey
      · exact Or.inr ⟨hs, hk⟩
      · rw [if_neg hk] at he
        subst hs
        exact Or.inl ⟨c0, e, hl, he, hp⟩
  · rw [if_neg hs] at hc
    exact Or.inl ⟨c, e, hc, he, hp⟩

theorem plusFlag_plusPre_self (st : MarkState) (spec : PackageSpec) (f : String) (c : Cluster)
    (hc : st.cluster spec = some c) (e : FeatureNodeEdges) (he : alookup c.edges f = some e) :
    plusFlag (plusPre st spec f c) spec f := by
  unfold plusPre MarkState.setPlus
  by_cases horig : f ∈ c.original_features
  · rw [if_pos horig]
    refine ⟨{ c with edges := amap c.edges f (fun e2 => { e2 with plus := true }) },
      { e with plus := true }, ?_, ?_, rfl⟩
    · rw [cluster_upd, if_pos rfl, hc]
      rfl
    · rw [alookup_amap, if_pos rfl, he]
      rfl
  · rw [if_neg horig]
    refine ⟨{ c with
                transient_uninstalled := true,
                edges := amap c.edges f (fun e2 => { e2 with plus := true }) },
      { e with plus := true }, ?_, ?_, rfl⟩
    · rw [cluster_upd, if_pos rfl, cluster_upd, if_pos rfl, hc]
      rfl
    · rw [alookup_amap, if_pos rfl, he]
      rfl

theorem WRInv_eq_parts {st st2 : MarkState} (hc : st2.clusters = st.clusters)
    (hw : ∀ w ∈ st.warnings, w ∈ st2.warnings) {P : List PackageSpec}
    {Q : List (PackageSpec × String)} (h : WRInv P Q st) : WRInv P Q st2 := by
  have hcl : ∀ s, st2.cluster s = st.cluster s := fun s => by
    unfold MarkState.cluster
    rw [hc]
  have hpf : ∀ s key, plusFlag st2 s key ↔ plusFlag st s key := fun s key => by
    unfold plusFlag
    rw [hcl s]
  refine ⟨?_, ?_, ?_⟩
  · intro s c hcs hwr hP
    obtain ⟨h1, h2⟩ := h.1 s c (by rw [← hcl s]; exact hcs) hwr hP
    refine ⟨h1, fun f hf => ?_⟩
    rcases h2 f hf with hp | hw2
    · exact Or.inl ((hpf s f).mpr hp)
    · exact Or.inr (hw _ hw2)
  · intro s key hpk hq
    obtain ⟨cc, hcc, hti⟩ := h.2.1 s key ((hpf s key).mp hpk) hq
    exact ⟨cc, by rw [hcl s]; exact hcc, hti⟩
  · intro s c hcs
    exact h.2.2 s c (by rw [← hcl s]; exact hcs)

theorem WRInv_upd_generic (st : MarkState) (spec : PackageSpec) (g : Cluster → Cluster)
    (hedges : ∀ c, (g c).edges = c.edges)
    (hwr : ∀ c, (g c).will_remove = c.will_remove)
    (htr : ∀ c, c.transient_uninstalled = true → (g c).transient_uninstalled = true)
    (horig : ∀ c, (g c).original_features = c.original_features)
    (hti : ∀ c f, f ∈ c.to_install_features → f ∈ (g c).to_install_features)
    {P : List PackageSpec} {Q : List (PackageSpec × String)}
    (h : WRInv P Q st) : WRInv P Q (st.upd spec g) := by
  refine ⟨?_, ?_, ?_⟩
  · intro s c hcs hwrc hP
    rw [cluster_upd] at hcs
    by_cases hs : s = spec
    · rw [if_pos hs] at hcs
      cases hl : st.cluster spec with
      | none =>
        rw [hl] at hcs
        simp at hcs
      | some c0 =>
        rw [hl] at hcs
        simp only [Option.map_some'] at hcs
        injection hcs with hcs
        subst hcs
        subst hs
        rw [hwr c0] at hwrc
        obtain ⟨tr0, obl0⟩ := h.1 s c0 hl hwrc hP
        refine ⟨htr c0 tr0, fun f hf => ?_⟩
        rw [horig c0] at hf
        rcases obl0 f hf with hp | hw
        · exact Or.inl (plusFlag_upd_fwd st s g hedges hp)
        · exact Or.inr hw
    · rw [if_neg hs] at hcs
      obtain ⟨tr0, obl0⟩ := h.1 s c hcs hwrc hP
      refine ⟨tr0, fun f hf => ?_⟩
      rcases obl0 f hf with hp | hw
      · exact Or.inl (plusFlag_upd_fwd st spec g hedges hp)
      · exact Or.inr hw
  · intro s key hpk hq
    obtain ⟨cc, hcc, hti2⟩ := h.2.1 s key (plusFlag_upd_rev st spec g hedges hpk) hq
    exact tiOf_upd_fwd st spec g hti ⟨cc, hcc, hti2⟩
  · intro s c hcs
    rw [cluster_upd] at hcs
    by_cases hs : s = spec
    · rw [if_pos hs] at hcs
      cases hl : st.cluster spec with
      | none =>
        rw [hl] at hcs
        simp at hcs
      | some c0 =>
        rw [hl] at hcs
        simp only [Option.map_some'] at hcs
        injection hcs with hcs
        subst hcs
        subst hs
        rw [horig c0]
        exact h.2.2 s c0 hl
    · rw [if_neg hs] at hcs
      exact h.2.2 s c hcs

theorem WRInv_setPlus (st : MarkState) (spec : PackageSpec) (fkey : String)
    {P : List PackageSpec} {Q : List (PackageSpec × String)} (h : WRInv P Q st) :
    WRInv P ((spec, fkey) :: Q) (st.setPlus spec fkey) := by
  have hle : StateLe st (st.setPlus spec fkey) :=
    StateLe.upd st spec _ (fun cl => ClusterLe.setPlusEdge cl fkey)
  refine ⟨?_, ?_, ?_⟩
  · intro s c hcs hwrc hP
    unfold MarkState.setPlus at hcs
    rw [cluster_upd] at hcs
    by_cases hs : s = spec
    · rw [if_pos hs] at hcs
      cases hl : st.cluster spec with
      | none =>
        rw [hl] at hcs
        simp at hcs
      | some c0 =>
        rw [hl] at hcs
        simp only [Option.map_some'] at hcs
        injection hcs with hcs
        subst hcs
        subst hs
        obtain ⟨tr0, obl0⟩ := h.1 s c0 hl hwrc hP
        refine ⟨tr0, fun f hf => ?_⟩
        rcases obl0 f hf with hp | hw
        · exact Or.inl (plusFlag_mono hle hp)
        · exact Or.inr hw
    · rw [if_neg hs] at hcs
      obtain ⟨tr0, obl0⟩ := h.1 s c hcs hwrc hP
      refine ⟨tr0, fun f hf => ?_⟩
      rcases obl0 f hf with hp | hw
      · exact Or.inl (plusFlag_mono hle hp)
      · exact Or.inr hw
  · intro s key hpk hq
    rcases plusFlag_setPlus_rev st spec fkey hpk with hold | ⟨rfl, rfl⟩
    · have hnq : (s, key) ∉ Q := fun hm => hq (List.mem_cons_of_mem _ hm)
      exact tiOf_mono hle (h.2.1 s key hold hnq)
    · exact absurd (List.mem_cons_self _ _) hq
  · intro s c hcs
    unfold MarkState.setPlus at hcs
    rw [cluster_upd] at hcs
    by_cases hs : s = spec
    · rw [if_pos hs] at hcs
      cases hl : st.cluster spec with
      | none =>
        rw [hl] at hcs
        simp at hcs
      | some c0 =>
        rw [hl] at hcs
        simp only [Option.map_some'] at hcs
        injection hcs with hcs
        subst hcs
        subst hs
        exact h.2.2 s c0 hl
    · rw [if_neg hs] at hcs
      exact h.2.2 s c hcs

theorem WRInv_plusPre (st : MarkState) (spec : PackageSpec) (f : String) (c : Cluster)
    {P : List PackageSpec} {Q : List (PackageSpec × String)} (h : WRInv P Q st) :
    WRInv P ((spec, f) :: Q) (plusPre st spec f c) := by
  unfold plusPre
  by_cases horig : f ∈ c.original_features
  · rw [if_pos horig]
    exact WRInv_setPlus st spec f h
  · rw [if_neg horig]
    refine WRInv_setPlus _ spec f ?_
    exact WRInv_upd_generic st spec
      (fun cl => { cl with transient_uninstalled := true })
      (fun cl => rfl) (fun cl => rfl) (fun cl h2 => rfl)
      (fun cl => rfl) (fun cl g hg => hg) h

theorem WRInv_plusMid (st : MarkState) (spec : PackageSpec) (fkey : String) (c0 : Cluster)
    (hc0 : st.cluster spec = some c0) {P : List PackageSpec}
    {Q : List (PackageSpec × String)} (h : WRInv P ((spec, fkey) :: Q) st) :
    WRInv P Q (plusMid st spec fkey) := by
  have hle : StateLe st (plusMid st spec fkey) := StateLe.plusMid st spec fkey
  have hcIG : ({ st with install_graph := st.install_graph.addVertex spec } :
      MarkState).cluster spec = some c0 := hc0
  refine ⟨?_, ?_, ?_⟩
  · intro s c hcs hwrc hP
    unfold plusMid at hcs
    rw [cluster_upd] at hcs
    by_cases hs : s = spec
    · rw [if_pos hs] at hcs
      rw [hcIG] at hcs
      simp only [Option.map_some'] at hcs
      injection hcs with hcs
      subst hcs
      subst hs
      obtain ⟨tr0, obl0⟩ := h.1 s c0 hc0 hwrc hP
      refine ⟨tr0, fun f hf => ?_⟩
      rcases obl0 f hf with hp | hw
      · exact Or.inl (plusFlag_mono hle hp)
      · exact Or.inr hw
    · rw [if_neg hs] at hcs
      obtain ⟨tr0, obl0⟩ := h.1 s c hcs hwrc hP
      refine ⟨tr0, fun f hf => ?_⟩
      rcases obl0 f hf with hp | hw
      · exact Or.inl (plusFlag_mono hle hp)
      · exact Or.inr hw
  · intro s key hpk hq
    have hrev : plusFlag st s key := by
      have h2 := plusFlag_upd_rev { st with install_graph := st.install_graph.addVertex spec }
        spec (fun cl => { cl with to_install_features := sinsert fkey cl.to_install_features })
        (fun cl => rfl) hpk
      exact h2
    by_cases hcase : s = spec ∧ key = fkey
    · obtain ⟨he1, he2⟩ := hcase
      rw [he1, he2]
      refine ⟨{ c0 with to_install_features := sinsert fkey c0.to_install_features }, ?_, ?_⟩
      · show (plusMid st spec fkey).cluster spec = _
        unfold plusMid
        rw [cluster_upd, if_pos rfl, hcIG]
        rfl
      · exact (mem_sinsert fkey fkey _).mpr (Or.inl rfl)
    · have hne : (s, key) ∉ (spec, fkey) :: Q := by
        intro hm
        rcases List.mem_cons.mp hm with he | hm2
        · rw [Prod.mk.injEq] at he
          exact hcase he
        · exact hq hm2
      exact tiOf_mono hle (h.2.1 s key hrev hne)
  · intro s c hcs
    unfold plusMid at hcs
    rw [cluster_upd] at hcs
    by_cases hs : s = spec
    · rw [if_pos hs] at hcs
      rw [hcIG] at hcs
      simp only [Option.map_some'] at hcs
      injection hcs with hcs
      subst hcs
      subst hs
      exact h.2.2 s c0 hc0
    · rw [if_neg hs] at hcs
      exact h.2.2 s c hcs

theorem WRInv_minusPre (st : MarkState) (spec : PackageSpec) {P : List PackageSpec}
    {Q : List (PackageSpec × String)} (h : WRInv P Q st) :
    WRInv (spec :: P) Q (minusPre st spec) := by
  have hinner : WRInv (spec :: P) Q
      (st.upd spec (fun cl => { cl with will_remove := true })) := by
    refine ⟨?_, ?_, ?_⟩
    · intro s c hcs hwrc hP
      have hsne : s ≠ spec := fun he => hP (he ▸ List.mem_cons_self spec P)
      rw [cluster_upd, if_neg hsne] at hcs
      have hPP : s ∉ P := fun hm => hP (List.mem_cons_of_mem _ hm)
      obtain ⟨tr0, obl0⟩ := h.1 s c hcs hwrc hPP
      refine ⟨tr0, fun f hf => ?_⟩
      rcases obl0 f hf with hp | hw
      · exact Or.inl (plusFlag_upd_fwd st spec
          (fun cl => { cl with will_remove := true }) (fun cl => rfl) hp)
      · exact Or.inr hw
    · intro s key hpk hq
      exact tiOf_upd_fwd st spec (fun cl => { cl with will_remove := true })
        (fun cl g hg => hg)
        (h.2.1 s key (plusFlag_upd_rev st spec
          (fun cl => { cl with will_remove := true }) (fun cl => rfl) hpk) hq)
    · intro s c hcs
      rw [cluster_upd] at hcs
      by_cases hs : s = spec
      · rw [if_pos hs] at hcs
        cases hl : st.cluster spec with
        | none =>
          rw [hl] at hcs
          simp at hcs
        | some c0 =>
          rw [hl] at hcs
          simp only [Option.map_some'] at hcs
          injection hcs with hcs
          subst hcs
          subst hs
          exact h.2.2 s c0 hl
      · rw [if_neg hs] at hcs
        exact h.2.2 s c hcs
  exact WRInv_eq_parts rfl (fun w hw => hw) hinner

theorem WRInv_replayPost (st : MarkState) (r : MarkPlusResult) (spec : PackageSpec)
    (f : String) {P : List PackageSpec} {Q : List (PackageSpec × String)}
    (h : WRInv P Q st) : WRInv P Q (replayPost st r spec f) := by
  unfold replayPost
  by_cases hr : r = MarkPlusResult.SUCCESS
  · rw [if_pos hr]
    exact h
  · rw [if_neg hr]
    exact @WRInv_eq_parts st
      { st with warnings := st.warnings ++ [{ spec := spec, feature := f }] }
      rfl (fun w hw => List.mem_append_left _ hw) P Q h

theorem all_emplace (Pn : FeatureNodeEdges → Prop) (edges : List (String × FeatureNodeEdges))
    (key : String) (node : FeatureNodeEdges) (hn : Pn node)
    (h : ∀ q ∈ edges, Pn q.2) : ∀ q ∈ emplaceEdge edges key node, Pn q.2 := by
  intro q hq
  unfold emplaceEdge at hq
  cases halo : alookup edges key with
  | some e0 =>
    rw [halo] at hq
    exact h q hq
  | none =>
    rw [halo] at hq
    rcases List.mem_append.mp hq with hl | hr
    · exact h q hl
    · rw [List.mem_singleton] at hr
      subst hr
      exact hn

theorem cluster_from_scf_all (Pn : FeatureNodeEdges → Prop)
    (hmk : ∀ be, Pn { remove_edges := [], build_edges := be, plus := false })
    (scf : SourceControlFile) (c : Cluster) (hc : ∀ pr ∈ c.edges, Pn pr.2) :
    ∀ pr ∈ (cluster_from_scf scf c).edges, Pn pr.2 := by
  have key : ∀ q ∈ scf.feature_paragraphs.foldl
      (fun acc fp => emplaceEdge acc fp.name
        { remove_edges := [], plus := false,
          build_edges := filter_dependencies_to_specs fp.depends c.spec.triplet })
      (emplaceEdge c.edges "core"
        { remove_edges := [], plus := false,
          build_edges := filter_dependencies_to_specs scf.core_paragraph.depends c.spec.triplet }),
      Pn q.2 :=
    foldl_preserve (fun edges => ∀ q ∈ edges, Pn q.2)
      (fun acc fp => emplaceEdge acc fp.name
        { remove_edges := [], plus := false,
          build_edges := filter_dependencies_to_specs fp.depends c.spec.triplet })
      scf.feature_paragraphs
      (emplaceEdge c.edges "core"
        { remove_edges := [], plus := false,
          build_edges := filter_dependencies_to_specs scf.core_paragraph.depends c.spec.triplet })
      (fun acc fp hfp hacc => all_emplace Pn acc fp.name _ (hmk _) hacc)
      (all_emplace Pn c.edges "core" _ (hmk _) hc)
  exact key

theorem cluster_materialize_cases (prov : PortProvider) (st : MarkState) (sp s : PackageSpec)
    (c : Cluster) (hc : (MarkState.materialize prov st sp).cluster s = some c) :
    st.cluster s = some c ∨
    (s = sp ∧ st.cluster sp = none ∧ c.will_remove = false ∧ c.original_features = [] ∧
      ∀ pr ∈ c.edges, pr.2.plus = false) := by
  have hc2 : alookup (clusterGet prov st.clusters sp).2 s = some c := hc
  unfold clusterGet at hc2
  cases hl : alookup st.clusters sp with
  | some c0 =>
    rw [hl] at hc2
    exact Or.inl hc2
  | none =>
    rw [hl] at hc2
    simp only [] at hc2
    by_cases hs : s = sp
    · subst hs
      rw [alookup_append_right _ _ _ hl, alookup_cons, if_pos rfl] at hc2
      injection hc2 with hc2
      subst hc2
      refine Or.inr ⟨rfl, hl, ?_, ?_, ?_⟩
      · cases hg : get_control_file prov s.name with
        | some scf =>
          simp only [hg]
          rfl
        | none =>
          simp only [hg]
          rfl
      · cases hg : get_control_file prov s.name with
        | some scf =>
          simp only [hg]
          rfl
        | none =>
          simp only [hg]
          rfl
      · cases hg : get_control_file prov s.name with
        | some scf =>
          simp only [hg]
          exact cluster_from_scf_all (fun e => e.plus = false) (fun be => rfl) scf
            (Cluster.fresh s) (fun pr hpr => absurd hpr (List.not_mem_nil _))
        | none =>
          simp only [hg]
          exact fun pr hpr => absurd hpr (List.not_mem_nil _)
    · cases hls : alookup st.clusters s with
      | some c1 =>
        rw [alookup_append_left _ _ _ _ hls] at hc2
        injection hc2 with hc2
        subst hc2
        exact Or.inl hls
      | none =>
        rw [alookup_append_right _ _ _ hls, alookup_cons,
          if_neg (fun hh => hs hh.symm)] at hc2
        simp at hc2

theorem WRInv_materialize (prov : PortProvider) (st : MarkState) (sp : PackageSpec)
    {P : List PackageSpec} {Q : List (PackageSpec × String)} (h : WRInv P Q st) :
    WRInv P Q (MarkState.materialize prov st sp) := by
  refine ⟨?_, ?_, ?_⟩
  · intro s c hc hwr hP
    rcases cluster_materialize_cases prov st sp s c hc with hold | ⟨heq, hnone, hwrf, horig, hpl⟩
    · obtain ⟨tr0, obl0⟩ := h.1 s c hold hwr hP
      refine ⟨tr0, fun f hf => ?_⟩
      rcases obl0 f hf with hp | hw
      · exact Or.inl (plusFlag_mono (StateLe.materialize prov st sp) hp)
      · exact Or.inr hw
    · rw [hwrf] at hwr
      exact absurd hwr (by decide)
  · intro s key hpk hq
    obtain ⟨c, e, hcc, he, hp⟩ := hpk
    rcases cluster_materialize_cases prov st sp s c hcc with hold | ⟨heq, hnone, hwrf, horig, hpl⟩
    · exact tiOf_mono (StateLe.materialize prov st sp) (h.2.1 s key ⟨c, e, hold, he, hp⟩ hq)
    · have hfalse := hpl (key, e) (alookup_mem he)
      rw [hfalse] at hp
      exact absurd hp (by decide)
  · intro s c hc
    rcases cluster_materialize_cases prov st sp s c hc with hold | ⟨heq, hnone, hwrf, horig, hpl⟩
    · exact h.2.2 s c hold
    · rw [horig]
      exact List.not_mem_nil ""

theorem plusPre_cluster_self (st : MarkState) (spec : PackageSpec) (f : String) (c : Cluster)
    (hc : st.cluster spec = some c) :
    ∃ cA, (plusPre st spec f c).cluster spec = some cA := by
  unfold plusPre MarkState.setPlus
  by_cases horig : f ∈ c.original_features
  · rw [if_pos horig]
    rw [cluster_upd, if_pos rfl, hc]
    exact ⟨_, rfl⟩
  · rw [if_neg horig]
    rw [cluster_upd, if_pos rfl, cluster_upd, if_pos rfl, hc]
    exact ⟨_, rfl⟩

theorem minusPre_cluster_self (st : MarkState) (spec : PackageSpec) (c : Cluster)
    (hc : st.cluster spec = some c) :
    (minusPre st spec).cluster spec = some { c with will_remove := true } := by
  show (st.upd spec (fun cl => { cl with will_remove := true })).cluster spec = _
  rw [cluster_upd, if_pos rfl, hc]
  rfl

theorem minusMid_cluster_self (st : MarkState) (spec : PackageSpec) (c : Cluster)
    (hc : st.cluster spec = some c) :
    (minusMid st spec).cluster spec = some { c with transient_uninstalled := true } := by
  unfold minusMid
  rw [cluster_upd, if_pos rfl, hc]
  rfl

theorem origsOf_eq (st : MarkState) (spec : PackageSpec) (c : Cluster)
    (hc : st.cluster spec = some c) : origsOf st spec = c.original_features := by
  unfold origsOf
  rw [hc]
  rfl

theorem replayPost_clusters (st : MarkState) (r : MarkPlusResult) (spec : PackageSpec)
    (f : String) : (replayPost st r spec f).clusters = st.clusters := by
  unfold replayPost
  split <;> rfl

/-- The mark engine preserves the feature-preservation invariant: every
cluster marked for removal replays each original feature, recording it in
the planned feature set or emitting a reinstall warning. -/
theorem markRun_wr (prov : PortProvider) :
    ∀ n cmd st r st2 P Q, markRun prov n cmd st = some (r, st2) → WRInv P Q st →
      WRPre cmd st → WRInv P Q st2 ∧ WRPost cmd st st2 r := by
  intro n
  induction n with
  | zero =>
    intro cmd st r st2 P Q h _ _
    simp [markRun] at h
  | succ n ih =>
    intro cmd st r st2 P Q h hinv hpre
    cases cmd with
    | plus f spec =>
      rcases markPlus_step h with ⟨hf, h2⟩ | ⟨hf, c, hcl, hcase⟩
      · obtain ⟨hinv2, hpost2⟩ := ih _ _ _ _ P Q h2 hinv True.intro
        refine ⟨hinv2, ?_⟩
        intro hr
        have hp2 := hpost2 hr
        rw [if_pos hf]
        rwa [if_neg (by decide : ¬ ("core" = ""))] at hp2
      · rcases hcase with ⟨hedge, hreq, hst⟩ | ⟨e, hedge, hp, hreq, hst⟩ |
          ⟨e, hedge, hpf, horig, htr, hreq, hst⟩ |
          ⟨e, hedge, hpf, htrt, p3, hp3, p6, hp6, hr6, p7, hp7, hreq, hst⟩
        · subst hst
          refine ⟨hinv, ?_⟩
          intro hr
          rw [hreq] at hr
          exact absurd hr (by decide)
        · subst hst
          refine ⟨hinv, ?_⟩
          intro hr
          rw [if_neg hf]
          exact Or.inl ⟨c, e, hcl, hedge, hp⟩
        · subst hst
          refine ⟨hinv, ?_⟩
          intro hr
          rw [if_neg hf]
          exact Or.inr ⟨c, hcl, horig, htr⟩
        · subst hst
          have hinvA : WRInv P ((spec, f) :: Q) (plusPre st spec f c) :=
            WRInv_plusPre st spec f c hinv
          have hp3' : WRInv P ((spec, f) :: Q) p3.2 ∧ StateLe (plusPre st spec f c) p3.2 := by
            split at hp3
            · simp only [Option.some.injEq] at hp3
              constructor
              · rw [← hp3]
                exact hinvA
              · rw [← hp3]
                exact stateLe_refl _
            · exact ⟨(ih _ _ _ _ P ((spec, f) :: Q) hp3 hinvA True.intro).1,
                markRun_mono prov _ _ _ _ _ hp3⟩
          obtain ⟨cA, hcA⟩ := plusPre_cluster_self st spec f c hcl
          obtain ⟨c3, hc3, hle3⟩ := hp3'.2.1 spec cA hcA
          have hinvMid : WRInv P Q (plusMid p3.2 spec f) :=
            WRInv_plusMid p3.2 spec f c3 hc3 hp3'.1
          have hp6' : WRInv P Q p6.2 ∧ StateLe (plusMid p3.2 spec f) p6.2 := by
            split at hp6
            · simp only [Option.some.injEq] at hp6
              constructor
              · rw [← hp6]
                exact hinvMid
              · rw [← hp6]
                exact stateLe_refl _
            · exact ⟨(ih _ _ _ _ P Q hp6 hinvMid True.intro).1,
                markRun_mono prov _ _ _ _ _ hp6⟩
          have hfin := (ih _ _ _ _ P Q hp7 hp6'.1 True.intro).1
          refine ⟨hfin, ?_⟩
          intro hr
          rw [if_neg hf]
          refine Or.inl ?_
          have hflagA : plusFlag (plusPre st spec f c) spec f :=
            plusFlag_plusPre_self st spec f c hcl e hedge
          have hle7 : StateLe p6.2 p7.2 := markRun_mono prov _ _ _ _ _ hp7
          exact plusFlag_mono hle7 (plusFlag_mono hp6'.2 (plusFlag_mono
            (StateLe.plusMid p3.2 spec f) (plusFlag_mono hp3'.2 hflagA)))
    | plusDeps spec deps =>
      cases deps with
      | nil =>
        simp only [markRun, Option.some.injEq, Prod.mk.injEq] at h
        refine ⟨?_, True.intro⟩
        rw [← h.2]
        exact hinv
      | cons d rest =>
        obtain ⟨p, hp, hpr, h2⟩ := markPlusDeps_step h
        have hm := WRInv_materialize prov st d.spec hinv
        have h1 := (ih _ _ _ _ P Q hp hm True.intro).1
        have hdp : WRInv P Q (depPost p.2 spec d) := by
          unfold depPost
          by_cases hd : d.spec = spec
          · rw [if_pos hd]
            exact h1
          · rw [if_neg hd]
            exact WRInv_eq_parts rfl (fun w hw => hw) h1
        exact ⟨(ih _ _ _ _ P Q h2 hdp True.intro).1, True.intro⟩
    | minus spec =>
      obtain ⟨c, hcl, hcase⟩ := markMinus_step h
      rcases hcase with ⟨hwr, hreq, hst⟩ | ⟨hwrf, p, hp, h2⟩
      · subst hst
        exact ⟨hinv, True.intro⟩
      · have hinvPre : WRInv (spec :: P) Q (minusPre st spec) := WRInv_minusPre st spec hinv
        have h1 := (ih _ _ _ _ (spec :: P) Q hp hinvPre True.intro).1
        have hinvMid : WRInv (spec :: P) Q (minusMid p.2 spec) :=
          WRInv_upd_generic p.2 spec (fun cl => { cl with transient_uninstalled := true })
            (fun cl => rfl) (fun cl => rfl) (fun cl h3 => rfl) (fun cl => rfl)
            (fun cl g hg => hg) h1
        have hclPre : (minusPre st spec).cluster spec = some { c with will_remove := true } :=
          minusPre_cluster_self st spec c hcl
        have hleP : StateLe (minusPre st spec) p.2 := markRun_mono prov _ _ _ _ _ hp
        obtain ⟨cP, hcP, hleCP⟩ := hleP.1 spec _ hclPre
        have hclMid : (minusMid p.2 spec).cluster spec =
            some { cP with transient_uninstalled := true } :=
          minusMid_cluster_self p.2 spec cP hcP
        have hreplayPre : WRPre (Cmd.minusReplay spec (origsOf (minusMid p.2 spec) spec))
            (minusMid p.2 spec) := by
          refine ⟨{ cP with transient_uninstalled := true }, hclMid, rfl, ?_, ?_⟩
          · intro f hf
            rwa [origsOf_eq _ _ _ hclMid] at hf
          · intro f hf hnf
            rw [← origsOf_eq _ _ _ hclMid] at hf
            exact absurd hf hnf
        obtain ⟨hinvFin, hpostR⟩ := ih _ _ _ _ (spec :: P) Q h2 hinvMid hreplayPre
        obtain ⟨c2, hc2, hobl⟩ := hpostR
        have hleR : StateLe (minusMid p.2 spec) st2 := markRun_mono prov _ _ _ _ _ h2
        obtain ⟨c2', hc2', hleC2⟩ := hleR.1 spec _ hclMid
        have hc2eq : c2 = c2' := by
          have h3 := hc2.symm.trans hc2'
          injection h3
        have htrC2 : c2.transient_uninstalled = true := by
          rw [hc2eq]
          exact hleC2.tr_mono rfl
        refine ⟨⟨?_, hinvFin.2.1, hinvFin.2.2⟩, True.intro⟩
        intro s cs hcs hwrs hPs
        by_cases hs : s = spec
        · subst hs
          have hq : c2 = cs := by
            rw [hc2] at hcs
            injection hcs
          rw [← hq]
          exact ⟨htrC2, hobl⟩
        · have hPs2 : s ∉ spec :: P := by
            intro hm
            rcases List.mem_cons.mp hm with he | hm2
            · exact hs he
            · exact hPs hm2
          exact hinvFin.1 s cs hcs hwrs hPs2
    | minusRev spec deps =>
      cases deps with
      | nil =>
        simp only [markRun, Option.some.injEq, Prod.mk.injEq] at h
        refine ⟨?_, True.intro⟩
        rw [← h.2]
        exact hinv
      | cons d rest =>
        obtain ⟨p, hp, h2⟩ := markMinusRev_step h
        have hrev : WRInv P Q (revPre prov st spec d) := by
          unfold revPre
          exact WRInv_eq_parts rfl (fun w hw => hw) (WRInv_materialize prov st d.spec hinv)
        have h1 := (ih _ _ _ _ P Q hp hrev True.intro).1
        exact ⟨(ih _ _ _ _ P Q h2 h1 True.intro).1, True.intro⟩
    | minusReplay spec feats =>
      obtain ⟨c, hclR, htrR, hfeats, hsettled⟩ := hpre
      cases feats with
      | nil =>
        simp only [markRun, Option.some.injEq, Prod.mk.injEq] at h
        obtain ⟨hr1, hst⟩ := h
        rw [← hst]
        exact ⟨hinv, c, hclR, fun f hf => hsettled f hf (List.not_mem_nil f)⟩
      | cons f0 rest =>
        obtain ⟨p, hp, h2⟩ := markMinusReplay_step h
        have hforig : f0 ∈ c.original_features := hfeats f0 (List.mem_cons_self f0 rest)
        have hfne : f0 ≠ "" := fun he => hinv.2.2 spec c hclR (he ▸ hforig)
        obtain ⟨hinvP, hpostP⟩ := ih _ _ _ _ P Q hp hinv True.intro
        have hleP : StateLe st p.2 := markRun_mono prov _ _ _ _ _ hp
        have hinvR : WRInv P Q (replayPost p.2 p.1 spec f0) :=
          WRInv_replayPost p.2 p.1 spec f0 hinvP
        have hleR : StateLe p.2 (replayPost p.2 p.1 spec f0) :=
          StateLe.replayPost p.2 p.1 spec f0
        have hsettled0 : plusFlag (replayPost p.2 p.1 spec f0) spec f0 ∨
            warned (replayPost p.2 p.1 spec f0) spec f0 := by
          by_cases hs : p.1 = MarkPlusResult.SUCCESS
          · rcases hpostP hs with hpl | ⟨c', hc', hor', htr'⟩
            · rw [if_neg hfne] at hpl
              exact Or.inl (plusFlag_mono hleR hpl)
            · rw [hclR] at hc'
              injection hc' with hc'
              rw [← hc'] at htr'
              rw [htrR] at htr'
              exact absurd htr' (by decide)
          · refine Or.inr ?_
            unfold replayPost warned
            rw [if_neg hs]
            exact List.mem_append_right _ (List.mem_singleton.mpr rfl)
        obtain ⟨cP, hcPl, hlecP⟩ := hleP.1 spec c hclR
        have hcR : (replayPost p.2 p.1 spec f0).cluster spec = some cP := by
          unfold MarkState.cluster
          rw [replayPost_clusters]
          exact hcPl
        have hpreR : WRPre (Cmd.minusReplay spec rest) (replayPost p.2 p.1 spec f0) := by
          refine ⟨cP, hcR, hlecP.tr_mono htrR, ?_, ?_⟩
          · intro g hg
            rw [hlecP.orig_eq]
            exact hfeats g (List.mem_cons_of_mem f0 hg)
          · intro g hg hgn
            rw [hlecP.orig_eq] at hg
            by_cases hgf : g = f0
            · rw [hgf]
              exact hsettled0
            · have hgnot : g ∉ f0 :: rest := by
                intro hm
                rcases List.mem_cons.mp hm with he | hm2
                · exact hgf he
                · exact hgn hm2
              rcases hsettled g hg hgnot with hpl | hw
              · exact Or.inl (plusFlag_mono (stateLe_trans hleP hleR) hpl)
              · exact Or.inr (warned_mono (stateLe_trans hleP hleR) hw)
        obtain ⟨hinvF, hpostF⟩ :=
          ih (Cmd.minusReplay spec rest) (replayPost p.2 p.1 spec f0) r st2 P Q h2 hinvR hpreR
        exact ⟨hinvF, hpostF⟩

theorem InitOk_nil : InitOk [] := by
  intro s c hc
  simp [alookup] at hc

theorem InitOk_clusterGet (prov : PortProvider) (sp : PackageSpec) (arena : ClusterArena)
    (h : InitOk arena) : InitOk (clusterGet prov arena sp).2 := by
  intro s c hc
  have hc2 : (MarkState.materialize prov (arenaSt arena) sp).cluster s = some c := hc
  rcases cluster_materialize_cases prov (arenaSt arena) sp s c hc2 with
    hold | ⟨heq, hnone, hwrf, horig, hpl⟩
  · exact h s c hold
  · refine ⟨hwrf, ?_, hpl⟩
    rw [horig]
    exact List.not_mem_nil ""

theorem InitOk_updateCluster (arena : ClusterArena) (sp : PackageSpec) (g : Cluster → Cluster)
    (hg : ∀ c, (c.will_remove = false ∧ "" ∉ c.original_features ∧
        ∀ pr ∈ c.edges, pr.2.plus = false) →
      (g c).will_remove = false ∧ "" ∉ (g c).original_features ∧
        ∀ pr ∈ (g c).edges, pr.2.plus = false)
    (h : InitOk arena) : InitOk (updateCluster arena sp g) := by
  intro s c hc
  unfold updateCluster at hc
  rw [alookup_amap] at hc
  by_cases hs : s = sp
  · rw [if_pos hs] at hc
    cases hl : alookup arena sp with
    | none =>
      rw [hl] at hc
      simp at hc
    | some c0 =>
      rw [hl] at hc
      simp only [Option.map_some'] at hc
      injection hc with hc
      subst hc
      exact hg c0 (h sp c0 hl)
  · rw [if_neg hs] at hc
    exact h s c hc

theorem InitOk_installedPass (prov : PortProvider) (rows : StatusDb) (arena : ClusterArena)
    (h : InitOk arena) : InitOk (installedPass prov rows arena) := by
  have key : InitOk (rows.foldl
      (fun acc row =>
        updateCluster (clusterGet prov acc row.spec).2 row.spec (fun c =>
          { c with
            transient_uninstalled := false,
            status_paragraphs := c.status_paragraphs ++ [row],
            original_features :=
              sinsert (if row.feature = "" then "core" else row.feature)
                c.original_features }))
      arena) :=
    foldl_preserve InitOk
      (fun acc row =>
        updateCluster (clusterGet prov acc row.spec).2 row.spec (fun c =>
          { c with
            transient_uninstalled := false,
            status_paragraphs := c.status_paragraphs ++ [row],
            original_features :=
              sinsert (if row.feature = "" then "core" else row.feature)
                c.original_features }))
      rows arena
      (fun acc row hrow hacc =>
        InitOk_updateCluster _ row.spec _
          (fun c hprops => by
            refine ⟨hprops.1, ?_, hprops.2.2⟩
            intro hmem
            rcases (mem_sinsert _ "" _).mp hmem with he | hm
            · by_cases hrf : row.feature = ""
              · rw [if_pos hrf] at he
                exact absurd he (by decide)
              · rw [if_neg hrf] at he
                exact hrf he.symm
            · exact hprops.2.1 hm)
          (InitOk_clusterGet prov row.spec acc hacc))
      h
  exact key

theorem InitOk_addRemoveEdgeEntry (arena : ClusterArena) (sp : PackageSpec) (key : String)
    (rev : FeatureSpec) (h : InitOk arena) : InitOk (addRemoveEdgeEntry arena sp key rev) := by
  refine InitOk_updateCluster arena sp _ ?_ h
  intro c hprops
  cases hke : alookup c.edges key with
  | some e0 =>
    simp only [hke]
    refine ⟨hprops.1, hprops.2.1, ?_⟩
    intro pr hpr
    rcases mem_amap hpr with hin | ⟨q, hq, heq⟩
    · exact hprops.2.2 pr hin
    · subst heq
      exact hprops.2.2 q hq
  | none =>
    simp only [hke]
    refine ⟨hprops.1, hprops.2.1, ?_⟩
    intro pr hpr
    rcases List.mem_append.mp hpr with hin | hnew
    · exact hprops.2.2 pr hin
    · rw [List.mem_singleton] at hnew
      subst hnew
      rfl

theorem InitOk_reverseEdgePass (prov : PortProvider) (rows : StatusDb) (arena : ClusterArena)
    (h : InitOk arena) : InitOk (reverseEdgePass prov rows arena) := by
  have key : InitOk (rows.foldl
      (fun acc row =>
        (FeatureSpec.from_strings_and_triplet row.depends row.spec.triplet).foldl
          (fun acc2 dep =>
            addRemoveEdgeEntry (clusterGet prov acc2 dep.spec).2 dep.spec
              (if dep.feature = "" then "core" else dep.feature)
              { spec := row.spec, feature := row.feature })
          acc)
      arena) :=
    foldl_preserve InitOk
      (fun acc row =>
        (FeatureSpec.from_strings_and_triplet row.depends row.spec.triplet).foldl
          (fun acc2 dep =>
            addRemoveEdgeEntry (clusterGet prov acc2 dep.spec).2 dep.spec
              (if dep.feature = "" then "core" else dep.feature)
              { spec := row.spec, feature := row.feature })
          acc)
      rows arena
      (fun acc row hrow hacc =>
        foldl_preserve InitOk
          (fun acc2 dep =>
            addRemoveEdgeEntry (clusterGet prov acc2 dep.spec).2 dep.spec
              (if dep.feature = "" then "core" else dep.feature)
              { spec := row.spec, feature := row.feature })
          (FeatureSpec.from_strings_and_triplet row.depends row.spec.triplet) acc
          (fun acc2 dep hdep hacc2 =>
            InitOk_addRemoveEdgeEntry _ dep.spec _ _
              (InitOk_clusterGet prov dep.spec acc2 hacc2))
          hacc)
      h
  exact key

/-- The initial planning state satisfies the feature-preservation
invariant with no pending work. -/
theorem WRInv_init (prov : PortProvider) (db : StatusDb) :
    WRInv [] [] (MarkState.init prov db) := by
  have hio : InitOk (MarkState.init prov db).clusters :=
    InitOk_reverseEdgePass prov db _ (InitOk_installedPass prov db [] InitOk_nil)
  refine ⟨?_, ?_, ?_⟩
  · intro s c hc hwr hP
    have h1 := (hio s c hc).1
    rw [h1] at hwr
    exact absurd hwr (by decide)
  · intro s key hpk hq
    obtain ⟨c, e, hc, he, hp⟩ := hpk
    have h3 := (hio s c hc).2.2 (key, e) (alookup_mem he)
    rw [h3] at hp
    exact absurd hp (by decide)
  · intro s c hc
    exact (hio s c hc).2.1

/-- C2: after any sequence of seedings, every cluster whose `will_remove`
flag is set has each of its original features either recorded in
`to_install_features` or covered by a reinstall warning; consequently the
install action `serialize` emits for such a cluster (possible only when
its SCF is present) carries a feature list that includes every original
feature not covered by a warning. -/
theorem will_remove_feature_preservation (prov : PortProvider) (db : StatusDb) (fuel : Nat)
    (seeds : List Seed) (st : MarkState)
    (h : seedAll prov fuel seeds (MarkState.init prov db) = some st) :
    ∀ s c, st.cluster s = some c → c.will_remove = true →
      (∀ f ∈ c.original_features, f ∈ c.to_install_features ∨ warned st s f) ∧
      (∀ a, emitInstall st s = some (some a) →
        ∀ f ∈ c.original_features, f ∈ a.feature_list ∨ warned st s f) := by
  have hwr : WRInv [] [] st := seedAll_preserve prov (WRInv [] [])
    (fun n cmd s0 r s2 hm _ hpre hP => (markRun_wr prov n cmd s0 r s2 [] [] hm hP hpre).1)
    (fun s0 sp hP => WRInv_materialize prov s0 sp hP)
    (fun s0 sp hP => WRInv_upd_generic s0 sp
      (fun cl => { cl with request_type := RequestType.USER_REQUESTED })
      (fun cl => rfl) (fun cl => rfl) (fun cl h3 => h3) (fun cl => rfl)
      (fun cl g hg => hg) hP)
    (fun s0 sp hP => WRInv_eq_parts rfl (fun w hw => hw) hP)
    fuel seeds _ _ h (WRInv_init prov db)
  intro s c hc hwrc
  obtain ⟨htr, hobl⟩ := hwr.1 s c hc hwrc (List.not_mem_nil s)
  have hTI : ∀ f ∈ c.original_features, f ∈ c.to_install_features ∨ warned st s f := by
    intro f hf
    rcases hobl f hf with hpl | hw
    · obtain ⟨c', hc', hti⟩ := hwr.2.1 s f hpl (List.not_mem_nil (s, f))
      have hceq : c' = c := by
        have h3 := hc'.symm.trans hc
        injection h3
      rw [hceq] at hti
      exact Or.inl hti
    · exact Or.inr hw
  refine ⟨hTI, ?_⟩
  intro a ha f hf
  unfold emitInstall at ha
  simp only [hc] at ha
  rw [htr] at ha
  rw [if_pos rfl] at ha
  cases hscf : c.source_control_file with
  | none =>
    rw [hscf] at ha
    exact absurd ha (by simp)
  | some scf =>
    rw [hscf] at ha
    injection ha with ha
    injection ha with ha
    rw [← ha]
    exact hTI f hf

/-- C2 witness: in the demonstration scenario the rebuilt cluster `a` has
its original `core` feature planned for reinstall (no warning needed). -/
theorem will_remove_feature_preservation_witness :
    "core" ∈ demoClusterA.to_install_features ∨
      warned demoStC1 { name := "a", triplet := "x64" } "core" :=
  (will_remove_feature_preservation provC1 dbC1 20
    [Seed.ins { spec := { name := "a", triplet := "x64" }, feature := "x" }]
    demoStC1 (by decide) { name := "a", triplet := "x64" } demoClusterA
    (by decide) (by decide)).1 "core" (by decide)

end Vcpkg
